import Mathlib

/-! TANK partition log: retention pass, segment scan, configuration texts,
flush scheduling, passive cache and the opening of files and segments

A shallow embedding of `src/service.cpp` (TANK's per-partition log engine),
followed by the properties proved of it.

* Machine integers are natural numbers; the width is written out (`% 2 ^ 64`)
  where the source computes in a fixed width.
* Bytes are natural numbers, a buffer is a `List Nat`.
* Code that throws returns `Except`, or a result type with one case per
  exception (`scan_outcome`, `parsed`, `config_error`).
* Texts are lists of characters (`List Char`).
* Effects on the outside world (calls to `Unlink`, lines printed, calls to
  `compact`, `rebuild_index` or `close_partition_log`) are recorded in explicit
  values.
* What the operating system and the Switch library answer is a parameter of
  the function that asks.
-/

namespace Tank

/-! ## Data model of the retention pass -/

/-- The two clean-up policies named in `consider_ro_segments`. -/
inductive CleanupPolicy where
  | DELETE
  | CLEANUP
  deriving DecidableEq, Repr

/-- The fields of `partition_config` that `service.cpp` reads
(`consider_ro_segments`) or writes (`parse_partition_config`).
Modelled from the spec: the declaration of `partition_config` is not part of
`service.cpp`; section 6 gives the limits as unsigned numbers (0 disables a
limit). The widths of the fields are not visible in `service.cpp`: a field
holds the number assigned to it as it is, and
`createdTS + lastSegmentMaxAge` is computed without wrap-around. The comparison
of the cleanable ratio with `logCleanRatioMin` is floating point and is kept
abstract (see `retention_env.ratio_reached`); the field holds the number that
the library reads from the text. -/
structure partition_config where
  roSegmentsCnt : Nat
  roSegmentsSize : Nat
  lastSegmentMaxAge : Nat
  logCleanupPolicy : CleanupPolicy
  maxSegmentSize : Nat
  indexInterval : Nat
  maxIndexSize : Nat
  maxRollJitterSecs : Nat
  curSegmentMaxAge : Nat
  flushIntervalMsgs : Nat
  flushIntervalSecs : Nat
  logCleanRatioMin : ℚ
  deriving DecidableEq, Repr

/-- A configuration with the given retention limits, policy `DELETE`, and all
other fields 0. -/
def retention_limits (roSegmentsCnt roSegmentsSize lastSegmentMaxAge : Nat) : partition_config :=
  { roSegmentsCnt := roSegmentsCnt, roSegmentsSize := roSegmentsSize,
    lastSegmentMaxAge := lastSegmentMaxAge, logCleanupPolicy := CleanupPolicy.DELETE,
    maxSegmentSize := 0, indexInterval := 0, maxIndexSize := 0, maxRollJitterSecs := 0,
    curSegmentMaxAge := 0, flushIntervalMsgs := 0, flushIntervalSecs := 0,
    logCleanRatioMin := 0 }

/-- The fields of `ro_segment` used by the retention pass and by the
constructor's file naming. -/
structure ro_segment where
  baseSeqNum : Nat
  lastAvailSeqNum : Nat
  createdTS : Nat
  fileSize : Nat
  deriving DecidableEq, Repr

/-- What a retention pass does to the outside world, in call order:
`unlinks` are the paths handed to `Unlink`, `failed` the paths for which
"Failed to unlink" was printed, `compactions` the paths handed to `compact`. -/
structure effects where
  unlinks : List String
  failed : List String
  compactions : List String
  deriving DecidableEq, Repr

/-- The state of a `topic_partition_log` that `consider_ro_segments` reads or
writes, with the names that make up the partition directory
(`basePath_`, `partition->owner->name()`, `partition->idx`). -/
structure topic_partition_log where
  compacting : Bool
  roSegments : List ro_segment
  firstAvailableSeqNum : Nat
  cur_baseSeqNum : Nat
  config : partition_config
  basePath_ : String
  topicName : String
  partitionIdx : Nat
  deriving DecidableEq, Repr

/-- The collaborators of `consider_ro_segments` that are declared but not
defined in `service.cpp`, taken as parameters.
* `Unlink done path` is the return value of `Unlink(path)` after the calls
  `done` were made earlier in the pass (`-1` is failure).
* `first_dirty_offset` is the value of `first_dirty_offset()`.
* `ratio_reached dirtyBytes sum` is the floating-point test
  `cleanable_ratio >= config.logCleanRatioMin`.
* `compact path log` is the log after `compact(path)`. -/
structure retention_env where
  Unlink : List String → String → Int
  first_dirty_offset : Nat
  ratio_reached : Nat → Nat → Bool
  compact : String → topic_partition_log → topic_partition_log

/-- The partition directory built at the top of the removal loop:
`basePath.append(basePath_, "/", name, "/", idx, "/")`. -/
def partition_dir (log : topic_partition_log) : String :=
  log.basePath_ ++ "/" ++ log.topicName ++ "/" ++ toString log.partitionIdx ++ "/"

/-- The data-file path handed to `Unlink` for a removed segment (line 196):
`basePath.append("/", baseSeqNum, "-", lastAvailSeqNum, "_", createdTS, ".ilog")`. -/
def unlink_data_path (dir : String) (seg : ro_segment) : String :=
  dir ++ "/" ++ toString seg.baseSeqNum ++ "-" ++ toString seg.lastAvailSeqNum ++ "_"
    ++ toString seg.createdTS ++ ".ilog"

/-- The index-file path handed to `Unlink` for a removed segment (line 204):
`basePath.append("/", baseSeqNum, ".index")`. -/
def unlink_index_path (dir : String) (seg : ro_segment) : String :=
  dir ++ "/" ++ toString seg.baseSeqNum ++ ".index"

/-- The data-file path the `ro_segment` constructor opens (lines 37-41): with
the `_<createdTS>` part only when `createdTS` is non-zero. -/
def ro_segment_data_path (base : String) (seg : ro_segment) : String :=
  if seg.createdTS ≠ 0 then
    base ++ "/" ++ toString seg.baseSeqNum ++ "-" ++ toString seg.lastAvailSeqNum ++ "_"
      ++ toString seg.createdTS ++ ".ilog"
  else
    base ++ "/" ++ toString seg.baseSeqNum ++ "-" ++ toString seg.lastAvailSeqNum ++ ".ilog"

/-- The narrow index-file path the `ro_segment` constructor opens (line 82). -/
def ro_segment_index_path (base : String) (seg : ro_segment) : String :=
  base ++ "/" ++ toString seg.baseSeqNum ++ ".index"

/-- The loop condition of the removal loop (lines 179-184), for a non-empty
list with front `front` and `count` segments. -/
def must_remove (cfg : partition_config) (nowTS : Nat) (count : Nat) (sum : Nat)
    (front : ro_segment) : Bool :=
  (cfg.roSegmentsCnt ≠ 0 && decide (count > cfg.roSegmentsCnt)) ||
  (cfg.roSegmentsSize ≠ 0 && decide (sum > cfg.roSegmentsSize)) ||
  (front.createdTS ≠ 0 && cfg.lastSegmentMaxAge ≠ 0 &&
    decide (front.createdTS + cfg.lastSegmentMaxAge < nowTS))

/-- One `Unlink` call with its error report (lines 197-201 and 205-209): the
call is recorded, and a failure (`-1`) is printed and otherwise ignored. -/
def unlink_and_report (env : retention_env) (path : String) (fx : effects) : effects :=
  if env.Unlink fx.unlinks path = -1 then
    { fx with unlinks := fx.unlinks ++ [path], failed := fx.failed ++ [path] }
  else
    { fx with unlinks := fx.unlinks ++ [path] }

/-- The body of the removal loop for the front segment (lines 185-218), apart
from the erase: both unlinks, and `sum -= segment->fileSize` on `uint64_t`. -/
def remove_front (env : retention_env) (dir : String) (seg : ro_segment)
    (sum : Nat) (fx : effects) : Nat × effects :=
  let fx1 := unlink_and_report env (unlink_data_path dir seg) fx
  let fx2 := unlink_and_report env (unlink_index_path dir seg) fx1
  ((sum + 2 ^ 64 - seg.fileSize % 2 ^ 64) % 2 ^ 64, fx2)

/-- The removal loop (lines 179-219): while the list is not empty and a limit
holds for it, the front segment is removed. -/
def removal_loop (env : retention_env) (cfg : partition_config) (nowTS : Nat) (dir : String) :
    List ro_segment → Nat → effects → List ro_segment × Nat × effects
  | [], sum, fx => ([], sum, fx)
  | seg :: rest, sum, fx =>
    if must_remove cfg nowTS (rest.length + 1) sum seg then
      let r := remove_front env dir seg sum fx
      removal_loop env cfg nowTS dir rest r.1 r.2
    else
      (seg :: rest, sum, fx)

/-- The first loop of the DELETE branch (lines 175-177): `sum += it->fileSize`
on `uint64_t`, starting from `sum`. -/
def sum_file_sizes (sum : Nat) : List ro_segment → Nat
  | [] => sum
  | seg :: rest => sum_file_sizes ((sum + seg.fileSize) % 2 ^ 64) rest

/-- The loop of the CLEANUP branch (lines 239-245): the pair
`(dirtyBytes, sum)`, both `uint64_t`. -/
def dirty_and_sum (firstDirtyOffset : Nat) : Nat × Nat → List ro_segment → Nat × Nat
  | acc, [] => acc
  | (dirty, sum), seg :: rest =>
    dirty_and_sum firstDirtyOffset
      (if seg.baseSeqNum ≥ firstDirtyOffset then (dirty + seg.fileSize) % 2 ^ 64 else dirty,
       (sum + seg.fileSize) % 2 ^ 64) rest

/-- The update of `firstAvailableSeqNum` that ends the DELETE branch
(lines 221-225): the base sequence number of the front RO segment, or
`cur.baseSeqNum` when the list is empty. -/
def front_or_cur (segs : List ro_segment) (cur : Nat) : Nat :=
  match segs with
  | [] => cur
  | seg :: _ => seg.baseSeqNum

/-- The function `topic_partition_log::consider_ro_segments` (lines 147-257).
`now` is the value returned by `time(nullptr)`; the result is the log and the
effects afterwards, or the exception thrown when `time` fails. -/
def consider_ro_segments (env : retention_env) (now : Int) (log : topic_partition_log)
    (fx : effects) : Except String (topic_partition_log × effects) :=
  if log.compacting then
    .ok (log, fx)
  else if now = -1 then
    .error "time() failed"
  else
    let nowTS : Nat := (now % 2 ^ 32).toNat
    match log.config.logCleanupPolicy with
    | .DELETE =>
      let sum := sum_file_sizes 0 log.roSegments
      let r := removal_loop env log.config nowTS (partition_dir log) log.roSegments sum fx
      .ok ({ log with roSegments := r.1,
                      firstAvailableSeqNum := front_or_cur r.1 log.cur_baseSeqNum }, r.2.2)
    | .CLEANUP =>
      let ds := dirty_and_sum env.first_dirty_offset (0, 0) log.roSegments
      if env.ratio_reached ds.1 ds.2 then
        let path := partition_dir log
        .ok (env.compact path log, { fx with compactions := fx.compactions ++ [path] })
      else
        .ok (log, fx)

/-! ## The segment scan of `topic_partition::foreach_msg`

Memory is a `List Nat` of bytes that starts where the pointer `fileData`
points; a pointer `p` of the source is the offset `p` into it, and the bytes
from `p` on are `mem.drop p`. The source checks no bounds: the scan reads
whatever the memory holds, also behind the end of the segment buffer. Reading
past the end of the list is a read of unmapped memory and ends the scan with
`scan_outcome.fault`. The scan does not read the bytes of a key or of a
payload: it stores pointer and length in the `msg` and moves the pointer on
(lines 336-347), so a key or payload that reaches past the end of the memory
does not end the scan. -/

/-- The message handed to the visitor (`topic_partition::msg`): `key` and
`data` hold the bytes the `strwlen` views designate (empty after `reset()`),
as far as the memory holds them. -/
structure msg where
  seqNum : Nat
  ts : Nat
  key : List Nat
  data : List Nat
  deriving DecidableEq, Repr

/-- How a scan ends. `returned r` is the `return r` of `scan_vma`; `thrown` is
the `Switch::system_error` of a failed decompression; `fault` is a read outside
the memory; `out_of_fuel` is the end of the recursion budget of the model. Each
carries the visitor calls made so far, in order, and the visitor's state. -/
inductive scan_outcome (σ : Type) where
  | returned (ret : Bool) (calls : List msg) (s : σ)
  | thrown (calls : List msg) (s : σ)
  | fault (calls : List msg) (s : σ)
  | out_of_fuel (calls : List msg) (s : σ)
  deriving DecidableEq, Repr

/-- Whether a scan ended because the recursion budget of the model ran out. -/
def scan_outcome.ran_out {σ : Type} : scan_outcome σ → Bool
  | .out_of_fuel _ _ => true
  | _ => false

/-- The continuation loop of `decode_varuint32`: `left` bytes may still be
read, `shift` is the bit position of the next group, `acc` the value so far,
`used` the number of bytes consumed. -/
def decode_varuint32_loop : Nat → Nat → Nat → Nat → List Nat → Option (Nat × Nat)
  | 0, _, acc, used, _ => some (acc % 2 ^ 32, used)
  | _ + 1, _, _, _, [] => none
  | left + 1, shift, acc, used, b :: bytes =>
    if b < 128 then some ((acc + b * 2 ^ shift) % 2 ^ 32, used + 1)
    else decode_varuint32_loop left (shift + 7) (acc + (b % 128) * 2 ^ shift) (used + 1) bytes

/-- Modelled from the spec: `Compression::decode_varuint32` is not part of
`service.cpp`; section 4.1 describes it as unsigned LEB128 (7 bits per byte,
most significant bit is the continuation flag). At most five bytes are read for
a 32-bit value. Given the bytes from the pointer on, the result is the value
and the number of bytes consumed, or `none` when the memory ends first. -/
def decode_varuint32 (bytes : List Nat) : Option (Nat × Nat) :=
  decode_varuint32_loop 5 0 0 0 bytes

/-- The value of a little-endian byte string. -/
def le_value : List Nat → Nat
  | [] => 0
  | b :: bytes => b + 256 * le_value bytes

/-- Modelled from the spec: `decode_pod<uint64_t>` is not part of
`service.cpp`; it reads eight bytes, little-endian (section 4.1: "all multibyte
integers are little-endian"), and advances the pointer by eight. -/
def decode_pod_u64 (bytes : List Nat) : Option (Nat × Nat) :=
  if 8 ≤ bytes.length then some (le_value (bytes.take 8) % 2 ^ 64, 8) else none

/-- The bytes designated by a `strwlen` view of `len` bytes at the pointer
(`SetData(p, len)`). Setting the view reads nothing: a view that reaches past
the end of the memory designates the bytes the memory holds of it. -/
def view (bytes : List Nat) (len : Nat) : List Nat :=
  bytes.take len

/-- The sequence-number step of the message loop (lines 318-329), on the bytes
that follow the message's flags byte: the new `seqNum` and the bytes consumed. -/
def scan_seq_num (sparseBundleBitSet : Bool) (msgsSetSize firstMsgSeqNum lastMsgSeqNum : Nat)
    (msgIdx seqNum flags : Nat) (bytes : List Nat) : Option (Nat × Nat) :=
  if sparseBundleBitSet then
    if msgIdx = 0 then some (firstMsgSeqNum, 0)
    else if msgIdx = (msgsSetSize + 2 ^ 32 - 1) % 2 ^ 32 then some (lastMsgSeqNum, 0)
    else if flags / 4 % 2 = 1 then some (seqNum, 0)
    else match decode_varuint32 bytes with
      | none => none
      | some (delta, n) => some ((seqNum + delta) % 2 ^ 64, n)
  else some (seqNum, 0)

/-- The timestamp step (lines 331-333): without `UseLastSpecifiedTS` (bit 1)
the stored timestamp is read, otherwise `msg.ts` keeps its value. -/
def scan_ts (flags ts : Nat) (bytes : List Nat) : Option (Nat × Nat) :=
  if flags / 2 % 2 = 1 then some (ts, 0) else decode_pod_u64 bytes

/-- The key step (lines 335-340): with `HaveKey` (bit 0) a length byte and that
many key bytes, otherwise `msg.key.reset()`. -/
def scan_key (flags : Nat) (bytes : List Nat) : Option (List Nat × Nat) :=
  if flags % 2 = 1 then
    match bytes with
    | [] => none
    | keyLen :: rest => some (view rest keyLen, keyLen + 1)
  else some ([], 0)

/-- The payload step (lines 342-347): a varint length and that many bytes;
length 0 is `msg.data.reset()`. -/
def scan_data (bytes : List Nat) : Option (List Nat × Nat) :=
  match decode_varuint32 bytes with
  | none => none
  | some (msgLen, n) =>
    if msgLen ≠ 0 then some (view (bytes.drop n) msgLen, n + msgLen)
    else some ([], n)

/-- One pass through the body of the message loop up to the visitor call
(lines 316-349), on the bytes from the pointer on: the message handed to the
visitor and the number of bytes consumed. -/
def scan_msg (sparseBundleBitSet : Bool) (msgsSetSize firstMsgSeqNum lastMsgSeqNum : Nat)
    (msgIdx seqNum ts : Nat) (bytes : List Nat) : Option (msg × Nat) :=
  match bytes with
  | [] => none
  | flags :: b1 =>
    match scan_seq_num sparseBundleBitSet msgsSetSize firstMsgSeqNum lastMsgSeqNum
        msgIdx seqNum flags b1 with
    | none => none
    | some (seqNum1, n1) =>
      match scan_ts flags ts (b1.drop n1) with
      | none => none
      | some (ts1, n2) =>
        match scan_key flags (b1.drop (n1 + n2)) with
        | none => none
        | some (key, n3) =>
          match scan_data (b1.drop (n1 + n2 + n3)) with
          | none => none
          | some (data, n4) =>
            some ({ seqNum := seqNum1, ts := ts1, key := key, data := data },
                  1 + n1 + n2 + n3 + n4)

/-- The message loop (lines 315-354) over the memory `mem` from offset `p` to
the end offset `e`. The visitor `l` takes and returns its own state and is
taken not to write to the `msg` it is handed. The loop either falls through
(`.ok`, with `seqNum`, the calls and the visitor state) or ends the whole scan
(`.error`). -/
def scan_msgs {σ : Type} (l : σ → msg → Bool × σ) (mem : List Nat) (e : Nat)
    (sparseBundleBitSet : Bool) (msgsSetSize firstMsgSeqNum lastMsgSeqNum : Nat) :
    Nat → Nat → Nat → Nat → Nat → List msg → σ →
      Except (scan_outcome σ) (Nat × List msg × σ)
  | 0, _, _, _, _, calls, s => .error (.out_of_fuel calls s)
  | fuel + 1, p, msgIdx, seqNum, ts, calls, s =>
    if p = e then .ok (seqNum, calls, s)
    else
      match scan_msg sparseBundleBitSet msgsSetSize firstMsgSeqNum lastMsgSeqNum
          msgIdx seqNum ts (mem.drop p) with
      | none => .error (.fault calls s)
      | some (m, n) =>
        if (l s m).1 = false then .error (.returned false (calls ++ [m]) (l s m).2)
        else
          scan_msgs l mem e sparseBundleBitSet msgsSetSize firstMsgSeqNum lastMsgSeqNum
            fuel (p + n) ((msgIdx + 1) % 2 ^ 32) ((m.seqNum + 1) % 2 ^ 64) m.ts
            (calls ++ [m]) (l s m).2

/-- What the head of a bundle yields (lines 280-295). -/
structure bundle_header where
  bundleLen : Nat
  codec : Nat
  sparseBundleBitSet : Bool
  msgsSetSize : Nat
  firstMsgSeqNum : Nat
  lastMsgSeqNum : Nat
  /-- bytes consumed by the length varint -/
  lenBytes : Nat
  /-- bytes consumed after the length varint, up to the message set -/
  headBytes : Nat
  deriving DecidableEq, Repr

/-- The `msgsSetSize` step (line 285): bits 2-5 of the bundle flags, or a
varint when they are 0. -/
def scan_msgs_set_size (bundleFlags : Nat) (bytes : List Nat) : Option (Nat × Nat) :=
  if bundleFlags / 4 % 16 ≠ 0 then some (bundleFlags / 4 % 16, 0) else decode_varuint32 bytes

/-- The sparse step (lines 287-295): first sequence number and, unless the
bundle holds one message, the varint from which the last one is computed. When
the bundle is not sparse both variables are left alone (0 here, never read). -/
def scan_sparse (sparseBundleBitSet : Bool) (msgsSetSize : Nat) (bytes : List Nat) :
    Option (Nat × Nat × Nat) :=
  if sparseBundleBitSet then
    match decode_pod_u64 bytes with
    | none => none
    | some (first, n1) =>
      if msgsSetSize ≠ 1 then
        match decode_varuint32 (bytes.drop n1) with
        | none => none
        | some (delta, n2) => some (first, (first + delta + 1) % 2 ^ 64, n1 + n2)
      else some (first, first, n1)
  else some (0, 0, 0)

/-- The head of the bundle loop (lines 280-295), on the bytes from the pointer
on. Bit 6 of the flags byte is the sparse bit, bits 0-1 the codec. -/
def scan_bundle_header (bytes : List Nat) : Option bundle_header :=
  match decode_varuint32 bytes with
  | none => none
  | some (bundleLen, n0) =>
    match bytes.drop n0 with
    | [] => none
    | bundleFlags :: b1 =>
      match scan_msgs_set_size bundleFlags b1 with
      | none => none
      | some (msgsSetSize, n1) =>
        match scan_sparse (bundleFlags / 64 % 2 = 1) msgsSetSize (b1.drop n1) with
        | none => none
        | some (first, last, n2) =>
          some { bundleLen := bundleLen, codec := bundleFlags % 4,
                 sparseBundleBitSet := bundleFlags / 64 % 2 = 1,
                 msgsSetSize := msgsSetSize, firstMsgSeqNum := first, lastMsgSeqNum := last,
                 lenBytes := n0, headBytes := 1 + n1 + n2 }

/-- The bundle loop (lines 279-355) over the memory `mem` from offset `p` to
the end offset `e`. `UnCompress` is `Compression::UnCompress` for Snappy, taken
as a parameter: the decompressed bytes, or `none` when it reports failure. A
compressed bundle is scanned in the decompressed buffer `db`; its source range
must lie inside the memory. -/
def scan_bundles {σ : Type} (l : σ → msg → Bool × σ) (UnCompress : List Nat → Option (List Nat))
    (mem : List Nat) (e : Nat) :
    Nat → Nat → Nat → List msg → σ → scan_outcome σ
  | 0, _, _, calls, s => .out_of_fuel calls s
  | fuel + 1, p, seqNum, calls, s =>
    if p = e then .returned true calls s
    else
      match scan_bundle_header (mem.drop p) with
      | none => .fault calls s
      | some h =>
        let nextBundle := p + h.lenBytes + h.bundleLen
        let content := p + h.lenBytes + h.headBytes
        if h.codec ≠ 0 then
          if nextBundle < content ∨ mem.length < nextBundle then .fault calls s
          else
            match UnCompress ((mem.drop content).take (nextBundle - content)) with
            | none => .thrown calls s
            | some db =>
              match scan_msgs l db db.length h.sparseBundleBitSet h.msgsSetSize
                  h.firstMsgSeqNum h.lastMsgSeqNum (db.length + 1) 0 0 seqNum 0 calls s with
              | .error out => out
              | .ok (seqNum1, calls1, s1) =>
                scan_bundles l UnCompress mem e fuel nextBundle seqNum1 calls1 s1
        else
          match scan_msgs l mem nextBundle h.sparseBundleBitSet h.msgsSetSize
              h.firstMsgSeqNum h.lastMsgSeqNum (mem.length + 1) content 0 seqNum 0 calls s with
          | .error out => out
          | .ok (seqNum1, calls1, s1) =>
            scan_bundles l UnCompress mem e fuel nextBundle seqNum1 calls1 s1

/-- The lambda `scan_vma` of `topic_partition::foreach_msg` (lines 273-358):
`fileData` is the memory from the mapped address on, `fileSize` the size of the
segment buffer, `seqNum` the base sequence number of the segment, `s` the
visitor's state. Every loop pass consumes at least one byte, so a budget of
`fileData.length + 1` passes is never used up. -/
def scan_vma {σ : Type} (l : σ → msg → Bool × σ) (UnCompress : List Nat → Option (List Nat))
    (fileData : List Nat) (fileSize : Nat) (seqNum : Nat) (s : σ) : scan_outcome σ :=
  scan_bundles l UnCompress fileData fileSize (fileData.length + 1) 0 seqNum [] s

/-! ## The framing of section 4.1 (the writer's side)

The encoder is not part of `service.cpp`; the definitions below follow the
framing the spec documents and the scan reads. -/

/-- Modelled from the spec: the unsigned LEB128 encoding of a 32-bit value
(section 4.1), the writer's side of `Compression::decode_varuint32`, which is
not part of `service.cpp`. -/
def encode_varuint32 (n : Nat) : List Nat :=
  if n < 2 ^ 7 then [n]
  else if n < 2 ^ 14 then [n % 128 + 128, n / 2 ^ 7]
  else if n < 2 ^ 21 then [n % 128 + 128, n / 2 ^ 7 % 128 + 128, n / 2 ^ 14]
  else if n < 2 ^ 28 then
    [n % 128 + 128, n / 2 ^ 7 % 128 + 128, n / 2 ^ 14 % 128 + 128, n / 2 ^ 21]
  else
    [n % 128 + 128, n / 2 ^ 7 % 128 + 128, n / 2 ^ 14 % 128 + 128, n / 2 ^ 21 % 128 + 128,
     n / 2 ^ 28 % 128]

/-- Modelled from the spec: the eight little-endian bytes of a 64-bit value
(section 4.1), the writer's side of `decode_pod<uint64_t>`. -/
def encode_u64 (v : Nat) : List Nat :=
  [v % 256, v / 2 ^ 8 % 256, v / 2 ^ 16 % 256, v / 2 ^ 24 % 256,
   v / 2 ^ 32 % 256, v / 2 ^ 40 % 256, v / 2 ^ 48 % 256, v / 2 ^ 56 % 256]

/-- Modelled from the spec: one message as the writer frames it (section 4.1).
`ts = none` stands for the flag `UseLastSpecifiedTS`; `prevPlusOne` is the flag
`SeqNumPrevPlusOne` and `delta` the varint written instead for an interior
message of a sparse bundle. -/
structure frame where
  key : Option (List Nat)
  payload : List Nat
  ts : Option Nat
  prevPlusOne : Bool
  delta : Nat
  deriving DecidableEq, Repr

/-- The per-message flags byte: `HaveKey = 1`, `UseLastSpecifiedTS = 2`,
`SeqNumPrevPlusOne = 4`. -/
def frame_flags (f : frame) : Nat :=
  (if f.key.isSome then 1 else 0) + (if f.ts.isNone then 2 else 0) +
  (if f.prevPlusOne then 4 else 0)

/-- The varint delta of a message: written for an interior message of a sparse
bundle that does not carry `SeqNumPrevPlusOne`. -/
def encode_delta (interior : Bool) (f : frame) : List Nat :=
  if interior && !f.prevPlusOne then encode_varuint32 f.delta else []

/-- The timestamp of a message: eight bytes unless `UseLastSpecifiedTS`. -/
def encode_ts (ts : Option Nat) : List Nat :=
  match ts with
  | some t => encode_u64 t
  | none => []

/-- The key of a message: with `HaveKey`, one length byte (`uint8_t`) and the
key. -/
def encode_key (key : Option (List Nat)) : List Nat :=
  match key with
  | some k => (k.length % 256) :: k
  | none => []

/-- The payload of a message: its varint length and its bytes. -/
def encode_payload (payload : List Nat) : List Nat :=
  encode_varuint32 payload.length ++ payload

/-- Modelled from the spec: the bytes of one message (section 4.1): flags,
then for an interior message of a sparse bundle without `SeqNumPrevPlusOne` the
varint delta, the timestamp unless `UseLastSpecifiedTS`, the key length and key
if `HaveKey`, the varint payload length and the payload. -/
def encode_frame (interior : Bool) (f : frame) : List Nat :=
  frame_flags f ::
    (encode_delta interior f ++ (encode_ts f.ts ++ (encode_key f.key ++ encode_payload f.payload)))

/-- Modelled from the spec: the message set of a bundle of `k` messages, from
message number `i` on. Interior messages of a sparse bundle are those that are
neither the first nor the last. -/
def encode_frames (sparse : Bool) (k : Nat) : Nat → List frame → List Nat
  | _, [] => []
  | i, f :: fs =>
    encode_frame (sparse && decide (i ≠ 0) && decide (i ≠ k - 1)) f ++
      encode_frames sparse k (i + 1) fs

/-- Modelled from the spec: a bundle as the writer describes it (section 3).
`sparse = some (firstMsgSeqNum, lastSeqDelta)` marks a sparse bundle;
`compressed = some (codec, bytes)` a bundle whose message set is stored as
`bytes` under codec id `codec`. -/
structure bundle where
  sparse : Option (Nat × Nat)
  compressed : Option (Nat × List Nat)
  frames : List frame
  deriving DecidableEq, Repr

/-- The message set of a bundle, uncompressed. -/
def bundle_content (b : bundle) : List Nat :=
  encode_frames b.sparse.isSome b.frames.length 0 b.frames

/-- The message set of a bundle as stored. -/
def bundle_stored (b : bundle) : List Nat :=
  match b.compressed with
  | some (_, bytes) => bytes
  | none => bundle_content b

/-- The codec bits of a bundle. -/
def bundle_codec (b : bundle) : Nat :=
  match b.compressed with
  | some (codec, _) => codec
  | none => 0

/-- The message count as embedded in bits 2-5 of the bundle flags: the count
itself when it is between 1 and 15, else 0 (the count follows as a varint). -/
def bundle_small_count (b : bundle) : Nat :=
  if 0 < b.frames.length ∧ b.frames.length < 16 then b.frames.length else 0

/-- The bundle flags byte: codec in bits 0-1, small count in bits 2-5, sparse
bit in bit 6. -/
def bundle_flags (b : bundle) : Nat :=
  bundle_codec b + 4 * bundle_small_count b + (if b.sparse.isSome then 64 else 0)

/-- The head of a bundle after its length prefix: flags, message count
(varint, unless embedded in the flags), and for a sparse bundle the first
sequence number and (unless it holds one message) the last-sequence delta. -/
def bundle_head (b : bundle) : List Nat :=
  bundle_flags b ::
    ((if bundle_small_count b = 0 then encode_varuint32 b.frames.length else []) ++
     (match b.sparse with
      | some (first, lastDelta) =>
        encode_u64 first ++ (if b.frames.length ≠ 1 then encode_varuint32 lastDelta else [])
      | none => []))

/-- Modelled from the spec: what follows the length prefix of a bundle: the
head, then the stored message set. -/
def bundle_body (b : bundle) : List Nat :=
  bundle_head b ++ bundle_stored b

/-- Modelled from the spec: a bundle in a segment file: the varint length of
its body, then the body. -/
def encode_bundle (b : bundle) : List Nat :=
  encode_varuint32 (bundle_body b).length ++ bundle_body b

/-- Modelled from the spec: a segment file is the concatenation of its
bundles (invariant I1: no padding, no holes). -/
def encode_segment : List bundle → List Nat
  | [] => []
  | b :: bs => encode_bundle b ++ encode_segment bs

/-! ### What a reader is expected to see -/

/-- The sequence number of message `i` of a bundle of `k` messages, as the
spec words it: in a dense bundle the running number; in a sparse bundle the
first number for message 0, the last for message `k - 1`, and for an interior
message the running number (previous + 1), plus its delta unless it carries
`SeqNumPrevPlusOne`. -/
def frame_seq_num (sparse : Bool) (k first last i running : Nat) (f : frame) : Nat :=
  if sparse then
    if i = 0 then first
    else if i = k - 1 then last
    else if f.prevPlusOne then running
    else (running + f.delta) % 2 ^ 64
  else running

/-- The message a reader expects from frame `i` of a bundle: its sequence
number, its own timestamp or else the last specified one, its key (empty when
it has none) and its payload. -/
def frame_msg (sparse : Bool) (k first last i running ts : Nat) (f : frame) : msg :=
  { seqNum := frame_seq_num sparse k first last i running f,
    ts := f.ts.getD ts, key := f.key.getD [], data := f.payload }

/-- The messages a reader expects from the frames of a bundle, from message
number `i` on, with running sequence number `running` and last specified
timestamp `ts`. -/
def frames_msgs (sparse : Bool) (k first last : Nat) : Nat → Nat → Nat → List frame → List msg
  | _, _, _, [] => []
  | i, running, ts, f :: fs =>
    frame_msg sparse k first last i running ts f ::
    frames_msgs sparse k first last (i + 1)
      ((frame_seq_num sparse k first last i running f + 1) % 2 ^ 64) (f.ts.getD ts) fs

/-- The running sequence number after the frames of a bundle. -/
def frames_end_seq (sparse : Bool) (k first last : Nat) : Nat → Nat → List frame → Nat
  | _, running, [] => running
  | i, running, f :: fs =>
    frames_end_seq sparse k first last (i + 1)
      ((frame_seq_num sparse k first last i running f + 1) % 2 ^ 64) fs

/-- The first explicit sequence number of a bundle (0 when it is dense). -/
def bundle_first (b : bundle) : Nat :=
  match b.sparse with
  | some (first, _) => first
  | none => 0

/-- The last explicit sequence number of a bundle: the first one for a single
message, else `first + lastSeqDelta + 1` in 64-bit arithmetic. -/
def bundle_last (b : bundle) : Nat :=
  match b.sparse with
  | some (first, lastDelta) =>
    if b.frames.length ≠ 1 then (first + lastDelta + 1) % 2 ^ 64 else first
  | none => 0

/-- The messages a reader expects from one bundle when the running sequence
number is `running`; the timestamp starts at 0 in every bundle. -/
def bundle_msgs (running : Nat) (b : bundle) : List msg :=
  frames_msgs b.sparse.isSome b.frames.length (bundle_first b) (bundle_last b) 0 running 0
    b.frames

/-- The running sequence number after one bundle. -/
def bundle_end_seq (running : Nat) (b : bundle) : Nat :=
  frames_end_seq b.sparse.isSome b.frames.length (bundle_first b) (bundle_last b) 0 running
    b.frames

/-- The messages a reader expects from the bundles of a segment. -/
def segment_msgs : Nat → List bundle → List msg
  | _, [] => []
  | running, b :: bs => bundle_msgs running b ++ segment_msgs (bundle_end_seq running b) bs

/-- The visitor applied to a list of messages in order, up to the first one
it refuses: `.ok` with the calls and the state when it accepted all of them,
`.error` with the outcome `returned false` when it refused one. -/
def deliver {σ : Type} (l : σ → msg → Bool × σ) :
    List msg → List msg → σ → Except (scan_outcome σ) (List msg × σ)
  | [], calls, s => .ok (calls, s)
  | m :: ms, calls, s =>
    if (l s m).1 = false then .error (.returned false (calls ++ [m]) (l s m).2)
    else deliver l ms (calls ++ [m]) (l s m).2

/-- The outcome of the message loop on well-formed frames, in terms of what a
reader expects. -/
def expected_msgs_result {σ : Type} (l : σ → msg → Bool × σ) (endSeq : Nat) (ms : List msg)
    (calls : List msg) (s : σ) : Except (scan_outcome σ) (Nat × List msg × σ) :=
  match deliver l ms calls s with
  | .ok (calls1, s1) => .ok (endSeq, calls1, s1)
  | .error out => .error out

/-- The outcome of a whole scan that meets well-formed bundles only, in terms
of what a reader expects: the visitor sees the messages in order until it
refuses one. -/
def expected_scan_result {σ : Type} (l : σ → msg → Bool × σ) (ms : List msg)
    (calls : List msg) (s : σ) : scan_outcome σ :=
  match deliver l ms calls s with
  | .ok (calls1, s1) => .returned true calls1 s1
  | .error out => out

/-- The running sequence number after the bundles of a segment. -/
def segment_end_seq : Nat → List bundle → Nat
  | running, [] => running
  | running, b :: bs => segment_end_seq (bundle_end_seq running b) bs

/-- A message as a producer hands it over: optional key, payload, timestamp. -/
structure message where
  key : Option (List Nat)
  payload : List Nat
  ts : Nat
  deriving DecidableEq, Repr

/-- The frame of a message that carries its own timestamp. -/
def plain_frame (m : message) : frame :=
  { key := m.key, payload := m.payload, ts := some m.ts, prevPlusOne := false, delta := 0 }

/-- A dense (non-sparse), uncompressed bundle of messages that carry their own
timestamps. -/
def plain_bundle (ms : List message) : bundle :=
  { sparse := none, compressed := none, frames := ms.map plain_frame }

/-- The visitor's view of a stored message that got sequence number `seqNum`. -/
def message_as_msg (seqNum : Nat) (m : message) : msg :=
  { seqNum := seqNum, ts := m.ts, key := m.key.getD [], data := m.payload }

/-- The messages numbered consecutively from `b`. -/
def numbered (b : Nat) : List message → List msg
  | [] => []
  | m :: ms => message_as_msg b m :: numbered (b + 1) ms

/-- The state of the visitor after it was called on the messages in order. -/
def visitor_state {σ : Type} (l : σ → msg → Bool × σ) (s : σ) (ms : List msg) : σ :=
  ms.foldl (fun st m => (l st m).2) s

/-- What the writer may put in a frame: a key of at most 255 bytes, a payload
length and a delta that fit a 32-bit varint, a 64-bit timestamp. -/
def frame_ok (f : frame) : Prop :=
  (∀ k ∈ f.key, k.length ≤ 255) ∧ f.payload.length < 2 ^ 32 ∧
  (∀ t ∈ f.ts, t < 2 ^ 64) ∧ f.delta < 2 ^ 32

instance (f : frame) : Decidable (frame_ok f) := by
  unfold frame_ok; infer_instance

/-- What the writer may put in a bundle: well-formed frames, a body whose
length fits the 32-bit length prefix, fewer than `2 ^ 32` messages, 64-bit
first sequence number and 32-bit delta when sparse, and, when compressed, a
codec id of 1 to 3 and stored bytes that `UnCompress` turns into the message
set. -/
def bundle_ok (UnCompress : List Nat → Option (List Nat)) (b : bundle) : Prop :=
  (∀ f ∈ b.frames, frame_ok f) ∧ (bundle_body b).length < 2 ^ 32 ∧
  b.frames.length < 2 ^ 32 ∧
  (∀ fl ∈ b.sparse, fl.1 < 2 ^ 64 ∧ fl.2 < 2 ^ 32) ∧
  (∀ cb ∈ b.compressed,
    0 < cb.1 ∧ cb.1 < 4 ∧ UnCompress cb.2 = some (bundle_content b))

instance (UnCompress : List Nat → Option (List Nat)) (b : bundle) :
    Decidable (bundle_ok UnCompress b) := by
  unfold bundle_ok; infer_instance

/-- The "ordering precondition" of the partition log: the RO segments are in
ascending order of `baseSeqNum`, none starts after the active segment, and
`firstAvailableSeqNum` is the front RO segment's base (or the active one's). -/
def ro_ordered (log : topic_partition_log) : Prop :=
  List.Pairwise (fun a b => a.baseSeqNum ≤ b.baseSeqNum) log.roSegments ∧
  (∀ seg ∈ log.roSegments, seg.baseSeqNum ≤ log.cur_baseSeqNum) ∧
  log.firstAvailableSeqNum = front_or_cur log.roSegments log.cur_baseSeqNum

instance (log : topic_partition_log) : Decidable (ro_ordered log) := by
  unfold ro_ordered; infer_instance

/-- The sum of the file sizes of a segment list, as a natural number. -/
def total_size (segs : List ro_segment) : Nat :=
  (segs.map (fun seg => seg.fileSize)).sum

/-! ### Concrete inputs used in the examples -/

/-- An environment in which every `Unlink` succeeds. -/
def env_unlink_ok : retention_env :=
  { Unlink := fun _ _ => 0, first_dirty_offset := 0,
    ratio_reached := fun _ _ => false, compact := fun _ log => log }

/-- An environment in which every `Unlink` fails. -/
def env_unlink_fails : retention_env :=
  { Unlink := fun _ _ => -1, first_dirty_offset := 0,
    ratio_reached := fun _ _ => false, compact := fun _ log => log }

/-- No effect recorded yet. -/
def no_effects : effects := { unlinks := [], failed := [], compactions := [] }

/-- Five RO segments of ten messages each, count limit 2, other limits off. -/
def log_five : topic_partition_log :=
  { compacting := false,
    roSegments := [⟨0, 9, 100, 50⟩, ⟨10, 19, 200, 50⟩, ⟨20, 29, 300, 50⟩,
                   ⟨30, 39, 400, 50⟩, ⟨40, 49, 500, 50⟩],
    firstAvailableSeqNum := 0, cur_baseSeqNum := 50,
    config := retention_limits 2 0 0,
    basePath_ := "/var/tank", topicName := "events", partitionIdx := 0 }

/-- One RO segment whose `createdTS` is 0, age limit 60 seconds, other limits off. -/
def log_unknown_age : topic_partition_log :=
  { compacting := false,
    roSegments := [⟨0, 9, 0, 50⟩],
    firstAvailableSeqNum := 0, cur_baseSeqNum := 10,
    config := retention_limits 0 0 60,
    basePath_ := "/var/tank", topicName := "events", partitionIdx := 0 }

/-- Three RO segments created at 100, 200 and 900, age limit 60 seconds, size
limit 120 bytes. -/
def log_aged : topic_partition_log :=
  { compacting := false,
    roSegments := [⟨0, 9, 100, 50⟩, ⟨10, 19, 200, 50⟩, ⟨20, 29, 900, 50⟩],
    firstAvailableSeqNum := 0, cur_baseSeqNum := 30,
    config := retention_limits 0 120 60,
    basePath_ := "/var/tank", topicName := "events", partitionIdx := 0 }

/-- Three RO segments created at 100, 0 (unknown) and 900, age limit 60
seconds, count and size limits off. -/
def log_mixed_age : topic_partition_log :=
  { compacting := false,
    roSegments := [⟨0, 9, 100, 50⟩, ⟨10, 19, 0, 50⟩, ⟨20, 29, 900, 50⟩],
    firstAvailableSeqNum := 0, cur_baseSeqNum := 30,
    config := retention_limits 0 0 60,
    basePath_ := "/var/tank", topicName := "events", partitionIdx := 0 }

/-- Three RO segments whose `createdTS` is 0 (files named without the
`_<createdTS>` part), count limit 2. -/
def log_plain_names : topic_partition_log :=
  { compacting := false,
    roSegments := [⟨0, 9, 0, 50⟩, ⟨10, 19, 0, 50⟩, ⟨20, 29, 0, 50⟩],
    firstAvailableSeqNum := 0, cur_baseSeqNum := 30,
    config := retention_limits 2 0 0,
    basePath_ := "/var/tank", topicName := "events", partitionIdx := 0 }

/-- A sparse bundle of four messages: first sequence number 100, last-sequence
delta 10; the second message carries `SeqNumPrevPlusOne`, the third a delta of
3; only the first message stores a timestamp. -/
def example_sparse_bundle : bundle :=
  { sparse := some (100, 10), compressed := none,
    frames := [⟨none, [1], some 1700000000000, false, 0⟩, ⟨none, [2], none, true, 0⟩,
               ⟨some [107], [3], none, false, 3⟩, ⟨none, [4], none, false, 0⟩] }

/-- Two example messages in one bundle and a third in a bundle of its own. -/
def example_bundles : List (List message) :=
  [[⟨some [107, 49], [118, 48], 1700000000000⟩, ⟨none, [], 1700000000001⟩],
   [⟨none, [118, 50], 1700000000002⟩]]

/-! ## The walk of `topic_partition::foreach_msg` over the segments -/

/-- A segment as `foreach_msg` reaches it: the descriptor `fdh->fd`, the
`fileSize` and the `baseSeqNum`. -/
structure log_segment where
  fd : Nat
  fileSize : Nat
  baseSeqNum : Nat
  deriving DecidableEq, Repr

/-- The calls made before a scan put in front of the calls of its outcome. -/
def scan_outcome.after {σ : Type} (calls : List msg) : scan_outcome σ → scan_outcome σ
  | .returned ret c s => .returned ret (calls ++ c) s
  | .thrown c s => .thrown (calls ++ c) s
  | .fault c s => .fault (calls ++ c) s
  | .out_of_fuel c s => .out_of_fuel (calls ++ c) s

/-- What `foreach_msg` does for one segment (lines 365-380, and 384-398 for the
active one): `mmap(nullptr, fileSize, PROT_READ, MAP_SHARED, fd, -1)`, the
`Switch::data_error` when that fails (`scan_outcome.thrown`), else `scan_vma`
from the segment's base sequence number. `mmap length fd offset` is the system
call, taken as a parameter: the memory from the mapped address on, or `none`
for `MAP_FAILED`. `.ok` means the scan returned `true` and the walk goes on. -/
def foreach_segment {σ : Type} (l : σ → msg → Bool × σ)
    (UnCompress : List Nat → Option (List Nat)) (mmap : Nat → Nat → Int → Option (List Nat))
    (seg : log_segment) (calls : List msg) (s : σ) :
    Except (scan_outcome σ) (List msg × σ) :=
  match mmap seg.fileSize seg.fd (-1) with
  | none => .error (.thrown calls s)
  | some fileData =>
    match scan_vma l UnCompress fileData seg.fileSize seg.baseSeqNum s with
    | .returned true c s1 => .ok (calls ++ c, s1)
    | out => .error (out.after calls)

/-- The loop of `foreach_msg` over the RO segments (lines 364-381). -/
def foreach_ro {σ : Type} (l : σ → msg → Bool × σ)
    (UnCompress : List Nat → Option (List Nat)) (mmap : Nat → Nat → Int → Option (List Nat)) :
    List log_segment → List msg → σ → Except (scan_outcome σ) (List msg × σ)
  | [], calls, s => .ok (calls, s)
  | seg :: rest, calls, s =>
    match foreach_segment l UnCompress mmap seg calls s with
    | .error out => .error out
    | .ok (calls1, s1) => foreach_ro l UnCompress mmap rest calls1 s1

/-- The function `topic_partition::foreach_msg` (lines 272-402): all RO
segments in list order, then the active segment `cur` unless its `fileSize` is
0; `true` when no scan returned `false`. -/
def foreach_msg {σ : Type} (l : σ → msg → Bool × σ)
    (UnCompress : List Nat → Option (List Nat)) (mmap : Nat → Nat → Int → Option (List Nat))
    (roSegments : List log_segment) (cur : log_segment) (s : σ) : scan_outcome σ :=
  match foreach_ro l UnCompress mmap roSegments [] s with
  | .error out => out
  | .ok (calls, s1) =>
    if cur.fileSize ≠ 0 then
      match foreach_segment l UnCompress mmap cur calls s1 with
      | .error out => out
      | .ok (calls2, s2) => .returned true calls2 s2
    else .returned true calls s1

/-- A segment as it is stored: its descriptor, its base sequence number, its
bundles, and the memory that lies behind the mapped file. -/
structure stored_segment where
  fd : Nat
  baseSeqNum : Nat
  bundles : List bundle
  trailing : List Nat
  deriving DecidableEq, Repr

/-- The segment record of a stored segment: `fileSize` is the length of the
concatenated bundles. -/
def stored_segment.record (st : stored_segment) : log_segment :=
  { fd := st.fd, fileSize := (encode_segment st.bundles).length, baseSeqNum := st.baseSeqNum }

/-- The messages of stored segments in storage order. -/
def stored_msgs : List stored_segment → List msg
  | [] => []
  | st :: rest => segment_msgs st.baseSeqNum st.bundles ++ stored_msgs rest

/-- The visitor's answer to message `m` after it has been called on `before`. -/
def visitor_accepts {σ : Type} (l : σ → msg → Bool × σ) (s : σ) (before : List msg)
    (m : msg) : Bool :=
  (l (visitor_state l s before) m).1


/-- One stored RO segment (descriptor 3, base 40, the first example bundle). -/
def example_ro_segments : List stored_segment :=
  [{ fd := 3, baseSeqNum := 40, bundles := [plain_bundle (example_bundles.headD [])],
     trailing := [] }]

/-- The stored active segment (descriptor 4, base 42, the second example
bundle), with one byte of memory behind the mapping. -/
def example_cur_segment : stored_segment :=
  { fd := 4, baseSeqNum := 42, bundles := [plain_bundle (example_bundles.getLastD [])],
    trailing := [0] }

/-- A mapping call that knows the descriptors 3 and 4 of the example and, as
`mmap(2)` does (`EINVAL`), refuses an offset that is not a multiple of the
page size, here 4096. -/
def example_mmap (_length fd : Nat) (offset : Int) : Option (List Nat) :=
  if offset % 4096 ≠ 0 then none
  else if fd = 3 then some (encode_segment [plain_bundle (example_bundles.headD [])])
  else if fd = 4 then some (encode_segment [plain_bundle (example_bundles.getLastD [])] ++ [0])
  else none

/-- A visitor that counts its calls and refuses from the second call on. -/
def stop_at_second : Nat → msg → Bool × Nat := fun n _ => (decide (n < 1), n + 1)

/-- What the writer may put in a bundle, apart from what `UnCompress` makes of
the stored bytes: well-formed frames, lengths and counts within their fields,
a codec id of 1 to 3 when compressed. -/
def bundle_framed (b : bundle) : Prop :=
  (∀ f ∈ b.frames, frame_ok f) ∧ (bundle_body b).length < 2 ^ 32 ∧
  b.frames.length < 2 ^ 32 ∧
  (∀ fl ∈ b.sparse, fl.1 < 2 ^ 64 ∧ fl.2 < 2 ^ 32) ∧
  (∀ cb ∈ b.compressed, 0 < cb.1 ∧ cb.1 < 4)

instance (b : bundle) : Decidable (bundle_framed b) := by
  unfold bundle_framed; infer_instance

/-- A decompressor for the examples: it understands the Snappy streams that
consist of one literal of at most 60 bytes (the length, the tag byte
`(length - 1) << 2`, the bytes) and reports failure on everything else. -/
def snappy_literal (bytes : List Nat) : Option (List Nat) :=
  match bytes with
  | n :: tag :: data =>
    if 0 < n ∧ n ≤ 60 ∧ tag = (n - 1) * 4 ∧ data.length = n then some data else none
  | _ => none

/-- A dense bundle of one message (timestamp 7, payload `[65]`) stored as a
Snappy literal under codec id `codec`. -/
def example_compressed_bundle (codec : Nat) : bundle :=
  { sparse := none,
    compressed := some (codec, 11 :: 40 :: encode_frames false 1 0 [⟨none, [65], some 7, false, 0⟩]),
    frames := [⟨none, [65], some 7, false, 0⟩] }

/-- A visitor without state that accepts every message. -/
def accept_all : Unit → msg → Bool × Unit := fun _ _ => (true, ())

/-- Whether a scan ran to its end and returned `true`. -/
def scan_outcome.succeeded {σ : Type} : scan_outcome σ → Bool
  | .returned true _ _ => true
  | _ => false

/-- A visitor that counts its calls and stops at the first one. -/
def stop_at_once : Nat → msg → Bool × Nat := fun n _ => (false, n + 1)

/-- A dense bundle of one message with timestamp 7 and the given payload. -/
def example_one_message (payload : List Nat) : bundle :=
  plain_bundle [⟨none, payload, 7⟩]

/-! ## Duration and size texts (`parse_duration`, `parse_size`) -/

/-- What the configuration parsers throw: `Switch::data_error` and
`Switch::range_error`. `out_of_fuel` is not an exception of the program: it
marks a run of the model that used up its recursion budget. -/
inductive config_error where
  | data_error
  | range_error
  | out_of_fuel
  deriving DecidableEq, Repr

/-- The result of `parse_duration` and of `parse_size`: the number returned or
the exception thrown. -/
inductive parsed where
  | value (n : Nat)
  | thrown (e : config_error)
  deriving DecidableEq, Repr

/-- Modelled from the spec: `strwlen32_t::StripPrefix(s, len)` belongs to the
Switch library, which is not part of `src/`; section 6 describes a text as a
number followed by a unit name. When the text begins with `s` (compared
character by character) the method removes `s` and returns `true`, which is
`some` of the remaining text here; otherwise it leaves the text alone and
returns `false` (`none`). -/
def StripPrefix : List Char → List Char → Option (List Char)
  | [], inp => some inp
  | _ :: _, [] => none
  | a :: s, b :: inp => if a = b then StripPrefix s inp else none

/-- A chain `in.StripPrefix(a) || in.StripPrefix(b) || ...`: the first name
that the text begins with is removed. -/
def strip_any : List String → List Char → Option (List Char)
  | [], _ => none
  | u :: us, inp =>
    match StripPrefix u.toList inp with
    | some rest => some rest
    | none => strip_any us inp

/-- A call `in.StripPrefix(s)` whose result is not looked at. -/
def strip_optional (s : String) (inp : List Char) : List Char :=
  (StripPrefix s.toList inp).getD inp

/-- The digit loop `for (i = 0; i != in.len && isdigit(in.p[i]); ++i)
n = n * 10 + (in.p[i] - '0')` with `n` an unsigned integer modulo `M`: the
result is `n`, `i` and the text from position `i` on (what `in.StripPrefix(i)`
leaves). -/
def scan_digits (M : Nat) : List Char → Nat → Nat → Nat × Nat × List Char
  | [], n, i => (n, i, [])
  | c :: cs, n, i =>
    if c.isDigit then scan_digits M cs ((n * 10 + (c.toNat - 48)) % M) (i + 1)
    else (n, i, c :: cs)

/-- An `if / else if` chain over unit names: each row holds the names tried, in
order, and the scale assigned when one of them is removed from the text. When
no row matches the scale keeps its initial value 1 and the text is unchanged. -/
def unit_scale : List (List String × Nat) → List Char → Nat × List Char
  | [], inp => (1, inp)
  | (names, scale) :: rows, inp =>
    match strip_any names inp with
    | some rest => (scale, rest)
    | none => unit_scale rows inp

/-- The unit chain of `parse_duration` (lines 417-430). -/
def duration_units : List (List String × Nat) :=
  [(["weeks", "week", "w"], 86400 * 7),
   (["years", "year", "y"], 86400 * 365),
   (["months", "month", "mon"], 86400 * 365),
   (["days", "day", "d"], 86400),
   (["hours", "hour", "h"], 3600),
   (["minutes", "minute", "mins", "min"], 60),
   (["seconds", "second", "secs", "sec", "s"], 1)]

/-- The unit chain of `parse_size` (lines 459-469). -/
def size_units : List (List String × Nat) :=
  [(["terabytes", "terabyte", "tbs", "tb", "t"], 1024 * 1024 * 1024 * 1024),
   (["gigabytes", "gibabyte", "gbs", "gb", "g"], 1024 * 1024 * 1024),
   (["megabytes", "megabyte", "mbs", "mb", "m"], 1024 * 1024),
   (["kilobytes", "kilobyte", "kbs", "kb", "k"], 1024),
   (["bytes", "byte", "kbs", "b"], 1)]

/-- One pass through the body of the `do ... while (in)` loop that
`parse_duration` and `parse_size` share, up to `sum += n * scale`: `none` when
the text does not begin with a digit (the function throws
`Switch::data_error`), else `n * scale` in arithmetic modulo `M` and the text
left after the number, the unit and the optional `,` and `+`. -/
def quantity_step (M : Nat) (units : List (List String × Nat)) (inp : List Char) :
    Option (Nat × List Char) :=
  let d := scan_digits M inp 0 0
  if d.2.1 = 0 then none
  else
    let u := unit_scale units d.2.2
    some (d.1 * u.1 % M, strip_optional "+" (strip_optional "," u.2))

/-- The `do ... while (in)` loop that `parse_duration` (lines 404-441) and
`parse_size` (lines 443-479) share: they differ in the width of `n`, `scale`
and `sum` (arithmetic modulo `M`) and in the unit chain. -/
def quantity_loop (M : Nat) (units : List (List String × Nat)) :
    Nat → List Char → Nat → parsed
  | 0, _, _ => .thrown .out_of_fuel
  | fuel + 1, inp, sum =>
    match quantity_step M units inp with
    | none => .thrown .data_error
    | some (v, rest) =>
      if rest = [] then .value ((sum + v) % M)
      else quantity_loop M units fuel rest ((sum + v) % M)

/-- The function `parse_duration` (lines 404-441): `uint32_t` arithmetic. Every
pass removes at least one character, so `in.len + 1` passes are enough. -/
def parse_duration (inp : List Char) : parsed :=
  quantity_loop (2 ^ 32) duration_units (inp.length + 1) inp 0

/-- The function `parse_size` (lines 443-479): `uint64_t` arithmetic. -/
def parse_size (inp : List Char) : parsed :=
  quantity_loop (2 ^ 64) size_units (inp.length + 1) inp 0

/-- The value of a decimal digit string. -/
def decimal_value (ds : List Char) : Nat :=
  ds.foldl (fun n c => n * 10 + (c.toNat - 48)) 0

/-- A non-empty string of decimal digits. -/
def is_digits (ds : List Char) : Prop :=
  ds ≠ [] ∧ ∀ c ∈ ds, c.isDigit = true

instance (ds : List Char) : Decidable (is_digits ds) := by
  unfold is_digits
  infer_instance

/-- The duration units of section 6 with their scales in seconds, the minute
names apart: `s|sec|secs|second|seconds`, no unit, `h|hour|hours`,
`d|day|days`, `w|week|weeks`, `mon|month|months` and `y|year|years`. -/
def duration_scale_table : List (String × Nat) :=
  [("s", 1), ("sec", 1), ("secs", 1), ("second", 1), ("seconds", 1), ("", 1),
   ("h", 3600), ("hour", 3600), ("hours", 3600),
   ("d", 86400), ("day", 86400), ("days", 86400),
   ("w", 604800), ("week", 604800), ("weeks", 604800),
   ("mon", 365 * 86400), ("month", 365 * 86400), ("months", 365 * 86400),
   ("y", 365 * 86400), ("year", 365 * 86400), ("years", 365 * 86400)]

/-- The minute names that `parse_duration` knows. -/
def minute_names : List String := ["min", "mins", "minute", "minutes"]

/-- The size units of section 6 with their scales in bytes: `b|bytes`, no
unit, `k|kb`, `m|mb`, `g|gb`, `t|tb`. -/
def size_scale_table : List (String × Nat) :=
  [("b", 1), ("bytes", 1), ("", 1), ("k", 1024), ("kb", 1024),
   ("m", 1024 ^ 2), ("mb", 1024 ^ 2), ("g", 1024 ^ 3), ("gb", 1024 ^ 3),
   ("t", 1024 ^ 4), ("tb", 1024 ^ 4)]

/-- The characters that can follow a unit name inside a text: a digit (the
next number) or one of the separators `,` and `+`. -/
def is_boundary (c : Char) : Prop :=
  c.isDigit = true ∨ c = ',' ∨ c = '+'

instance (c : Char) : Decidable (is_boundary c) := by
  unfold is_boundary
  infer_instance

/-- Every character of every unit name of a chain satisfies `P`. -/
def units_all (P : Char → Prop) (units : List (List String × Nat)) : Prop :=
  ∀ row ∈ units, ∀ s ∈ row.1, ∀ x ∈ s.toList, P x

instance (P : Char → Prop) [DecidablePred P] (units : List (List String × Nat)) :
    Decidable (units_all P units) := by
  unfold units_all
  infer_instance

/-- One component of a size or duration text as section 6 describes it: a
number, a unit name with its scale, and the text that joins the component to
the next one. -/
structure quantity_component where
  digits : List Char
  unit : String
  scale : Nat
  joiner : List Char
  deriving DecidableEq, Repr

/-- The text of a sequence of components. -/
def render_components : List quantity_component → List Char
  | [] => []
  | c :: cs => c.digits ++ c.unit.toList ++ c.joiner ++ render_components cs

/-- The sum of the components. -/
def components_total (cs : List quantity_component) : Nat :=
  (cs.map (fun c => decimal_value c.digits * c.scale)).sum

/-- Every component but the last is joined to the next one by `,` or `+`, or
by nothing when it has a unit name; nothing follows the last one. -/
def components_joined : List quantity_component → Prop
  | [] => True
  | [c] => c.joiner = []
  | c :: c2 :: cs =>
    (c.joiner = [','] ∨ c.joiner = ['+'] ∨ (c.joiner = [] ∧ c.unit.toList ≠ [])) ∧
      components_joined (c2 :: cs)

instance components_joined_decidable :
    (cs : List quantity_component) → Decidable (components_joined cs)
  | [] => isTrue trivial
  | [c] => by
    unfold components_joined
    infer_instance
  | c :: c2 :: cs =>
    have := components_joined_decidable (c2 :: cs)
    by
    unfold components_joined
    infer_instance

/-! ## Partition configuration (`Service::parse_partition_config`) -/

/-- The functions of the Switch library used by `parse_partition_config` whose
results `service.cpp` does not determine, taken as parameters:
`IsBetweenRange<size_t>(v, s, e)`, `strwlen32_t::AsUint32()` and
`strwlen32_t::AsDouble()`. -/
structure switch_library where
  IsBetweenRange : Nat → Nat → Nat → Bool
  AsUint32 : List Char → Nat
  AsDouble : List Char → ℚ

/-- The C function `isspace` in the "C" locale: space, `\t`, `\n`, `\v`, `\f`
and `\r`. -/
def isspace (c : Char) : Bool :=
  decide (c ∈ [' ', Char.ofNat 9, Char.ofNat 10, Char.ofNat 11, Char.ofNat 12, Char.ofNat 13])

/-- Modelled from the spec: `strwlen32_t::split(c)` belongs to the Switch
library, which is not part of `src/`; the pieces of the text between the
occurrences of `c` (section 6: one configuration entry per line). -/
def split (c : Char) : List Char → List (List Char)
  | [] => [[]]
  | x :: xs =>
    if x = c then [] :: split c xs
    else
      match split c xs with
      | [] => [[x]]
      | piece :: pieces => (x :: piece) :: pieces

/-- Modelled from the spec: `if (auto p = line.Search('#')) line.SetEnd(p)`
with the Switch library's `Search` and `SetEnd`: the line ends before the
first `#` (section 6: "Comments begin with `#` to end of line"). -/
def cut_comment (line : List Char) : List Char :=
  line.takeWhile (fun x => x != '#')

/-- Modelled from the spec: `strwlen32_t::divided(c)` of the Switch library:
the text before the first `c` and the text after it; without a `c` the whole
text and the empty text. -/
def divided (c : Char) (line : List Char) : List Char × List Char :=
  (line.takeWhile (fun x => x != c), (line.dropWhile (fun x => x != c)).drop 1)

/-- Modelled from the spec: `strwlen32_t::TrimWS()` of the Switch library
removes the white space at both ends of the text. -/
def TrimWS (text : List Char) : List Char :=
  ((text.dropWhile isspace).reverse.dropWhile isspace).reverse

/-- Modelled from the spec: `strwlen32_t::EqNoCase(s, len)` of the Switch
library compares two texts without regard to the case of ASCII letters. -/
def EqNoCase (a : List Char) (b : String) : Bool :=
  a.map Char.toLower == b.toList.map Char.toLower

/-- A call of `parse_duration` or `parse_size` whose result is assigned to a
field by `store` and then tested by `invalid` (`throw Switch::range_error`
after the assignment); an exception of the call itself leaves the
configuration alone. -/
def store_parsed (r : parsed) (l : partition_config)
    (store : partition_config → Nat → partition_config) (invalid : Nat → Bool) :
    Option config_error × partition_config :=
  match r with
  | .thrown e => (some e, l)
  | .value n => (if invalid n then some .range_error else none, store l n)

/-- The body of the loop of `parse_partition_config` from the length check on
(lines 496-560), for the trimmed key `k` and value `v`: the exception thrown,
if any, and the configuration `*l` afterwards. -/
def parse_config_entry (lib : switch_library) (k v : List Char) (l : partition_config) :
    Option config_error × partition_config :=
  if ¬ lib.IsBetweenRange v.length 1 128 = true then (some .data_error, l)
  else if k ≠ [] ∧ v ≠ [] then
    if EqNoCase k "retention.segments.count" then
      let n := lib.AsUint32 v
      (if n < 2 ∧ n ≠ 0 then some .range_error else none, { l with roSegmentsCnt := n })
    else if EqNoCase k "log.cleanup.policy" then
      if EqNoCase v "cleanup" then (none, { l with logCleanupPolicy := CleanupPolicy.CLEANUP })
      else if EqNoCase v "delete" then (none, { l with logCleanupPolicy := CleanupPolicy.DELETE })
      else (some .range_error, l)
    else if EqNoCase k "log.cleaner.min.cleanable.ratio" then
      let x := lib.AsDouble v
      (if x < 0 ∨ x > 1 then some .range_error else none, { l with logCleanRatioMin := x })
    else if EqNoCase k "log.retention.secs" then
      store_parsed (parse_duration v) l (fun l n => { l with lastSegmentMaxAge := n })
        (fun _ => false)
    else if EqNoCase k "log.retention.bytes" then
      store_parsed (parse_size v) l (fun l n => { l with roSegmentsSize := n })
        (fun n => decide (n < 128 ∧ n ≠ 0))
    else if EqNoCase k "log.segment.bytes" then
      store_parsed (parse_size v) l (fun l n => { l with maxSegmentSize := n })
        (fun n => decide (n < 64))
    else if EqNoCase k "log.index.interval.bytes" then
      store_parsed (parse_size v) l (fun l n => { l with indexInterval := n })
        (fun n => decide (n < 128))
    else if EqNoCase k "log.index.size.max.bytes" then
      store_parsed (parse_size v) l (fun l n => { l with maxIndexSize := n })
        (fun n => decide (n < 128))
    else if EqNoCase k "log.roll.jitter.secs" then
      store_parsed (parse_duration v) l (fun l n => { l with maxRollJitterSecs := n })
        (fun _ => false)
    else if EqNoCase k "log.roll.secs" then
      store_parsed (parse_duration v) l (fun l n => { l with curSegmentMaxAge := n })
        (fun _ => false)
    else if EqNoCase k "flush.messages" then
      (none, { l with flushIntervalMsgs := lib.AsUint32 v })
    else if EqNoCase k "flush.secs" then
      store_parsed (parse_duration v) l (fun l n => { l with flushIntervalSecs := n })
        (fun _ => false)
    else (none, l)
  else (none, l)

/-- One pass of the loop of `parse_partition_config` (lines 482-561): the
comment is cut off, an empty line is skipped, the line is divided at the first
`=` and both parts are trimmed. -/
def parse_config_line (lib : switch_library) (line : List Char) (l : partition_config) :
    Option config_error × partition_config :=
  let line := cut_comment line
  if line = [] then (none, l)
  else
    let kv := divided '=' line
    parse_config_entry lib (TrimWS kv.1) (TrimWS kv.2) l

/-- The loop over the lines: the first exception ends it. -/
def parse_config_lines (lib : switch_library) :
    List (List Char) → partition_config → Option config_error × partition_config
  | [], l => (none, l)
  | line :: lines, l =>
    match parse_config_line lib line l with
    | (some e, l1) => (some e, l1)
    | (none, l1) => parse_config_lines lib lines l1

/-- The function `Service::parse_partition_config(contents, l)` (lines
481-562): `none` when it returns, `some e` when it throws `e`, and the
configuration `*l` at that point. -/
def parse_partition_config (lib : switch_library) (contents : List Char)
    (l : partition_config) : Option config_error × partition_config :=
  parse_config_lines lib (split (Char.ofNat 10) contents) l

/-- What the theorems assume of the library: `IsBetweenRange(v, s, e)` holds
for `s ≤ v < e` and fails for `v < s` and for `e < v` (nothing is assumed for
`v = e`), and `AsUint32` reads a non-empty string of decimal digits whose value
is below `2 ^ 32` as that value. -/
def library_ok (lib : switch_library) : Prop :=
  (∀ v s e : Nat, (s ≤ v → v < e → lib.IsBetweenRange v s e = true) ∧
    (v < s ∨ e < v → lib.IsBetweenRange v s e = false)) ∧
  ∀ ds : List Char, is_digits ds → decimal_value ds < 2 ^ 32 →
    lib.AsUint32 ds = decimal_value ds

/-- A library whose `IsBetweenRange` is half-open (`s ≤ v < e`) or, with
`inclusive`, closed (`s ≤ v ≤ e`); `AsUint32` reads decimal digits and
`AsDouble` is not used in the examples. -/
def example_library (inclusive : Bool) : switch_library :=
  { IsBetweenRange := fun v s e => decide (s ≤ v) && (decide (v < e) || (inclusive && decide (v = e))),
    AsUint32 := fun ds => decimal_value ds % 2 ^ 32,
    AsDouble := fun _ => 0 }

/-- The characters that end a key or a value or that `TrimWS` removes: `#`,
`=` and white space. -/
def config_special : List Char :=
  ['#', '=', ' ', Char.ofNat 9, Char.ofNat 10, Char.ofNat 11, Char.ofNat 12, Char.ofNat 13]

/-- White space other than the newline. -/
def is_padding (w : List Char) : Prop :=
  ∀ c ∈ w, isspace c = true ∧ c ≠ Char.ofNat 10

instance (w : List Char) : Decidable (is_padding w) := by
  unfold is_padding
  infer_instance

/-- The text of a configuration file whose lines are `lines`: the lines with a
newline between each two. -/
def join_lines : List (List Char) → List Char
  | [] => []
  | [line] => line
  | line :: line2 :: lines => line ++ Char.ofNat 10 :: join_lines (line2 :: lines)

/-- Long unit names of `parse_size` with their scales. -/
def long_size_names : List (String × Nat) :=
  [("kilobyte", 1024), ("megabyte", 1024 ^ 2), ("terabyte", 1024 ^ 4), ("gigabytes", 1024 ^ 3)]

/-! ## Flush scheduling (`topic_partition_log::schedule_flush`) -/

/-- Modelled from the spec: `cur.flush_state` is declared outside `src/`;
section 4.6 names its two fields. `nextFlushTS` is taken to be a `uint32_t`
like the argument `now` of `schedule_flush`. -/
structure flush_state where
  pendingFlushMsgs : Nat
  nextFlushTS : Nat
  deriving DecidableEq, Repr

/-- The fields of the active segment `cur` that `schedule_flush` reads or
writes: `cur.fdh->fd` (`fd`), `cur.index.fd` (`index_fd`) and
`cur.flush_state`. -/
structure active_segment where
  fd : Int
  index_fd : Int
  flush_state : flush_state
  deriving DecidableEq, Repr

/-- What `schedule_flush` reads or writes: the active segment, the partition's
`config`, the global mailbox `mbox` of `(data fd, index fd)` pairs, and the
number of `mbox_cv.notify_one()` calls made so far. -/
structure flush_context where
  cur : active_segment
  config : partition_config
  mbox : List (Int × Int)
  notified : Nat
  deriving DecidableEq, Repr

/-- The function `topic_partition_log::schedule_flush(now)` (lines 259-270);
`mboxLock` is held around the `push_back` and has no effect of its own in a
sequential run. -/
def schedule_flush (ctx : flush_context) (now : Nat) : flush_context :=
  { ctx with
    cur := { ctx.cur with
      flush_state := { pendingFlushMsgs := 0,
                       nextFlushTS := (now + ctx.config.flushIntervalSecs) % 2 ^ 32 } },
    mbox := ctx.mbox ++ [(ctx.cur.fd, ctx.cur.index_fd)],
    notified := ctx.notified + 1 }

/-! ## The passive cache (`Service::consider_active_partitions`) -/

/-- A partition as the sweep sees it: `id` stands for the identity of the
object (its list node `access.ll`), `last_access` is `access.last_access`. -/
structure topic_partition where
  id : Nat
  last_access : Int
  deriving DecidableEq, Repr

/-- The state of the `Service` that the sweep reads or writes; `closed` records
the calls of `close_partition_log`, in order. -/
structure service_state where
  active_partitions : List topic_partition
  next_active_partitions_check : Nat
  curTime : Int
  now_ms : Nat
  closed : List topic_partition
  deriving DecidableEq, Repr

/-- Modelled from the spec: `close_partition_log` is not part of `service.cpp`;
section 4.8: the partition's log is closed and the partition is removed from
the active list. -/
def close_partition_log (st : service_state) (part : topic_partition) : service_state :=
  { st with active_partitions := st.active_partitions.erase part,
            closed := st.closed ++ [part] }

/-- The loop of `consider_active_partitions` (lines 823-835) over the nodes
still to visit: `next` is read before `close_partition_log` unlinks the
current node, so the loop visits the nodes the list had at the start. `none`
is a failed `TANK_EXPECT`. -/
def sweep_active : List topic_partition → service_state → Option service_state
  | [], st => some st
  | part :: rest, st =>
    if part ∉ st.active_partitions then none
    else if part.last_access + 16 ≤ st.curTime then
      let st1 := close_partition_log st part
      if part ∈ st1.active_partitions then none
      else sweep_active rest st1
    else sweep_active rest st

/-- The function `Service::consider_active_partitions` (lines 822-840);
`Timings::Seconds::ToMillis(8)` is 8000 and `next_active_partitions_check` a
`uint64_t`. -/
def consider_active_partitions (st : service_state) : Option service_state :=
  match sweep_active st.active_partitions st with
  | none => none
  | some st1 =>
    some { st1 with next_active_partitions_check :=
      if st1.active_partitions = [] then 2 ^ 64 - 1 else (st1.now_ms + 8000) % 2 ^ 64 }

/-- Three active partitions, last used at 100, 90 and 84, at time 100. -/
def example_service : service_state :=
  { active_partitions := [⟨1, 100⟩, ⟨2, 90⟩, ⟨3, 84⟩], next_active_partitions_check := 0,
    curTime := 100, now_ms := 100000, closed := [] }

/-! ## Opening files (`Service::safe_open`) -/

/-- The outcome of one `open()` call: a descriptor, or `-1` with `errno` one of
`EINTR`, `ENFILE`, `EMFILE`, or another error. -/
inductive open_result where
  | opened (fd : Int)
  | EINTR
  | ENFILE
  | EMFILE
  | failed
  deriving DecidableEq, Repr

/-- The world of `safe_open`: the outcome of the `k`-th call of `open()` and
of the call `try_shutdown_idle(1)` made after it (which is assumed to leave
`errno` alone when it returns `false`). -/
structure open_env where
  open_call : Nat → open_result
  try_shutdown_idle : Nat → Bool

/-- How a run of `safe_open` ends: it returns `fd` (or `-1`) after `attempts`
calls of `open()`, or the model's budget is used up after `attempts` calls. -/
inductive safe_open_outcome where
  | returned (fd : Int) (attempts : Nat)
  | out_of_fuel (attempts : Nat)
  deriving DecidableEq, Repr

/-- The loop of `Service::safe_open` (lines 736-752) from the `k`-th call of
`open()` on. -/
def safe_open_loop (env : open_env) : Nat → Nat → safe_open_outcome
  | 0, k => .out_of_fuel k
  | fuel + 1, k =>
    match env.open_call k with
    | .opened fd => .returned fd (k + 1)
    | .ENFILE =>
      if env.try_shutdown_idle k then safe_open_loop env fuel (k + 1) else .returned (-1) (k + 1)
    | .EMFILE =>
      if env.try_shutdown_idle k then safe_open_loop env fuel (k + 1) else .returned (-1) (k + 1)
    | .EINTR => safe_open_loop env fuel (k + 1)
    | .failed => .returned (-1) (k + 1)

/-- The function `Service::safe_open` run on a budget of `fuel` passes of its
`for (;;)` loop. -/
def safe_open (env : open_env) (fuel : Nat) : safe_open_outcome :=
  safe_open_loop env fuel 0

/-- The `k`-th attempt is followed by another one: `open()` failed with
`EINTR`, or with `ENFILE` or `EMFILE` and `try_shutdown_idle(1)` succeeded. -/
def open_retried (env : open_env) (k : Nat) : Prop :=
  env.open_call k = .EINTR ∨
  ((env.open_call k = .ENFILE ∨ env.open_call k = .EMFILE) ∧ env.try_shutdown_idle k = true)

instance (env : open_env) (k : Nat) : Decidable (open_retried env k) := by
  unfold open_retried
  infer_instance

/-- What `safe_open` returns when the attempt with outcome `r` is the last
one. -/
def open_result.fd : open_result → Int
  | .opened fd => fd
  | _ => -1

/-- Every `open()` is interrupted. -/
def always_EINTR : open_env :=
  { open_call := fun _ => .EINTR, try_shutdown_idle := fun _ => false }

/-- Every `open()` hits the descriptor limit and an idle connection can always
be shut down. -/
def always_EMFILE : open_env :=
  { open_call := fun _ => .EMFILE, try_shutdown_idle := fun _ => true }

/-- The first `n` calls of `open()` are interrupted, the next one yields
descriptor 3. -/
def interrupted (n : Nat) : open_env :=
  { open_call := fun k => if k < n then .EINTR else .opened 3,
    try_shutdown_idle := fun _ => false }

/-! ## Opening an RO segment (the `ro_segment` constructor) -/

/-- The three flag sets with which the constructor calls `safe_open`:
`O_RDONLY | O_LARGEFILE | O_NOATIME`, plain `O_RDONLY`, and
`O_RDWR | O_LARGEFILE | O_CREAT | O_NOATIME` (with mode 0775). -/
inductive open_flags where
  | read_noatime
  | read_plain
  | create_rw
  deriving DecidableEq, Repr

/-- The file system as the constructor meets it, taken as parameters.
* `read_only` is the global of that name.
* `safe_open path flags` is the value of `this_service->safe_open` (`-1` is
  failure).
* `fstat64 fd` is `st.st_size`, or `none` when `fstat64` returns `-1`.
* `lseek64 fd rebuilt` is the value of `lseek64(fd, 0, SEEK_END)`; `rebuilt`
  tells whether `Service::rebuild_index` has been run on the file before.
* `mmap length fd offset` is the mapped memory, or `none` for `MAP_FAILED`.
* `fileSize_max` and `index_fileSize_max` are the largest values of the types
  of `fileSize` and `index.fileSize`, which are declared outside `src/`. -/
structure segment_env where
  read_only : Bool
  safe_open : String → open_flags → Int
  fstat64 : Int → Option Int
  lseek64 : Int → Bool → Int
  mmap : Nat → Int → Int → Option (List Nat)
  fileSize_max : Int
  index_fileSize_max : Int

/-- The member `index` of an `ro_segment`: `fileSize`, `data` (`none` for
`nullptr`) and `lastRecorded`. -/
structure index_state where
  fileSize : Nat
  data : Option (List Nat)
  relSeqNum : Nat
  absPhysical : Nat
  deriving DecidableEq, Repr

/-- An `ro_segment` as the constructor leaves it. -/
structure opened_segment where
  segment : ro_segment
  haveWideEntries : Bool
  fd : Int
  index : index_state
  deriving DecidableEq, Repr

/-- What the constructor does to the outside world: the calls
`Service::rebuild_index(fdh->fd, indexFd)` and the descriptors closed by the
`DEFER` block. -/
structure ctor_effects where
  rebuilds : List (Int × Int)
  closes : List Int
  deriving DecidableEq, Repr

/-- How the constructor ends: the object is built, a `Switch::system_error` is
thrown, or a check fails. Modelled from the spec: the macros `TANK_EXPECT`,
`IMPLEMENT_ME` and `require` are defined outside `src/`; a failing check ends
the constructor without an object (section 4.2: wide entries are rejected
rather than silently handled). -/
inductive ctor_outcome where
  | completed (s : opened_segment)
  | system_error
  | aborted
  deriving DecidableEq, Repr

/-- The wide index-file path the constructor opens (line 80). -/
def ro_segment_wide_index_path (base : String) (seg : ro_segment) : String :=
  base ++ "/" ++ toString seg.baseSeqNum ++ "_64.index"

/-- The index state set up from a mapping of `size` bytes, `size` not 0 (lines
117-141): the last index entry, when there is one, is read as two
little-endian `uint32_t`. -/
def index_of_mapping (size : Nat) (data : List Nat) : index_state :=
  { fileSize := size, data := some data,
    relSeqNum := if size ≥ 8 then le_value ((data.drop (size - 8)).take 4) else 0,
    absPhysical := if size ≥ 8 then le_value ((data.drop (size - 4)).take 4) else 0 }

/-- The constructor from `size = lseek64(indexFd, 0, SEEK_END)` on (lines
105-144), with the index descriptor in `indexFd`. The `DEFER` block closes
`indexFd` when the constructor returns or throws. -/
def ro_segment_index (env : segment_env) (seg : ro_segment) (wideEntries : Bool)
    (fd indexFd : Int) (rebuilt : Bool) (fx : ctor_effects) : ctor_outcome × ctor_effects :=
  let size := env.lseek64 indexFd rebuilt
  let fx1 := { fx with closes := fx.closes ++ [indexFd] }
  if size = -1 then (.system_error, fx1)
  else if ¬ size < env.index_fileSize_max then (.aborted, fx)
  else if ¬ (wideEntries = false) then (.aborted, fx)
  else if size ≠ 0 then
    match env.mmap size.toNat indexFd 0 with
    | none => (.system_error, fx1)
    | some data =>
      (.completed
        { segment := seg, haveWideEntries := wideEntries, fd := fd,
          index := index_of_mapping size.toNat data },
        fx1)
  else
    (.completed
      { segment := seg, haveWideEntries := wideEntries, fd := fd,
        index := { fileSize := 0, data := none, relSeqNum := 0, absPhysical := 0 } },
      fx1)

/-- The constructor `ro_segment::ro_segment(absSeqNum, lastAbsSeqNum, base,
creationTS, wideEntries)` (lines 20-145). -/
def ro_segment_ctor (env : segment_env) (absSeqNum lastAbsSeqNum : Nat) (base : String)
    (creationTS : Nat) (wideEntries : Bool) : ctor_outcome × ctor_effects :=
  let none_yet : ctor_effects := { rebuilds := [], closes := [] }
  if ¬ lastAbsSeqNum ≥ absSeqNum then (.aborted, none_yet)
  else
    let fd := env.safe_open
      (ro_segment_data_path base ⟨absSeqNum, lastAbsSeqNum, creationTS, 0⟩) .read_noatime
    if fd = -1 then (.system_error, none_yet)
    else
      match env.fstat64 fd with
      | none => (.system_error, none_yet)
      | some size =>
        if size = -1 then (.system_error, none_yet)
        else if ¬ size < env.fileSize_max then (.aborted, none_yet)
        else
          let seg : ro_segment := ⟨absSeqNum, lastAbsSeqNum, creationTS, size.toNat⟩
          let indexPath :=
            if wideEntries then ro_segment_wide_index_path base seg
            else ro_segment_index_path base seg
          let indexFd := env.safe_open indexPath .read_noatime
          if indexFd = -1 then
            let indexFd2 := env.safe_open indexPath
              (if env.read_only then .read_plain else .create_rw)
            if indexFd2 = -1 then (.system_error, none_yet)
            else if wideEntries then (.aborted, none_yet)
            else
              ro_segment_index env seg wideEntries fd indexFd2 true
                { rebuilds := [(fd, indexFd2)], closes := [] }
          else ro_segment_index env seg wideEntries fd indexFd false none_yet

/-- A partition directory in which the segment 0-9 has a data file of 500
bytes (descriptor 3) and an index file of length zero (descriptor 4). -/
def files_with_empty_index : segment_env :=
  { read_only := false,
    safe_open := fun path _ =>
      if path = "/var/tank/events/0/0-9.ilog" then 3
      else if path = "/var/tank/events/0/0.index" then 4
      else -1,
    fstat64 := fun fd => if fd = 3 then some 500 else none,
    lseek64 := fun _ _ => 0,
    mmap := fun _ _ _ => none,
    fileSize_max := 2 ^ 32 - 1, index_fileSize_max := 2 ^ 32 - 1 }

/-- A partition directory in which the segment 0-9 has a data file and no
index file; a new index file can be created unless the service is read-only,
and `rebuild_index` leaves 16 bytes in it. -/
def files_without_index (read_only : Bool) : segment_env :=
  { read_only := read_only,
    safe_open := fun path flags =>
      if path = "/var/tank/events/0/0-9.ilog" then 3
      else if path = "/var/tank/events/0/0.index" ∧ flags = .create_rw then 4
      else -1,
    fstat64 := fun fd => if fd = 3 then some 500 else none,
    lseek64 := fun _ rebuilt => if rebuilt then 16 else 0,
    mmap := fun _ fd _ =>
      if fd = 4 then some [5, 0, 0, 0, 100, 0, 0, 0, 9, 0, 0, 0, 200, 1, 0, 0] else none,
    fileSize_max := 2 ^ 32 - 1, index_fileSize_max := 2 ^ 32 - 1 }

/-! ## Retention pass: helper lemmas -/

theorem removal_loop_suffix (env : retention_env) (cfg : partition_config) (nowTS : Nat)
    (dir : String) (segs : List ro_segment) (sum : Nat) (fx : effects) :
    (removal_loop env cfg nowTS dir segs sum fx).1 <:+ segs := by
  induction segs generalizing sum fx with
  | nil => simp [removal_loop]
  | cons seg rest ih =>
    unfold removal_loop
    split
    · exact (ih _ _).trans (List.suffix_cons seg rest)
    · exact List.suffix_refl _

theorem removal_loop_stops (env : retention_env) (cfg : partition_config) (nowTS : Nat)
    (dir : String) (segs : List ro_segment) (sum : Nat) (fx : effects)
    (seg : ro_segment) (rest : List ro_segment)
    (h : (removal_loop env cfg nowTS dir segs sum fx).1 = seg :: rest) :
    must_remove cfg nowTS (rest.length + 1)
      (removal_loop env cfg nowTS dir segs sum fx).2.1 seg = false := by
  induction segs generalizing sum fx with
  | nil => simp [removal_loop] at h
  | cons s r ih =>
    unfold removal_loop at h ⊢
    split
    · rename_i hrm
      rw [if_pos hrm] at h
      exact ih _ _ h
    · rename_i hrm
      rw [if_neg hrm] at h
      simp only [List.cons.injEq] at h
      obtain ⟨h1, h2⟩ := h
      subst h1 h2
      simpa using hrm

theorem sum_file_sizes_eq (segs : List ro_segment) (sum : Nat)
    (h : sum + total_size segs < 2 ^ 64) :
    sum_file_sizes sum segs = sum + total_size segs := by
  induction segs generalizing sum with
  | nil => simp [sum_file_sizes, total_size]
  | cons seg rest ih =>
    simp only [total_size, List.map_cons, List.sum_cons] at h
    have h1 : (sum + seg.fileSize) % 2 ^ 64 = sum + seg.fileSize := by
      apply Nat.mod_eq_of_lt; omega
    simp only [sum_file_sizes, h1, total_size, List.map_cons, List.sum_cons]
    have := ih (sum + seg.fileSize) (by simp only [total_size]; omega)
    simp only [total_size] at this
    rw [this]; omega

theorem removal_loop_sum (env : retention_env) (cfg : partition_config) (nowTS : Nat)
    (dir : String) (segs : List ro_segment) (fx : effects)
    (h : total_size segs < 2 ^ 64) :
    (removal_loop env cfg nowTS dir segs (total_size segs) fx).2.1 =
      total_size (removal_loop env cfg nowTS dir segs (total_size segs) fx).1 := by
  induction segs generalizing fx with
  | nil => simp [removal_loop]
  | cons seg rest ih =>
    have hlt : total_size rest < 2 ^ 64 := by
      simp only [total_size, List.map_cons, List.sum_cons] at h ⊢; omega
    have hsub : (total_size (seg :: rest) + 2 ^ 64 - seg.fileSize % 2 ^ 64) % 2 ^ 64
        = total_size rest := by
      simp only [total_size, List.map_cons, List.sum_cons] at h ⊢
      have h2 : seg.fileSize % 2 ^ 64 = seg.fileSize := Nat.mod_eq_of_lt (by omega)
      rw [h2]
      have h3 : seg.fileSize + (List.map (fun seg => seg.fileSize) rest).sum + 2 ^ 64
          - seg.fileSize = (List.map (fun seg => seg.fileSize) rest).sum + 2 ^ 64 := by omega
      rw [h3, Nat.add_mod_right]
      exact Nat.mod_eq_of_lt hlt
    unfold removal_loop
    split
    · simp only [remove_front, hsub]
      exact ih _ hlt
    · rfl

theorem removal_loop_count_only (env : retention_env) (cfg : partition_config) (nowTS : Nat)
    (dir : String) (segs : List ro_segment) (sum : Nat) (fx : effects)
    (hcnt : 0 < cfg.roSegmentsCnt) (hsize : cfg.roSegmentsSize = 0)
    (hage : cfg.lastSegmentMaxAge = 0) :
    (removal_loop env cfg nowTS dir segs sum fx).1 =
      segs.drop (segs.length - cfg.roSegmentsCnt) := by
  induction segs generalizing sum fx with
  | nil => simp [removal_loop]
  | cons seg rest ih =>
    unfold removal_loop
    by_cases hgt : rest.length + 1 > cfg.roSegmentsCnt
    · have hrm : must_remove cfg nowTS (rest.length + 1) sum seg = true := by
        simp [must_remove, hgt]; left; omega
      rw [if_pos hrm, ih]
      have : (seg :: rest).length - cfg.roSegmentsCnt
          = (rest.length - cfg.roSegmentsCnt) + 1 := by
        simp only [List.length_cons]; omega
      rw [this, List.drop_succ_cons]
    · have hrm : must_remove cfg nowTS (rest.length + 1) sum seg = false := by
        simp [must_remove, hsize, hage]; intro _; omega
      rw [hrm]
      have : rest.length + 1 - cfg.roSegmentsCnt = 0 := by omega
      simp [this]

theorem sum_file_sizes_mod (segs : List ro_segment) (sum : Nat) (h : sum < 2 ^ 64) :
    sum_file_sizes sum segs = (sum + total_size segs) % 2 ^ 64 := by
  induction segs generalizing sum with
  | nil =>
    simp only [sum_file_sizes, total_size, List.map_nil, List.sum_nil, Nat.add_zero]
    exact (Nat.mod_eq_of_lt h).symm
  | cons seg rest ih =>
    simp only [sum_file_sizes, total_size, List.map_cons, List.sum_cons]
    rw [ih _ (Nat.mod_lt _ (by norm_num))]
    simp only [total_size]
    rw [Nat.mod_add_mod, Nat.add_assoc]

/-- The `uint64_t` sum after the front segment is removed is the sum the
first loop computes for the rest of the list. -/
theorem sum_file_sizes_remove_front (seg : ro_segment) (rest : List ro_segment) :
    (sum_file_sizes 0 (seg :: rest) + 2 ^ 64 - seg.fileSize % 2 ^ 64) % 2 ^ 64
      = sum_file_sizes 0 rest := by
  rw [sum_file_sizes_mod _ 0 (by norm_num), sum_file_sizes_mod _ 0 (by norm_num)]
  simp only [total_size, List.map_cons, List.sum_cons, Nat.zero_add]
  generalize (List.map (fun seg => seg.fileSize) rest).sum = t
  generalize seg.fileSize = f
  norm_num
  omega

/-- A segment that the removal loop removed met the loop condition when it
was the front: with the segments behind it as the list, and with their sum. -/
theorem removal_loop_removed (env : retention_env) (cfg : partition_config) (nowTS : Nat)
    (dir : String) (pre : List ro_segment) (seg : ro_segment) (post : List ro_segment)
    (fx : effects)
    (h : (removal_loop env cfg nowTS dir (pre ++ seg :: post)
      (sum_file_sizes 0 (pre ++ seg :: post)) fx).1.length ≤ post.length) :
    must_remove cfg nowTS (post.length + 1) (sum_file_sizes 0 (seg :: post)) seg = true := by
  induction pre generalizing fx with
  | nil =>
    simp only [List.nil_append] at h
    unfold removal_loop at h
    by_cases hrm : must_remove cfg nowTS (post.length + 1) (sum_file_sizes 0 (seg :: post)) seg
        = true
    · exact hrm
    · rw [if_neg hrm] at h
      simp at h
  | cons p pre ih =>
    simp only [List.cons_append] at h
    unfold removal_loop at h
    by_cases hrm : must_remove cfg nowTS ((pre ++ seg :: post).length + 1)
        (sum_file_sizes 0 (p :: (pre ++ seg :: post))) p = true
    · rw [if_pos hrm] at h
      simp only [remove_front, sum_file_sizes_remove_front] at h
      exact ih _ h
    · rw [if_neg hrm] at h
      simp at h
      omega

/-- With the count and size limits disabled, the removal loop removes the
longest run of front segments that have a creation time and are too old. -/
theorem removal_loop_age_only (env : retention_env) (cfg : partition_config) (nowTS : Nat)
    (dir : String) (segs : List ro_segment) (sum : Nat) (fx : effects)
    (hcnt : cfg.roSegmentsCnt = 0) (hsize : cfg.roSegmentsSize = 0) :
    (removal_loop env cfg nowTS dir segs sum fx).1 =
      segs.dropWhile (fun seg => decide (seg.createdTS ≠ 0 ∧ 0 < cfg.lastSegmentMaxAge ∧
        seg.createdTS + cfg.lastSegmentMaxAge < nowTS)) := by
  induction segs generalizing sum fx with
  | nil => simp [removal_loop]
  | cons seg rest ih =>
    unfold removal_loop
    by_cases hage : seg.createdTS ≠ 0 ∧ 0 < cfg.lastSegmentMaxAge ∧
        seg.createdTS + cfg.lastSegmentMaxAge < nowTS
    · have hrm : must_remove cfg nowTS (rest.length + 1) sum seg = true := by
        simp only [must_remove, hcnt, hsize]
        simp
        exact ⟨⟨hage.1, by omega⟩, hage.2.2⟩
      rw [if_pos hrm, List.dropWhile_cons_of_pos (by simpa using hage)]
      exact ih _ _
    · have hrm : ¬ must_remove cfg nowTS (rest.length + 1) sum seg = true := by
        simp only [must_remove, hcnt, hsize]
        simp
        intro h1 h2 
        by_contra h3
        exact hage ⟨h1, by omega, by omega⟩
      rw [if_neg hrm, List.dropWhile_cons_of_neg (by simpa using hage)]

/-- The DELETE branch of `consider_ro_segments`, unfolded. -/
theorem consider_ro_segments_delete (env : retention_env) (now : Int)
    (log : topic_partition_log) (fx : effects)
    (hnow : now ≠ -1) (hcomp : log.compacting = false)
    (hpol : log.config.logCleanupPolicy = CleanupPolicy.DELETE) :
    consider_ro_segments env now log fx =
      .ok ({ log with
              roSegments := (removal_loop env log.config (now % 2 ^ 32).toNat (partition_dir log)
                log.roSegments (sum_file_sizes 0 log.roSegments) fx).1,
              firstAvailableSeqNum := front_or_cur
                (removal_loop env log.config (now % 2 ^ 32).toNat (partition_dir log)
                  log.roSegments (sum_file_sizes 0 log.roSegments) fx).1 log.cur_baseSeqNum },
           (removal_loop env log.config (now % 2 ^ 32).toNat (partition_dir log)
                log.roSegments (sum_file_sizes 0 log.roSegments) fx).2.2) := by
  simp [consider_ro_segments, hnow, hcomp, hpol]

/-! ## Retention pass: the claims -/

/-- C2. Count-based delete retention: a DELETE pass with `compacting = false`
and `roSegmentsCnt = c > 0` returns with at most `c` RO segments; when moreover
the size and age limits are disabled, the list afterwards is exactly the last
`min n c` of the `n` segments it held, in their original order. -/
theorem consider_ro_segments_count_retention (env : retention_env) (now : Int)
    (log : topic_partition_log) (fx : effects) (c : Nat)
    (hnow : now ≠ -1) (hcomp : log.compacting = false)
    (hpol : log.config.logCleanupPolicy = CleanupPolicy.DELETE)
    (hc : log.config.roSegmentsCnt = c) (hpos : 0 < c) :
    ∃ log1 fx1, consider_ro_segments env now log fx = .ok (log1, fx1) ∧
      log1.roSegments.length ≤ c ∧
      (log.config.roSegmentsSize = 0 → log.config.lastSegmentMaxAge = 0 →
        log1.roSegments =
          log.roSegments.drop (log.roSegments.length - min log.roSegments.length c)) := by
  refine ⟨_, _, consider_ro_segments_delete env now log fx hnow hcomp hpol, ?_, ?_⟩
  · show (removal_loop env log.config (now % 2 ^ 32).toNat (partition_dir log)
      log.roSegments (sum_file_sizes 0 log.roSegments) fx).1.length ≤ c
    cases hres : (removal_loop env log.config (now % 2 ^ 32).toNat (partition_dir log)
      log.roSegments (sum_file_sizes 0 log.roSegments) fx).1 with
    | nil => simp
    | cons seg rest =>
      have hstop := removal_loop_stops env log.config _ _ _ _ fx seg rest hres
      simp only [must_remove, Bool.or_eq_false_iff, Bool.and_eq_false_iff] at hstop
      rcases hstop.1.1 with h | h
      · simp [hc] at h; omega
      · simp [hc] at h; simpa using h
  · intro hsize hage
    show (removal_loop env log.config (now % 2 ^ 32).toNat (partition_dir log)
      log.roSegments (sum_file_sizes 0 log.roSegments) fx).1 = _
    rw [removal_loop_count_only env log.config _ _ _ _ fx (hc ▸ hpos) hsize hage, hc]
    congr 1
    omega

/-- Witness of C2 (scenario 3 of the spec): five RO segments and
`retention.segments.count = 2` leave exactly the last two. -/
theorem consider_ro_segments_count_retention_witness :
    ∃ log1 fx1, consider_ro_segments env_unlink_ok 1000 log_five no_effects = .ok (log1, fx1) ∧
      log1.roSegments.length ≤ 2 ∧
      log1.roSegments = [⟨30, 39, 400, 50⟩, ⟨40, 49, 500, 50⟩] := by
  obtain ⟨l, f, h1, h2, h3⟩ := consider_ro_segments_count_retention env_unlink_ok 1000
    log_five no_effects 2 (by decide) rfl rfl rfl (by decide)
  exact ⟨l, f, h1, h2, by rw [h3 rfl rfl]; rfl⟩

/-- C3, as stated, fails: a front segment whose `createdTS` is 0 stays in the
list although `lastSegmentMaxAge > 0` and `createdTS + lastSegmentMaxAge < now`. -/
theorem consider_ro_segments_age_counterexample :
    ∃ log1 fx1 front rest,
      consider_ro_segments env_unlink_ok 1000 log_unknown_age no_effects = .ok (log1, fx1) ∧
      log1.roSegments = front :: rest ∧
      0 < log1.config.lastSegmentMaxAge ∧
      front.createdTS + log1.config.lastSegmentMaxAge < 1000 := by
  refine ⟨_, _, ⟨0, 9, 0, 50⟩, [], consider_ro_segments_delete env_unlink_ok 1000
    log_unknown_age no_effects (by decide) rfl rfl, ?_, ?_, ?_⟩
  · rfl
  · decide
  · decide

/-- C3, amended. Age-based delete retention: after a DELETE pass with
`compacting = false` at time `now`, the RO list has no front segment with
`createdTS ≠ 0`, `lastSegmentMaxAge > 0` and
`createdTS + lastSegmentMaxAge < now` (`now` as the `uint32_t` the code uses).
A segment whose `createdTS` is 0 is never removed by the age rule: when the
pass removed it (the list afterwards is no longer than what stood behind the
segment), the count rule or the size rule held for the list it was the front
of. With the count and size limits disabled the pass removes exactly the front
segments that have `createdTS ≠ 0` and are too old, up to the first segment
that is not. -/
theorem consider_ro_segments_age_retention (env : retention_env) (now : Int)
    (log : topic_partition_log) (fx : effects)
    (hnow : now ≠ -1) (hcomp : log.compacting = false)
    (hpol : log.config.logCleanupPolicy = CleanupPolicy.DELETE) :
    ∃ log1 fx1, consider_ro_segments env now log fx = .ok (log1, fx1) ∧
      (∀ front rest, log1.roSegments = front :: rest →
        ¬ (front.createdTS ≠ 0 ∧ 0 < log.config.lastSegmentMaxAge ∧
            front.createdTS + log.config.lastSegmentMaxAge < (now % 2 ^ 32).toNat)) ∧
      (∀ (pre : List ro_segment) (seg : ro_segment) (post : List ro_segment),
        log.roSegments = pre ++ seg :: post →
        log1.roSegments.length ≤ post.length → seg.createdTS = 0 →
          (0 < log.config.roSegmentsCnt ∧ log.config.roSegmentsCnt < post.length + 1) ∨
          (0 < log.config.roSegmentsSize ∧
            log.config.roSegmentsSize < sum_file_sizes 0 (seg :: post))) ∧
      (log.config.roSegmentsCnt = 0 → log.config.roSegmentsSize = 0 →
        log1.roSegments = log.roSegments.dropWhile (fun seg =>
          decide (seg.createdTS ≠ 0 ∧ 0 < log.config.lastSegmentMaxAge ∧
            seg.createdTS + log.config.lastSegmentMaxAge < (now % 2 ^ 32).toNat))) := by
  refine ⟨_, _, consider_ro_segments_delete env now log fx hnow hcomp hpol, ?_, ?_, ?_⟩
  · intro front rest hres
    have hstop := removal_loop_stops env log.config _ _ _ _ fx front rest hres
    simp only [must_remove, Bool.or_eq_false_iff, Bool.and_eq_false_iff] at hstop
    rintro ⟨h1, h2, h3⟩
    rcases hstop.2 with (h | h) | h
    · simp at h; exact h1 h
    · simp at h; omega
    · simp at h; omega
  · intro pre seg post hsplit hlen hts
    have hlen1 : (removal_loop env log.config (now % 2 ^ 32).toNat (partition_dir log)
        (pre ++ seg :: post) (sum_file_sizes 0 (pre ++ seg :: post)) fx).1.length
          ≤ post.length := by
      rw [← hsplit]; exact hlen
    have hrm := removal_loop_removed env log.config _ _ pre seg post fx hlen1
    simp only [must_remove, hts] at hrm
    simp at hrm
    rcases hrm with h | h
    · exact Or.inl ⟨by omega, h.2⟩
    · exact Or.inr ⟨by omega, h.2⟩
  · intro hcnt hsize
    exact removal_loop_age_only env log.config _ _ _ _ fx hcnt hsize

/-- Witness of the amended C3: of three segments created at 100, 0 and 900,
with an age limit of 60 seconds at time 1000, the first is removed and the
second, whose `createdTS` is 0, stays at the front. -/
theorem consider_ro_segments_age_retention_witness :
    ∃ log1 fx1,
      consider_ro_segments env_unlink_ok 1000 log_mixed_age no_effects = .ok (log1, fx1) ∧
      log1.roSegments = [⟨10, 19, 0, 50⟩, ⟨20, 29, 900, 50⟩] := by
  obtain ⟨l, f, h1, _, _, h4⟩ := consider_ro_segments_age_retention env_unlink_ok 1000
    log_mixed_age no_effects (by decide) rfl rfl
  exact ⟨l, f, h1, by rw [h4 rfl rfl]; decide⟩

/-- C4. Size-based delete retention: after a DELETE pass with
`compacting = false` and `roSegmentsSize > 0`, either no RO segment remains or
the remaining file sizes add up to at most `roSegmentsSize`, whatever the count
and age limits are (the total size of the segments fits the `uint64_t` sum). -/
theorem consider_ro_segments_size_retention (env : retention_env) (now : Int)
    (log : topic_partition_log) (fx : effects)
    (hnow : now ≠ -1) (hcomp : log.compacting = false)
    (hpol : log.config.logCleanupPolicy = CleanupPolicy.DELETE)
    (hsize : 0 < log.config.roSegmentsSize)
    (hfit : total_size log.roSegments < 2 ^ 64) :
    ∃ log1 fx1, consider_ro_segments env now log fx = .ok (log1, fx1) ∧
      (log1.roSegments = [] ∨ total_size log1.roSegments ≤ log.config.roSegmentsSize) := by
  refine ⟨_, _, consider_ro_segments_delete env now log fx hnow hcomp hpol, ?_⟩
  show (removal_loop env log.config (now % 2 ^ 32).toNat (partition_dir log)
      log.roSegments (sum_file_sizes 0 log.roSegments) fx).1 = [] ∨
    total_size (removal_loop env log.config (now % 2 ^ 32).toNat (partition_dir log)
      log.roSegments (sum_file_sizes 0 log.roSegments) fx).1 ≤ log.config.roSegmentsSize
  have hsum : sum_file_sizes 0 log.roSegments = total_size log.roSegments := by
    rw [sum_file_sizes_eq _ _ (by omega)]; omega
  rw [hsum]
  cases hres : (removal_loop env log.config (now % 2 ^ 32).toNat (partition_dir log)
      log.roSegments (total_size log.roSegments) fx).1 with
  | nil => exact Or.inl rfl
  | cons seg rest =>
    right
    have hstop := removal_loop_stops env log.config _ _ _ _ fx seg rest hres
    rw [removal_loop_sum env log.config _ _ _ fx hfit, hres] at hstop
    simp only [must_remove, Bool.or_eq_false_iff, Bool.and_eq_false_iff] at hstop
    rcases hstop.1.2 with h | h
    · simp at h; omega
    · simpa using h

/-- Witness of C4: 150 bytes in three segments under a limit of 120 bytes. -/
theorem consider_ro_segments_size_retention_witness :
    0 < log_aged.config.roSegmentsSize ∧ total_size log_aged.roSegments < 2 ^ 64 ∧
    ∃ log1 fx1, consider_ro_segments env_unlink_ok 150 log_aged no_effects = .ok (log1, fx1) ∧
      (log1.roSegments = [] ∨ total_size log1.roSegments ≤ log_aged.config.roSegmentsSize) :=
  ⟨by decide, by decide,
   consider_ro_segments_size_retention env_unlink_ok 150 log_aged no_effects
     (by decide) rfl rfl (by decide) (by decide)⟩

/-- C5. After a DELETE pass with `compacting = false`, `firstAvailableSeqNum`
is the `baseSeqNum` of the first remaining RO segment if one remains, and
`cur.baseSeqNum` (which the pass does not change) otherwise. -/
theorem consider_ro_segments_first_available (env : retention_env) (now : Int)
    (log : topic_partition_log) (fx : effects)
    (hnow : now ≠ -1) (hcomp : log.compacting = false)
    (hpol : log.config.logCleanupPolicy = CleanupPolicy.DELETE) :
    ∃ log1 fx1, consider_ro_segments env now log fx = .ok (log1, fx1) ∧
      log1.cur_baseSeqNum = log.cur_baseSeqNum ∧
      (log1.roSegments = [] → log1.firstAvailableSeqNum = log.cur_baseSeqNum) ∧
      (∀ front rest, log1.roSegments = front :: rest →
        log1.firstAvailableSeqNum = front.baseSeqNum) := by
  refine ⟨_, _, consider_ro_segments_delete env now log fx hnow hcomp hpol, rfl, ?_, ?_⟩
  · intro h
    show front_or_cur _ _ = _
    simp only at h
    rw [h]; rfl
  · intro front rest h
    show front_or_cur _ _ = _
    simp only at h
    rw [h]; rfl

/-- Witness of C5: after the count-limited pass over five segments the first
available sequence number is 30, the base of the surviving front segment. -/
theorem consider_ro_segments_first_available_witness :
    ∃ log1 fx1, consider_ro_segments env_unlink_ok 1000 log_five no_effects = .ok (log1, fx1) ∧
      log1.firstAvailableSeqNum = 30 := by
  obtain ⟨l, f, h1, -, -, h4⟩ := consider_ro_segments_first_available env_unlink_ok 1000
    log_five no_effects (by decide) rfl rfl
  have g1 := consider_ro_segments_delete env_unlink_ok 1000 log_five no_effects
    (by decide) rfl rfl
  rw [h1] at g1
  cases g1
  exact ⟨_, _, h1, h4 ⟨30, 39, 400, 50⟩ [⟨40, 49, 500, 50⟩] (by decide)⟩

theorem front_or_cur_suffix_le (segs kept : List ro_segment) (cur : Nat)
    (hsuf : kept <:+ segs)
    (hsorted : List.Pairwise (fun a b => a.baseSeqNum ≤ b.baseSeqNum) segs)
    (hcur : ∀ seg ∈ segs, seg.baseSeqNum ≤ cur) :
    front_or_cur segs cur ≤ front_or_cur kept cur := by
  obtain ⟨pre, rfl⟩ := hsuf
  cases pre with
  | nil => simp
  | cons p ps =>
    cases kept with
    | nil => exact hcur p (by simp)
    | cons k ks =>
      simp only [front_or_cur, List.cons_append]
      have hk : k ∈ ps ++ k :: ks := by simp
      exact List.rel_of_pairwise_cons hsorted hk

/-- C6. Delete-policy monotonicity: when the RO segments are in ascending
order of `baseSeqNum`, none starts after the active segment and
`firstAvailableSeqNum` is the front base (or `cur.baseSeqNum`), a pass under the
DELETE policy returns with `firstAvailableSeqNum` at least as large as before,
and the same ordering precondition holds afterwards. -/
theorem consider_ro_segments_monotone (env : retention_env) (now : Int)
    (log : topic_partition_log) (fx : effects)
    (hnow : now ≠ -1)
    (hpol : log.config.logCleanupPolicy = CleanupPolicy.DELETE)
    (hpre : ro_ordered log) :
    ∃ log1 fx1, consider_ro_segments env now log fx = .ok (log1, fx1) ∧
      log.firstAvailableSeqNum ≤ log1.firstAvailableSeqNum ∧ ro_ordered log1 := by
  cases hcomp : log.compacting with
  | true =>
    exact ⟨log, fx, by simp [consider_ro_segments, hcomp], le_refl _, hpre⟩
  | false =>
    refine ⟨_, _, consider_ro_segments_delete env now log fx hnow hcomp hpol, ?_, ?_⟩
    · obtain ⟨h1, h2, h3⟩ := hpre
      rw [h3]
      exact front_or_cur_suffix_le _ _ _ (removal_loop_suffix _ _ _ _ _ _ _) h1 h2
    · obtain ⟨h1, h2, -⟩ := hpre
      have hsuf := removal_loop_suffix env log.config (now % 2 ^ 32).toNat (partition_dir log)
        log.roSegments (sum_file_sizes 0 log.roSegments) fx
      exact ⟨h1.sublist hsuf.sublist, fun seg hseg => h2 seg (hsuf.subset hseg), rfl⟩

/-- Witness of C6 on the five-segment log. -/
theorem consider_ro_segments_monotone_witness :
    ro_ordered log_five ∧
    ∃ log1 fx1, consider_ro_segments env_unlink_ok 1000 log_five no_effects = .ok (log1, fx1) ∧
      log_five.firstAvailableSeqNum ≤ log1.firstAvailableSeqNum ∧ ro_ordered log1 :=
  ⟨by decide,
   consider_ro_segments_monotone env_unlink_ok 1000 log_five no_effects
     (by decide) rfl (by decide)⟩

/-- C7. While `compacting` is set, `consider_ro_segments` returns at once: the
log (RO segment list, `firstAvailableSeqNum`, everything else) is unchanged and
no effect is added (no `Unlink`, no `compact`), whatever the policy, the limits
and the clock are. -/
theorem consider_ro_segments_compacting (env : retention_env) (now : Int)
    (log : topic_partition_log) (fx : effects) (hcomp : log.compacting = true) :
    consider_ro_segments env now log fx = .ok (log, fx) := by
  simp [consider_ro_segments, hcomp]

/-- Witness of C7: the five-segment log, over its count limit, is left alone
while it is compacting. -/
theorem consider_ro_segments_compacting_witness :
    consider_ro_segments env_unlink_ok 1000 { log_five with compacting := true } no_effects
      = .ok ({ log_five with compacting := true }, no_effects) :=
  consider_ro_segments_compacting env_unlink_ok 1000 { log_five with compacting := true }
    no_effects rfl

theorem removal_loop_unlink_blind (env : retention_env) (U : List String → String → Int)
    (cfg : partition_config) (nowTS : Nat) (dir : String) (segs : List ro_segment) (sum : Nat)
    (fx fx2 : effects) (hfx : fx.unlinks = fx2.unlinks) :
    (removal_loop env cfg nowTS dir segs sum fx).1 =
      (removal_loop { env with Unlink := U } cfg nowTS dir segs sum fx2).1 ∧
    (removal_loop env cfg nowTS dir segs sum fx).2.2.unlinks =
      (removal_loop { env with Unlink := U } cfg nowTS dir segs sum fx2).2.2.unlinks := by
  induction segs generalizing sum fx fx2 with
  | nil => simp [removal_loop, hfx]
  | cons seg rest ih =>
    unfold removal_loop
    split
    · apply ih
      simp only [remove_front, unlink_and_report]
      split <;> split <;> split <;> split <;> simp [hfx]
    · simp [hfx]

theorem removal_loop_unlinks_grow (env : retention_env)
    (cfg : partition_config) (nowTS : Nat) (dir : String) (segs : List ro_segment) (sum : Nat)
    (fx : effects) :
    fx.unlinks <+: (removal_loop env cfg nowTS dir segs sum fx).2.2.unlinks := by
  induction segs generalizing sum fx with
  | nil => simp [removal_loop]
  | cons seg rest ih =>
    unfold removal_loop
    split
    · refine List.IsPrefix.trans ?_ (ih _ _)
      simp only [remove_front, unlink_and_report]
      split <;> split <;> simp
    · simp

theorem remove_front_unlinks (env : retention_env) (dir : String) (seg : ro_segment)
    (sum : Nat) (fx : effects) :
    (remove_front env dir seg sum fx).2.unlinks =
      fx.unlinks ++ [unlink_data_path dir seg, unlink_index_path dir seg] := by
  simp only [remove_front, unlink_and_report]
  split <;> split <;> simp

/-- C8, as stated, fails: every `Unlink` fails, the first one on the data file
of the front segment, and the pass still unlinks the index file and goes on to
remove two more segments. -/
theorem consider_ro_segments_unlink_failure_counterexample :
    env_unlink_fails.Unlink no_effects.unlinks
      (unlink_data_path (partition_dir log_five) ⟨0, 9, 100, 50⟩) = -1 ∧
    ∃ log1 fx1,
      consider_ro_segments env_unlink_fails 1000 log_five no_effects = .ok (log1, fx1) ∧
      log1.roSegments = [⟨30, 39, 400, 50⟩, ⟨40, 49, 500, 50⟩] ∧
      fx1.unlinks = ["/var/tank/events/0//0-9_100.ilog", "/var/tank/events/0//0.index",
                     "/var/tank/events/0//10-19_200.ilog", "/var/tank/events/0//10.index",
                     "/var/tank/events/0//20-29_300.ilog", "/var/tank/events/0//20.index"] := by
  refine ⟨rfl, _, _, consider_ro_segments_delete env_unlink_fails 1000 log_five no_effects
    (by decide) rfl rfl, ?_, ?_⟩
  · decide
  · decide

theorem removal_loop_failed_grows (env : retention_env)
    (cfg : partition_config) (nowTS : Nat) (dir : String) (segs : List ro_segment) (sum : Nat)
    (fx : effects) :
    fx.failed <+: (removal_loop env cfg nowTS dir segs sum fx).2.2.failed := by
  induction segs generalizing sum fx with
  | nil => simp [removal_loop]
  | cons seg rest ih =>
    unfold removal_loop
    split
    · refine List.IsPrefix.trans ?_ (ih _ _)
      simp only [remove_front, unlink_and_report]
      split <;> split <;> simp
    · simp

theorem remove_front_failed (env : retention_env) (dir : String) (seg : ro_segment)
    (sum : Nat) (fx : effects)
    (hfail : env.Unlink fx.unlinks (unlink_data_path dir seg) = -1) :
    unlink_data_path dir seg ∈ (remove_front env dir seg sum fx).2.failed := by
  simp only [remove_front, unlink_and_report, hfail, if_true]
  split <;> simp

/-- C8, amended. A failing `Unlink` does not abort the DELETE pass: when the
front segment is due for removal and unlinking its data file fails, the failure
is printed and nothing else changes: the pass still issues the unlink of the
segment's index file, still removes the segment from the list, and ends with
the same log and the same sequence of `Unlink` calls as under any other
behaviour of `Unlink`. -/
theorem consider_ro_segments_unlink_failure_ignored (env : retention_env) (now : Int)
    (log : topic_partition_log) (fx : effects) (seg : ro_segment) (rest : List ro_segment)
    (hnow : now ≠ -1) (hcomp : log.compacting = false)
    (hpol : log.config.logCleanupPolicy = CleanupPolicy.DELETE)
    (hfront : log.roSegments = seg :: rest)
    (hdue : must_remove log.config (now % 2 ^ 32).toNat (rest.length + 1)
      (sum_file_sizes 0 log.roSegments) seg = true)
    (hfail : env.Unlink fx.unlinks (unlink_data_path (partition_dir log) seg) = -1) :
    ∃ log1 fx1, consider_ro_segments env now log fx = .ok (log1, fx1) ∧
      unlink_data_path (partition_dir log) seg ∈ fx1.failed ∧
      log1.roSegments <:+ rest ∧
      fx.unlinks ++ [unlink_data_path (partition_dir log) seg,
                     unlink_index_path (partition_dir log) seg] <+: fx1.unlinks ∧
      ∀ U : List String → String → Int, ∃ fx2,
        consider_ro_segments { env with Unlink := U } now log fx = .ok (log1, fx2) ∧
        fx2.unlinks = fx1.unlinks := by
  refine ⟨_, _, consider_ro_segments_delete env now log fx hnow hcomp hpol, ?_, ?_, ?_, ?_⟩
  · show _ ∈ (removal_loop env log.config (now % 2 ^ 32).toNat (partition_dir log)
      log.roSegments (sum_file_sizes 0 log.roSegments) fx).2.2.failed
    generalize sum_file_sizes 0 log.roSegments = sum at hdue ⊢
    rw [hfront]
    unfold removal_loop
    rw [if_pos hdue]
    exact (removal_loop_failed_grows env log.config (now % 2 ^ 32).toNat (partition_dir log)
      rest (remove_front env (partition_dir log) seg sum fx).1
      (remove_front env (partition_dir log) seg sum fx).2).subset
      (remove_front_failed env (partition_dir log) seg sum fx hfail)
  · show (removal_loop env log.config (now % 2 ^ 32).toNat (partition_dir log)
      log.roSegments (sum_file_sizes 0 log.roSegments) fx).1 <:+ rest
    generalize sum_file_sizes 0 log.roSegments = sum at hdue ⊢
    rw [hfront]
    unfold removal_loop
    rw [if_pos hdue]
    exact removal_loop_suffix _ _ _ _ _ _ _
  · show _ <+: (removal_loop env log.config (now % 2 ^ 32).toNat (partition_dir log)
      log.roSegments (sum_file_sizes 0 log.roSegments) fx).2.2.unlinks
    generalize sum_file_sizes 0 log.roSegments = sum at hdue ⊢
    rw [hfront]
    unfold removal_loop
    rw [if_pos hdue]
    have h := removal_loop_unlinks_grow env log.config (now % 2 ^ 32).toNat (partition_dir log)
      rest (remove_front env (partition_dir log) seg sum fx).1
      (remove_front env (partition_dir log) seg sum fx).2
    rw [remove_front_unlinks] at h
    exact h
  · intro U
    have hb := removal_loop_unlink_blind env U log.config (now % 2 ^ 32).toNat (partition_dir log)
      log.roSegments (sum_file_sizes 0 log.roSegments) fx fx rfl
    refine ⟨_, consider_ro_segments_delete { env with Unlink := U } now log fx hnow hcomp hpol
      |>.trans ?_, hb.2.symm⟩
    simp only [partition_dir] at hb ⊢
    rw [← hb.1]

/-- Witness of the amended C8 on the five-segment log with a failing `Unlink`. -/
theorem consider_ro_segments_unlink_failure_ignored_witness :
    env_unlink_fails.Unlink no_effects.unlinks
      (unlink_data_path (partition_dir log_five) ⟨0, 9, 100, 50⟩) = -1 ∧
    ∃ log1 fx1, consider_ro_segments env_unlink_fails 1000 log_five no_effects = .ok (log1, fx1) ∧
      unlink_data_path (partition_dir log_five) ⟨0, 9, 100, 50⟩ ∈ fx1.failed ∧
      log1.roSegments <:+ [⟨10, 19, 200, 50⟩, ⟨20, 29, 300, 50⟩,
                           ⟨30, 39, 400, 50⟩, ⟨40, 49, 500, 50⟩] ∧
      no_effects.unlinks ++ [unlink_data_path (partition_dir log_five) ⟨0, 9, 100, 50⟩,
                     unlink_index_path (partition_dir log_five) ⟨0, 9, 100, 50⟩] <+: fx1.unlinks ∧
      ∀ U : List String → String → Int, ∃ fx2,
        consider_ro_segments { env_unlink_fails with Unlink := U } 1000 log_five no_effects
          = .ok (log1, fx2) ∧
        fx2.unlinks = fx1.unlinks :=
  ⟨rfl, consider_ro_segments_unlink_failure_ignored env_unlink_fails 1000 log_five no_effects
    ⟨0, 9, 100, 50⟩ _ (by decide) rfl rfl rfl (by decide) rfl⟩

/-- Where the two file names agree: for a segment whose `createdTS` is not 0
the data file handed to `Unlink` is the one the constructor opened, and the
index file is the same in both places. -/
theorem unlink_paths_eq_constructor_paths (dir : String) (seg : ro_segment)
    (h : seg.createdTS ≠ 0) :
    unlink_data_path dir seg = ro_segment_data_path dir seg ∧
    unlink_index_path dir seg = ro_segment_index_path dir seg := by
  simp [unlink_data_path, ro_segment_data_path, unlink_index_path, ro_segment_index_path, h]

/-- C9, at the failing input: the front segment has `createdTS = 0`, so the
constructor opened `0-9.ilog`; the pass hands `0-9_0.ilog` and then `0.index`
to `Unlink`, and never the name of the data file that exists. -/
theorem consider_ro_segments_unlinks_other_name :
    ro_segment_data_path (partition_dir log_plain_names) ⟨0, 9, 0, 50⟩
      = "/var/tank/events/0//0-9.ilog" ∧
    ∃ log1 fx1,
      consider_ro_segments env_unlink_ok 1000 log_plain_names no_effects = .ok (log1, fx1) ∧
      log1.roSegments = [⟨10, 19, 0, 50⟩, ⟨20, 29, 0, 50⟩] ∧
      fx1.unlinks = ["/var/tank/events/0//0-9_0.ilog", "/var/tank/events/0//0.index"] ∧
      ro_segment_data_path (partition_dir log_plain_names) ⟨0, 9, 0, 50⟩ ∉ fx1.unlinks := by
  refine ⟨by decide, _, _, consider_ro_segments_delete env_unlink_ok 1000 log_plain_names
    no_effects (by decide) rfl rfl, ?_, ?_, ?_⟩
  · decide
  · decide
  · decide

/-! ## Segment scan: the primitives undo the writer's encodings -/

theorem encode_varuint32_length_pos (n : Nat) : 0 < (encode_varuint32 n).length := by
  unfold encode_varuint32
  split_ifs <;> simp

theorem decode_encode_varuint32 (n : Nat) (rest : List Nat) (h : n < 2 ^ 32) :
    decode_varuint32 (encode_varuint32 n ++ rest) = some (n, (encode_varuint32 n).length) := by
  unfold encode_varuint32 decode_varuint32
  have a1 : ¬ (n % 128 + 128 < 128) := by omega
  have a2 : ¬ (n / 128 % 128 + 128 < 128) := by omega
  have a3 : ¬ (n / 16384 % 128 + 128 < 128) := by omega
  have a4 : ¬ (n / 2097152 % 128 + 128 < 128) := by omega
  split_ifs with h1 h2 h3 h4
  · have : n < 128 := by omega
    simp [decode_varuint32_loop, this]; omega
  · have b : n / 128 < 128 := by omega
    simp [decode_varuint32_loop, b]; omega
  · have b : n / 16384 < 128 := by omega
    simp [decode_varuint32_loop, b]; omega
  · have b : n / 2097152 < 128 := by omega
    simp [decode_varuint32_loop, b]; omega
  · have b : n / 268435456 % 128 < 128 := by omega
    simp [decode_varuint32_loop, b]; omega

theorem decode_encode_u64 (v : Nat) (rest : List Nat) (h : v < 2 ^ 64) :
    decode_pod_u64 (encode_u64 v ++ rest) = some (v, 8) := by
  simp [decode_pod_u64, encode_u64, le_value]
  omega

theorem encode_u64_length (v : Nat) : (encode_u64 v).length = 8 := rfl

theorem view_append (xs rest : List Nat) : view (xs ++ rest) xs.length = xs := by
  simp [view]

/-! ## Segment scan: one message -/

theorem encode_frame_length_pos (interior : Bool) (f : frame) :
    0 < (encode_frame interior f).length := by
  simp [encode_frame]

theorem frame_flags_key (f : frame) : frame_flags f % 2 = 1 ↔ f.key.isSome = true := by
  obtain ⟨key, payload, fts, ppo, delta⟩ := f
  cases key <;> cases fts <;> cases ppo <;> simp [frame_flags]

theorem frame_flags_ts (f : frame) : frame_flags f / 2 % 2 = 1 ↔ f.ts.isNone = true := by
  obtain ⟨key, payload, fts, ppo, delta⟩ := f
  cases key <;> cases fts <;> cases ppo <;> simp [frame_flags]

theorem frame_flags_prev (f : frame) : frame_flags f / 4 % 2 = 1 ↔ f.prevPlusOne = true := by
  obtain ⟨key, payload, fts, ppo, delta⟩ := f
  cases key <;> cases fts <;> cases ppo <;> simp [frame_flags]

theorem scan_seq_num_encode (sparse : Bool) (k first last i running : Nat) (f : frame)
    (tail : List Nat) (hdelta : f.delta < 2 ^ 32) (hk : sparse = true → i < k ∧ k < 2 ^ 32) :
    scan_seq_num sparse k first last i running (frame_flags f)
        (encode_delta (sparse && decide (i ≠ 0) && decide (i ≠ k - 1)) f ++ tail) =
      some (frame_seq_num sparse k first last i running f,
        (encode_delta (sparse && decide (i ≠ 0) && decide (i ≠ k - 1)) f).length) := by
  cases sparse with
  | false => simp [scan_seq_num, frame_seq_num, encode_delta]
  | true =>
    obtain ⟨hik, hk32⟩ := hk rfl
    have hlast : (k + 2 ^ 32 - 1) % 2 ^ 32 = k - 1 := by omega
    simp only [scan_seq_num, frame_seq_num, hlast, if_true, Bool.true_and, encode_delta]
    by_cases h0 : i = 0
    · simp [h0]
    · by_cases h1 : i = k - 1
      · rw [if_neg h0, if_pos h1, if_neg h0, if_pos h1]
        simp [h0, h1]
      · rw [if_neg h0, if_neg h1, if_neg h0, if_neg h1]
        by_cases hp : f.prevPlusOne = true
        · simp [h0, h1, hp, (frame_flags_prev f).mpr hp]
        · have hflag : ¬ frame_flags f / 4 % 2 = 1 := fun h => hp ((frame_flags_prev f).mp h)
          simp [h0, h1, hp, hflag, decode_encode_varuint32 f.delta tail hdelta]

theorem scan_ts_encode (f : frame) (ts : Nat) (tail : List Nat)
    (hts : ∀ t, f.ts = some t → t < 2 ^ 64) :
    scan_ts (frame_flags f) ts (encode_ts f.ts ++ tail) =
      some (f.ts.getD ts, (encode_ts f.ts).length) := by
  cases h : f.ts with
  | none =>
    have : frame_flags f / 2 % 2 = 1 := (frame_flags_ts f).mpr (by simp [h])
    simp [scan_ts, this, encode_ts]
  | some t =>
    have : ¬ frame_flags f / 2 % 2 = 1 := fun hh => by
      have := (frame_flags_ts f).mp hh
      simp [h] at this
    simp [scan_ts, this, encode_ts, decode_encode_u64 t tail (hts t h), encode_u64_length]

theorem scan_key_encode (f : frame) (tail : List Nat)
    (hkey : ∀ k, f.key = some k → k.length ≤ 255) :
    scan_key (frame_flags f) (encode_key f.key ++ tail) =
      some (f.key.getD [], (encode_key f.key).length) := by
  cases h : f.key with
  | none =>
    have : ¬ frame_flags f % 2 = 1 := fun hh => by
      have := (frame_flags_key f).mp hh
      simp [h] at this
    simp [scan_key, this, encode_key]
  | some kb =>
    have : frame_flags f % 2 = 1 := (frame_flags_key f).mpr (by simp [h])
    have hlen : kb.length % 256 = kb.length := Nat.mod_eq_of_lt (by have := hkey kb h; omega)
    simp [scan_key, this, encode_key, view_append, hlen]

theorem scan_data_encode (payload tail : List Nat) (hpay : payload.length < 2 ^ 32) :
    scan_data (encode_payload payload ++ tail) =
      some (payload, (encode_payload payload).length) := by
  unfold scan_data encode_payload
  rw [List.append_assoc, decode_encode_varuint32 _ _ hpay]
  by_cases hz : payload.length = 0
  · have : payload = [] := List.length_eq_zero.mp hz
    subst this
    simp
  · simp only [ne_eq, hz, not_false_eq_true, if_true, List.drop_left, view_append,
      List.length_append]

theorem scan_msg_encode_frame (sparse : Bool) (k first last i running ts : Nat) (f : frame)
    (rest : List Nat) (hf : frame_ok f) (hk : sparse = true → i < k ∧ k < 2 ^ 32) :
    scan_msg sparse k first last i running ts
        (encode_frame (sparse && decide (i ≠ 0) && decide (i ≠ k - 1)) f ++ rest) =
      some (frame_msg sparse k first last i running ts f,
            (encode_frame (sparse && decide (i ≠ 0) && decide (i ≠ k - 1)) f).length) := by
  obtain ⟨hkey, hpay, hts, hdelta⟩ := hf
  simp only [encode_frame, List.cons_append, List.append_assoc, scan_msg, frame_msg]
  rw [scan_seq_num_encode sparse k first last i running f _ hdelta hk]
  simp only [List.drop_left]
  rw [scan_ts_encode f ts _ hts]
  simp only [List.drop_append, List.drop_left]
  rw [scan_key_encode f _ hkey]
  simp only [Nat.add_assoc, List.drop_append, List.drop_left]
  rw [scan_data_encode _ _ hpay]
  simp only [List.length_cons, List.length_append, Option.some.injEq, Prod.mk.injEq, true_and]
  omega

/-! ## Segment scan: the message loop -/

theorem drop_of_drop_eq_append (mem : List Nat) (p : Nat) (xs ys : List Nat)
    (h : mem.drop p = xs ++ ys) : mem.drop (p + xs.length) = ys := by
  rw [← List.drop_drop, h, List.drop_left]

theorem scan_msgs_encoded {σ : Type} (l : σ → msg → Bool × σ) (mem : List Nat)
    (sparse : Bool) (k first last : Nat) (fs : List frame) :
    ∀ (fuel e p i running ts : Nat) (calls : List msg) (s : σ) (rest : List Nat),
      (∀ f ∈ fs, frame_ok f) →
      i + fs.length < 2 ^ 32 →
      (sparse = true → i + fs.length = k) →
      mem.drop p = encode_frames sparse k i fs ++ rest →
      e = p + (encode_frames sparse k i fs).length →
      fs.length < fuel →
      scan_msgs l mem e sparse k first last fuel p i running ts calls s =
        expected_msgs_result l (frames_end_seq sparse k first last i running fs)
          (frames_msgs sparse k first last i running ts fs) calls s := by
  induction fs with
  | nil =>
    intro fuel e p i running ts calls s rest _ _ _ _ he hfuel
    cases fuel with
    | zero => simp at hfuel
    | succ fuel =>
      simp [scan_msgs, encode_frames] at he ⊢
      simp [he, expected_msgs_result, deliver, frames_msgs, frames_end_seq]
  | cons f fs ih =>
    intro fuel e p i running ts calls s rest hok hcount hk hmem he hfuel
    cases fuel with
    | zero => simp at hfuel
    | succ fuel =>
      simp only [List.length_cons] at hcount hk hfuel
      have hpos := encode_frame_length_pos (sparse && decide (i ≠ 0) && decide (i ≠ k - 1)) f
      have hne : p ≠ e := by
        simp only [encode_frames, List.length_append] at he
        omega
      simp only [encode_frames, List.append_assoc] at hmem
      have hmsg := scan_msg_encode_frame sparse k first last i running ts f
        (encode_frames sparse k (i + 1) fs ++ rest) (hok f (by simp))
        (fun hs => ⟨by have := hk hs; omega, by have := hk hs; omega⟩)
      rw [← hmem] at hmsg
      have hidx : (i + 1) % 2 ^ 32 = i + 1 := Nat.mod_eq_of_lt (by omega)
      have hseq : (frame_msg sparse k first last i running ts f).seqNum
          = frame_seq_num sparse k first last i running f := rfl
      have hts : (frame_msg sparse k first last i running ts f).ts = f.ts.getD ts := rfl
      have hnext := ih fuel e
        (p + (encode_frame (sparse && decide (i ≠ 0) && decide (i ≠ k - 1)) f).length) (i + 1)
        ((frame_seq_num sparse k first last i running f + 1) % 2 ^ 64) (f.ts.getD ts)
        (calls ++ [frame_msg sparse k first last i running ts f])
        (l s (frame_msg sparse k first last i running ts f)).2 rest
        (fun g hg => hok g (by simp [hg])) (by omega) (fun hs => by have := hk hs; omega)
        (drop_of_drop_eq_append mem p _ _ hmem)
        (by simp only [encode_frames, List.length_append] at he; omega) (by omega)
      unfold scan_msgs
      rw [if_neg hne, hmsg]
      simp only [hidx, hseq, hts]
      by_cases hstop : (l s (frame_msg sparse k first last i running ts f)).1 = false
      · simp [hstop, expected_msgs_result, deliver, frames_msgs]
      · rw [if_neg hstop, hnext]
        simp [expected_msgs_result, deliver, frames_msgs, frames_end_seq, hstop]

/-! ## Segment scan: the bundle loop -/

theorem bundle_codec_lt (UnCompress : List Nat → Option (List Nat)) (b : bundle)
    (hb : bundle_ok UnCompress b) : bundle_codec b < 4 := by
  obtain ⟨-, -, -, -, hc⟩ := hb
  unfold bundle_codec
  cases h : b.compressed with
  | none => simp
  | some cb =>
    obtain ⟨codec, bytes⟩ := cb
    have := hc (codec, bytes) h
    simp only
    omega

theorem bundle_small_count_lt (b : bundle) : bundle_small_count b < 16 := by
  unfold bundle_small_count
  split_ifs <;> omega

theorem scan_bundle_header_encode (UnCompress : List Nat → Option (List Nat)) (b : bundle)
    (rest : List Nat) (hb : bundle_ok UnCompress b) :
    scan_bundle_header (encode_bundle b ++ rest) =
      some { bundleLen := (bundle_body b).length, codec := bundle_codec b,
             sparseBundleBitSet := b.sparse.isSome, msgsSetSize := b.frames.length,
             firstMsgSeqNum := bundle_first b, lastMsgSeqNum := bundle_last b,
             lenBytes := (encode_varuint32 (bundle_body b).length).length,
             headBytes := (bundle_head b).length } := by
  have hcodec := bundle_codec_lt UnCompress b hb
  have hsmall := bundle_small_count_lt b
  obtain ⟨-, hlen, hcount, hsparse, -⟩ := hb
  have hflag4 : bundle_flags b % 4 = bundle_codec b := by
    unfold bundle_flags; split_ifs <;> omega
  have hflag16 : bundle_flags b / 4 % 16 = bundle_small_count b := by
    unfold bundle_flags; split_ifs <;> omega
  have hflag64 : (bundle_flags b / 64 % 2 = 1) ↔ b.sparse.isSome = true := by
    unfold bundle_flags; split_ifs with h <;> simp [h] <;> omega
  have hsize : ∀ tail : List Nat,
      scan_msgs_set_size (bundle_flags b)
        ((if bundle_small_count b = 0 then encode_varuint32 b.frames.length else []) ++ tail) =
        some (b.frames.length,
          (if bundle_small_count b = 0 then encode_varuint32 b.frames.length else []).length) := by
    intro tail
    unfold scan_msgs_set_size
    rw [hflag16]
    by_cases h0 : bundle_small_count b = 0
    · simp [h0, decode_encode_varuint32 _ tail hcount]
    · have : bundle_small_count b = b.frames.length := by
        unfold bundle_small_count at h0 ⊢
        split_ifs at h0 ⊢ <;> simp_all
      rw [if_pos h0, if_neg h0, this]
      simp
  have hsp : ∀ tail : List Nat,
      scan_sparse b.sparse.isSome b.frames.length
        ((match b.sparse with
          | some (first, lastDelta) =>
            encode_u64 first ++ (if b.frames.length ≠ 1 then encode_varuint32 lastDelta else [])
          | none => []) ++ tail) =
        some (bundle_first b, bundle_last b,
          (match b.sparse with
          | some (first, lastDelta) =>
            encode_u64 first ++ (if b.frames.length ≠ 1 then encode_varuint32 lastDelta else [])
          | none => []).length) := by
    intro tail
    unfold scan_sparse bundle_first bundle_last
    cases h : b.sparse with
    | none => simp
    | some fl =>
      obtain ⟨first, lastDelta⟩ := fl
      obtain ⟨h1, h2⟩ := hsparse (first, lastDelta) h
      simp only [Option.isSome_some, if_true, List.append_assoc]
      rw [decode_encode_u64 first _ h1]
      by_cases hone : b.frames.length = 1
      · simp [hone, encode_u64_length]
      · simp [hone, encode_u64_length, decode_encode_varuint32 lastDelta tail h2]
  unfold scan_bundle_header encode_bundle
  rw [List.append_assoc, decode_encode_varuint32 _ _ hlen]
  simp only [List.drop_left, bundle_body, bundle_head, List.cons_append, List.append_assoc]
  rw [hsize]
  simp only [List.drop_left]
  have hdec : decide (bundle_flags b / 64 % 2 = 1) = b.sparse.isSome := by
    cases hs : b.sparse.isSome with
    | true => exact decide_eq_true (hflag64.mpr hs)
    | false =>
      apply decide_eq_false
      intro hh
      rw [hflag64.mp hh] at hs
      cases hs
  rw [hdec, hsp]
  simp only [hflag4, List.length_cons, List.length_append, Option.some.injEq,
    bundle_header.mk.injEq, true_and]
  omega

theorem encode_frames_length_ge (sparse : Bool) (k : Nat) (fs : List frame) (i : Nat) :
    fs.length ≤ (encode_frames sparse k i fs).length := by
  induction fs generalizing i with
  | nil => simp
  | cons f fs ih =>
    have := encode_frame_length_pos (sparse && decide (i ≠ 0) && decide (i ≠ k - 1)) f
    have := ih (i + 1)
    simp only [encode_frames, List.length_cons, List.length_append]
    omega

theorem expected_scan_result_append {σ : Type} (l : σ → msg → Bool × σ) (ms1 ms2 : List msg)
    (calls : List msg) (s : σ) :
    expected_scan_result l (ms1 ++ ms2) calls s =
      match deliver l ms1 calls s with
      | .ok (calls1, s1) => expected_scan_result l ms2 calls1 s1
      | .error out => out := by
  induction ms1 generalizing calls s with
  | nil => simp [deliver]
  | cons m ms ih =>
    by_cases hstop : (l s m).1 = false
    · simp [expected_scan_result, deliver, hstop]
    · have := ih (calls ++ [m]) (l s m).2
      simp only [expected_scan_result, List.cons_append, deliver, hstop, if_false] at this ⊢
      exact this

theorem length_le_of_drop_eq_append (mem : List Nat) (p : Nat) (xs ys : List Nat)
    (h : mem.drop p = xs ++ ys) (hx : 0 < xs.length) : p + xs.length ≤ mem.length := by
  have := congrArg List.length h
  simp only [List.length_drop, List.length_append] at this
  omega

theorem take_of_drop_eq_append (mem : List Nat) (p : Nat) (xs ys : List Nat)
    (h : mem.drop p = xs ++ ys) : (mem.drop p).take xs.length = xs := by
  rw [h, List.take_left]

theorem encode_bundle_length_pos (b : bundle) : 0 < (encode_bundle b).length := by
  have := encode_varuint32_length_pos (bundle_body b).length
  simp only [encode_bundle, List.length_append]
  omega

theorem scan_bundles_encoded {σ : Type} (l : σ → msg → Bool × σ)
    (UnCompress : List Nat → Option (List Nat)) (mem : List Nat) (bs : List bundle) :
    ∀ (fuel e p running : Nat) (calls : List msg) (s : σ) (rest : List Nat),
      (∀ b ∈ bs, bundle_ok UnCompress b) →
      mem.drop p = encode_segment bs ++ rest →
      e = p + (encode_segment bs).length →
      bs.length < fuel →
      scan_bundles l UnCompress mem e fuel p running calls s =
        expected_scan_result l (segment_msgs running bs) calls s := by
  induction bs with
  | nil =>
    intro fuel e p running calls s rest _ _ he hfuel
    cases fuel with
    | zero => simp at hfuel
    | succ fuel =>
      simp [scan_bundles, encode_segment] at he ⊢
      simp [he, expected_scan_result, deliver, segment_msgs]
  | cons b bs ih =>
    intro fuel e p running calls s rest hok hmem he hfuel
    cases fuel with
    | zero => simp at hfuel
    | succ fuel =>
      have hb := hok b (by simp)
      simp only [List.length_cons] at hfuel
      simp only [encode_segment, List.append_assoc] at hmem
      simp only [encode_segment, List.length_append] at he
      have hpos := encode_bundle_length_pos b
      have hne : p ≠ e := by omega
      have hhdr := scan_bundle_header_encode UnCompress b (encode_segment bs ++ rest) hb
      rw [← hmem] at hhdr
      -- where the message set and the next bundle start
      have hmem2 : mem.drop p = (encode_varuint32 (bundle_body b).length ++ bundle_head b) ++
          (bundle_stored b ++ (encode_segment bs ++ rest)) := by
        rw [hmem]; simp [encode_bundle, bundle_body]
      have hcontent := drop_of_drop_eq_append mem p _ _ hmem2
      have hnextmem := drop_of_drop_eq_append mem p _ _ hmem
      have hblen : (encode_bundle b).length =
          (encode_varuint32 (bundle_body b).length).length + (bundle_body b).length := by
        simp [encode_bundle]
      have hbody : (bundle_body b).length = (bundle_head b).length + (bundle_stored b).length := by
        simp [bundle_body]
      simp only [List.length_append] at hcontent
      have hinmem := length_le_of_drop_eq_append mem p _ _ hmem hpos
      -- the rest of the scan
      have hnext := fun (running1 : Nat) (calls1 : List msg) (s1 : σ) =>
        ih fuel e (p + (encode_bundle b).length) running1 calls1 s1 rest
          (fun g hg => hok g (by simp [hg])) hnextmem (by omega) (by omega)
      obtain ⟨hframes, -, hcount, -, hcomp⟩ := hb
      unfold scan_bundles
      rw [if_neg hne, hhdr]
      simp only
      rw [segment_msgs, expected_scan_result_append]
      cases hc : b.compressed with
      | none =>
        have hcodec : bundle_codec b = 0 := by simp [bundle_codec, hc]
        have hstored : bundle_stored b = bundle_content b := by simp [bundle_stored, hc]
        rw [hstored] at hcontent hbody
        have hloop := scan_msgs_encoded l mem b.sparse.isSome b.frames.length (bundle_first b)
          (bundle_last b) b.frames (mem.length + 1)
          (p + (encode_varuint32 (bundle_body b).length).length + (bundle_body b).length)
          (p + (encode_varuint32 (bundle_body b).length).length + (bundle_head b).length)
          0 running 0 calls s (encode_segment bs ++ rest) hframes (by omega) (by simp)
          (by rw [← Nat.add_assoc] at hcontent; exact hcontent)
          (by simp only [bundle_content] at hbody; omega)
          (by
            have h1 := encode_frames_length_ge b.sparse.isSome b.frames.length b.frames 0
            simp only [bundle_content] at hbody
            omega)
        simp only [hcodec, ne_eq, not_true_eq_false, if_false]
        rw [hloop]
        simp only [expected_msgs_result, bundle_msgs, bundle_end_seq]
        cases hd : deliver l (frames_msgs b.sparse.isSome b.frames.length (bundle_first b)
            (bundle_last b) 0 running 0 b.frames) calls s with
        | error out => rfl
        | ok r =>
          obtain ⟨calls1, s1⟩ := r
          simp only
          have := hnext (frames_end_seq b.sparse.isSome b.frames.length (bundle_first b)
            (bundle_last b) 0 running b.frames) calls1 s1
          rw [hblen, ← Nat.add_assoc] at this
          exact this
      | some cb =>
        obtain ⟨codec, bytes⟩ := cb
        obtain ⟨hc0, -, hun⟩ := hcomp (codec, bytes) hc
        have hcodec : bundle_codec b = codec := by simp [bundle_codec, hc]
        have hstored : bundle_stored b = bytes := by simp [bundle_stored, hc]
        rw [hstored] at hcontent hbody
        have hne0 : codec ≠ 0 := by omega
        have hrange : ¬ (p + (encode_varuint32 (bundle_body b).length).length +
              (bundle_body b).length <
            p + (encode_varuint32 (bundle_body b).length).length + (bundle_head b).length ∨
            mem.length < p + (encode_varuint32 (bundle_body b).length).length +
              (bundle_body b).length) := by omega
        have htake : (mem.drop (p + (encode_varuint32 (bundle_body b).length).length +
              (bundle_head b).length)).take
            (p + (encode_varuint32 (bundle_body b).length).length + (bundle_body b).length -
              (p + (encode_varuint32 (bundle_body b).length).length + (bundle_head b).length))
            = bytes := by
          rw [← Nat.add_assoc] at hcontent
          rw [hcontent]
          have : p + (encode_varuint32 (bundle_body b).length).length + (bundle_body b).length -
              (p + (encode_varuint32 (bundle_body b).length).length + (bundle_head b).length)
              = bytes.length := by omega
          rw [this, List.take_left]
        have hloop := scan_msgs_encoded l (bundle_content b) b.sparse.isSome b.frames.length
          (bundle_first b) (bundle_last b) b.frames ((bundle_content b).length + 1)
          (bundle_content b).length 0 0 running 0 calls s [] hframes (by omega) (by simp)
          (by simp [bundle_content]) (by simp [bundle_content])
          (by
            have h1 := encode_frames_length_ge b.sparse.isSome b.frames.length b.frames 0
            simp only [bundle_content]
            omega)
        simp only [hcodec, ne_eq, hne0, not_false_eq_true, if_true, hrange, if_false, htake, hun]
        rw [hloop]
        simp only [expected_msgs_result, bundle_msgs, bundle_end_seq]
        cases hd : deliver l (frames_msgs b.sparse.isSome b.frames.length (bundle_first b)
            (bundle_last b) 0 running 0 b.frames) calls s with
        | error out => rfl
        | ok r =>
          obtain ⟨calls1, s1⟩ := r
          simp only
          have := hnext (frames_end_seq b.sparse.isSome b.frames.length (bundle_first b)
            (bundle_last b) 0 running b.frames) calls1 s1
          rw [hblen, ← Nat.add_assoc] at this
          exact this

/-! ## Segment scan: whole segments -/

theorem encode_segment_length_ge (bs : List bundle) : bs.length ≤ (encode_segment bs).length := by
  induction bs with
  | nil => simp
  | cons b bs ih =>
    have := encode_bundle_length_pos b
    simp only [encode_segment, List.length_cons, List.length_append]
    omega

/-- The scan of a segment made of well-formed bundles hands the visitor what a
reader expects, whatever lies behind the segment buffer in memory. -/
theorem scan_vma_encoded {σ : Type} (l : σ → msg → Bool × σ)
    (UnCompress : List Nat → Option (List Nat)) (bs : List bundle) (trailing : List Nat)
    (running : Nat) (s : σ) (hok : ∀ b ∈ bs, bundle_ok UnCompress b) :
    scan_vma l UnCompress (encode_segment bs ++ trailing) (encode_segment bs).length running s =
      expected_scan_result l (segment_msgs running bs) [] s := by
  unfold scan_vma
  apply scan_bundles_encoded l UnCompress _ bs _ _ 0 running [] s trailing hok
  · simp
  · simp
  · have := encode_segment_length_ge bs
    simp only [List.length_append]
    omega

theorem deliver_accepting {σ : Type} (l : σ → msg → Bool × σ) (hl : ∀ s m, (l s m).1 = true)
    (ms calls : List msg) (s : σ) :
    deliver l ms calls s = .ok (calls ++ ms, visitor_state l s ms) := by
  induction ms generalizing calls s with
  | nil => simp [deliver, visitor_state]
  | cons m ms ih =>
    simp only [deliver, hl, Bool.true_eq_false, if_false]
    rw [ih]
    simp [visitor_state]

theorem expected_scan_result_accepting {σ : Type} (l : σ → msg → Bool × σ)
    (hl : ∀ s m, (l s m).1 = true) (ms : List msg) (s : σ) :
    expected_scan_result l ms [] s = .returned true ms (visitor_state l s ms) := by
  simp [expected_scan_result, deliver_accepting l hl]

theorem segment_msgs_append (running : Nat) (xs ys : List bundle) :
    segment_msgs running (xs ++ ys) =
      segment_msgs running xs ++ segment_msgs (segment_end_seq running xs) ys := by
  induction xs generalizing running with
  | nil => simp [segment_msgs, segment_end_seq]
  | cons b bs ih => simp [segment_msgs, segment_end_seq, ih]

/-! ### Dense bundles of messages with their own timestamps -/

theorem frames_msgs_plain (k first last i ts : Nat) (ms : List message) (r : Nat)
    (h : r + ms.length ≤ 2 ^ 64) :
    frames_msgs false k first last i (r % 2 ^ 64) ts (ms.map plain_frame) = numbered r ms := by
  induction ms generalizing i ts r with
  | nil => simp [frames_msgs, numbered]
  | cons m ms ih =>
    simp only [List.length_cons] at h
    have hr : r % 2 ^ 64 = r := Nat.mod_eq_of_lt (by omega)
    simp only [List.map_cons, frames_msgs, numbered, frame_msg, frame_seq_num, hr,
      Bool.false_eq_true, if_false, plain_frame, Option.getD_some, message_as_msg]
    rw [ih (i + 1) m.ts (r + 1) (by omega)]

theorem frames_end_seq_plain (k first last i : Nat) (ms : List message) (r : Nat) :
    frames_end_seq false k first last i (r % 2 ^ 64) (ms.map plain_frame) =
      (r + ms.length) % 2 ^ 64 := by
  induction ms generalizing i r with
  | nil => simp [frames_end_seq]
  | cons m ms ih =>
    simp only [List.map_cons, frames_end_seq, frame_seq_num, Bool.false_eq_true, if_false,
      List.length_cons]
    have : (r % 2 ^ 64 + 1) % 2 ^ 64 = (r + 1) % 2 ^ 64 := by omega
    rw [this, ih (i + 1) (r + 1)]
    congr 1
    omega

theorem numbered_append (b : Nat) (xs ys : List message) :
    numbered b (xs ++ ys) = numbered b xs ++ numbered (b + xs.length) ys := by
  induction xs generalizing b with
  | nil => simp [numbered]
  | cons x xs ih =>
    have h := ih (b + 1)
    have e : b + 1 + xs.length = b + (xs.length + 1) := by omega
    rw [e] at h
    simp only [List.cons_append, numbered, List.length_cons]
    exact congrArg (fun t => message_as_msg b x :: t) h

theorem segment_msgs_plain (bundles : List (List message)) (r : Nat)
    (h : r + bundles.flatten.length ≤ 2 ^ 64) :
    segment_msgs (r % 2 ^ 64) (bundles.map plain_bundle) = numbered r bundles.flatten := by
  induction bundles generalizing r with
  | nil => simp [segment_msgs, numbered]
  | cons ms bundles ih =>
    simp only [List.flatten_cons, List.length_append] at h
    simp only [List.map_cons, segment_msgs, bundle_msgs, bundle_end_seq, plain_bundle,
      Option.isSome_none, List.flatten_cons, numbered_append]
    rw [frames_msgs_plain _ _ _ _ _ ms r (by omega), frames_end_seq_plain,
      ih (r + ms.length) (by omega)]

theorem numbered_length (b : Nat) (ms : List message) : (numbered b ms).length = ms.length := by
  induction ms generalizing b with
  | nil => rfl
  | cons m ms ih => simp [numbered, ih]

theorem numbered_getElem? (b : Nat) (ms : List message) (i : Nat) (m : message)
    (h : ms[i]? = some m) : (numbered b ms)[i]? = some (message_as_msg (b + i) m) := by
  induction ms generalizing b i with
  | nil => simp at h
  | cons x xs ih =>
    cases i with
    | zero =>
      simp only [List.getElem?_cons_zero, Option.some.injEq] at h
      simp [numbered, h]
    | succ i =>
      simp only [List.getElem?_cons_succ] at h
      simp only [numbered, List.getElem?_cons_succ]
      rw [ih (b + 1) i h]
      congr 2
      omega

theorem numbered_strictly_increasing (b : Nat) (ms : List message) :
    List.Pairwise (fun x y => x.seqNum < y.seqNum) (numbered b ms) ∧
    ∀ x ∈ numbered b ms, b ≤ x.seqNum := by
  induction ms generalizing b with
  | nil => simp [numbered]
  | cons m ms ih =>
    obtain ⟨h1, h2⟩ := ih (b + 1)
    refine ⟨?_, ?_⟩
    · simp only [numbered, List.pairwise_cons]
      refine ⟨fun y hy => ?_, h1⟩
      have := h2 y hy
      simp only [message_as_msg]
      omega
    · intro x hx
      simp only [numbered, List.mem_cons] at hx
      rcases hx with rfl | hx
      · simp [message_as_msg]
      · have := h2 x hx
        omega

theorem payload_length_le_encode_frames (sparse : Bool) (k : Nat) (fs : List frame) (i : Nat)
    (f : frame) (hf : f ∈ fs) : f.payload.length ≤ (encode_frames sparse k i fs).length := by
  induction fs generalizing i with
  | nil => simp at hf
  | cons g gs ih =>
    simp only [encode_frames, List.length_append]
    rcases List.mem_cons.mp hf with rfl | hmem
    · have : f.payload.length ≤
          (encode_frame (sparse && decide (i ≠ 0) && decide (i ≠ k - 1)) f).length := by
        simp only [encode_frame, encode_payload, List.length_cons, List.length_append]
        omega
      omega
    · have := ih (i + 1) hmem
      omega

theorem plain_bundle_ok (UnCompress : List Nat → Option (List Nat)) (ms : List message)
    (hkey : ∀ m ∈ ms, ∀ k, m.key = some k → k.length ≤ 255)
    (hts : ∀ m ∈ ms, m.ts < 2 ^ 64)
    (hlen : (bundle_body (plain_bundle ms)).length < 2 ^ 32) :
    bundle_ok UnCompress (plain_bundle ms) := by
  have hfr : (plain_bundle ms).frames = ms.map plain_frame := rfl
  have hsp : (plain_bundle ms).sparse = none := rfl
  have hco : (plain_bundle ms).compressed = none := rfl
  generalize plain_bundle ms = B at hlen hfr hsp hco ⊢
  have hbody : (encode_frames false B.frames.length 0 B.frames).length ≤
      (bundle_body B).length := by
    simp [bundle_body, bundle_stored, bundle_content, hsp, hco]
  refine ⟨?_, hlen, ?_, ?_, ?_⟩
  · intro f hf
    have hpay := payload_length_le_encode_frames false B.frames.length B.frames 0 f hf
    rw [hfr, List.mem_map] at hf
    obtain ⟨m, hm, rfl⟩ := hf
    refine ⟨fun k hk => hkey m hm k hk, by omega, ?_, ?_⟩
    · intro t ht
      have ht2 : some m.ts = some t := ht
      simp only [Option.some.injEq] at ht2
      rw [← ht2]
      exact hts m hm
    · simp [plain_frame]
  · have := encode_frames_length_ge false B.frames.length B.frames 0
    omega
  · intro fl h
    simp [hsp] at h
  · intro cb h
    simp [hco] at h

/-! ## Segment scan: the claims -/

/-- C1. Decoding undoes the framing of section 4.1: take a base sequence
number `b` and messages (optional key of at most 255 bytes, any payload, 64-bit
timestamp) framed with their own timestamps into dense, uncompressed bundles
that tile the segment buffer, each bundle within the 32-bit bundle length, the
sequence numbers `b + i` within 64 bits. Then the scan of the buffer, with a
visitor that does not stop, returns `true` after calling the visitor exactly
once per message, in order, with the same key, payload and timestamp and with
`seqNum = b + i` for the `i`-th message; the sequence numbers handed over are
strictly increasing and start at `b`. Memory behind the buffer is not looked
at. -/
theorem scan_vma_roundtrip {σ : Type} (l : σ → msg → Bool × σ)
    (UnCompress : List Nat → Option (List Nat)) (b : Nat) (bundles : List (List message))
    (trailing : List Nat) (s : σ)
    (hb : b < 2 ^ 64) (hseq : b + bundles.flatten.length ≤ 2 ^ 64)
    (hkey : ∀ ms ∈ bundles, ∀ m ∈ ms, ∀ k, m.key = some k → k.length ≤ 255)
    (hts : ∀ ms ∈ bundles, ∀ m ∈ ms, m.ts < 2 ^ 64)
    (hlen : ∀ ms ∈ bundles, (bundle_body (plain_bundle ms)).length < 2 ^ 32)
    (hl : ∀ st m, (l st m).1 = true) :
    ∃ calls : List msg,
      scan_vma l UnCompress (encode_segment (bundles.map plain_bundle) ++ trailing)
        (encode_segment (bundles.map plain_bundle)).length b s
        = .returned true calls (visitor_state l s calls) ∧
      calls.length = bundles.flatten.length ∧
      (∀ i m, bundles.flatten[i]? = some m → calls[i]? = some (message_as_msg (b + i) m)) ∧
      List.Pairwise (fun x y => x.seqNum < y.seqNum) calls ∧
      (∀ m0, calls.head? = some m0 → m0.seqNum = b) := by
  have hok : ∀ x ∈ bundles.map plain_bundle, bundle_ok UnCompress x := by
    intro x hx
    obtain ⟨ms, hms, rfl⟩ := List.mem_map.mp hx
    exact plain_bundle_ok UnCompress ms (hkey ms hms) (hts ms hms) (hlen ms hms)
  have hscan := scan_vma_encoded l UnCompress (bundles.map plain_bundle) trailing b s hok
  have hmsgs := segment_msgs_plain bundles b hseq
  rw [Nat.mod_eq_of_lt hb] at hmsgs
  rw [hmsgs, expected_scan_result_accepting l hl] at hscan
  refine ⟨numbered b bundles.flatten, hscan, numbered_length _ _,
    fun i m h => numbered_getElem? b _ i m h, (numbered_strictly_increasing b _).1, ?_⟩
  intro m0 h0
  cases hfl : bundles.flatten with
  | nil => simp [hfl, numbered] at h0
  | cons x xs =>
    simp only [hfl, numbered, List.head?_cons, Option.some.injEq] at h0
    rw [← h0]
    rfl

/-- Witness of C1: three messages in two bundles, base sequence number 40, a
visitor that accepts everything, and three bytes of other memory behind the
buffer. -/
theorem scan_vma_roundtrip_witness :
    ∃ calls : List msg,
      scan_vma (fun (_ : Unit) (_ : msg) => (true, ())) (fun _ => none)
        (encode_segment (example_bundles.map plain_bundle) ++ [1, 2, 3])
        (encode_segment (example_bundles.map plain_bundle)).length 40 ()
        = .returned true calls () ∧
      calls.length = example_bundles.flatten.length ∧
      (∀ i m, example_bundles.flatten[i]? = some m →
        calls[i]? = some (message_as_msg (40 + i) m)) ∧
      List.Pairwise (fun x y => x.seqNum < y.seqNum) calls ∧
      (∀ m0, calls.head? = some m0 → m0.seqNum = 40) :=
  scan_vma_roundtrip (fun (_ : Unit) (_ : msg) => (true, ())) (fun _ => none) 40
    example_bundles [1, 2, 3] () (by decide) (by decide) (by decide) (by decide) (by decide)
    (fun _ _ => rfl)

/-! ### Sparse bundles -/

theorem frames_msgs_length (sparse : Bool) (k first last : Nat) (fs : List frame)
    (i running ts : Nat) :
    (frames_msgs sparse k first last i running ts fs).length = fs.length := by
  induction fs generalizing i running ts with
  | nil => rfl
  | cons f fs ih => simp [frames_msgs, ih]

theorem frames_msgs_head (sparse : Bool) (k first last : Nat) (fs : List frame)
    (i running ts : Nat) (f : frame) (h : fs[0]? = some f) :
    (frames_msgs sparse k first last i running ts fs)[0]? =
      some (frame_msg sparse k first last i running ts f) := by
  cases fs with
  | nil => simp at h
  | cons g gs =>
    simp only [List.getElem?_cons_zero, Option.some.injEq] at h
    simp [frames_msgs, h]

/-- Each message after the first is built from its frame, its position, and
the sequence number and timestamp of the message before it. -/
theorem frames_msgs_succ (sparse : Bool) (k first last : Nat) (fs : List frame) :
    ∀ (i running ts j : Nat) (f : frame) (prev : msg),
      fs[j + 1]? = some f →
      (frames_msgs sparse k first last i running ts fs)[j]? = some prev →
      (frames_msgs sparse k first last i running ts fs)[j + 1]? =
        some (frame_msg sparse k first last (i + j + 1) ((prev.seqNum + 1) % 2 ^ 64) prev.ts f) := by
  induction fs with
  | nil => intro i running ts j f prev h; simp at h
  | cons g gs ih =>
    intro i running ts j f prev hf hprev
    simp only [List.getElem?_cons_succ] at hf
    cases j with
    | zero =>
      simp only [frames_msgs, List.getElem?_cons_zero, Option.some.injEq] at hprev
      simp only [frames_msgs, List.getElem?_cons_succ]
      rw [frames_msgs_head _ _ _ _ _ _ _ _ f hf, ← hprev]
      rfl
    | succ j =>
      simp only [frames_msgs, List.getElem?_cons_succ] at hprev ⊢
      rw [ih _ _ _ j f prev hf hprev]
      congr 2
      omega

theorem exists_getElem? {α : Type} (xs : List α) (j : Nat) (h : j < xs.length) :
    ∃ x, xs[j]? = some x :=
  ⟨xs[j], List.getElem?_eq_getElem h⟩

/-- C10. Sequence numbers of a sparse bundle: let a well-formed sparse bundle
with stored first sequence number `first`, stored delta `lastDelta` and `k`
messages stand anywhere in a segment of well-formed bundles. The scan (visitor
not stopping) hands over, between the messages of the bundles before and after
it, exactly `k` messages for it: message 0 with `seqNum = first` (the only one
when `k = 1`); when `k ≥ 2` the last one with `first + lastDelta + 1`; and each
interior message with the previous `seqNum + 1` when its frame carries
`SeqNumPrevPlusOne`, else with the previous `seqNum + 1 +` its varint delta
(sums in 64-bit arithmetic). -/
theorem scan_vma_sparse_seq_nums {σ : Type} (l : σ → msg → Bool × σ)
    (UnCompress : List Nat → Option (List Nat)) (pre post : List bundle) (b : bundle)
    (first lastDelta running : Nat) (trailing : List Nat) (s : σ)
    (hpre : ∀ x ∈ pre, bundle_ok UnCompress x) (hb : bundle_ok UnCompress b)
    (hpost : ∀ x ∈ post, bundle_ok UnCompress x)
    (hsparse : b.sparse = some (first, lastDelta))
    (hl : ∀ st m, (l st m).1 = true) :
    ∃ (ms : List msg) (s1 : σ),
      scan_vma l UnCompress (encode_segment (pre ++ b :: post) ++ trailing)
        (encode_segment (pre ++ b :: post)).length running s
        = .returned true
            (segment_msgs running pre ++ ms ++
              segment_msgs (bundle_end_seq (segment_end_seq running pre) b) post) s1 ∧
      ms.length = b.frames.length ∧
      (0 < b.frames.length → ∃ m0, ms[0]? = some m0 ∧ m0.seqNum = first) ∧
      (2 ≤ b.frames.length → ∃ m, ms[b.frames.length - 1]? = some m ∧
        m.seqNum = (first + lastDelta + 1) % 2 ^ 64) ∧
      (∀ i f, 0 < i → i + 1 < b.frames.length → b.frames[i]? = some f →
        ∃ prev cur, ms[i - 1]? = some prev ∧ ms[i]? = some cur ∧
          cur.seqNum = if f.prevPlusOne then (prev.seqNum + 1) % 2 ^ 64
                       else (prev.seqNum + 1 + f.delta) % 2 ^ 64) := by
  have hok : ∀ x ∈ pre ++ b :: post, bundle_ok UnCompress x := by
    intro x hx
    rcases List.mem_append.mp hx with h | h
    · exact hpre x h
    · rcases List.mem_cons.mp h with rfl | h
      · exact hb
      · exact hpost x h
  have hscan := scan_vma_encoded l UnCompress (pre ++ b :: post) trailing running s hok
  rw [expected_scan_result_accepting l hl, segment_msgs_append] at hscan
  simp only [segment_msgs, ← List.append_assoc] at hscan
  have hfirst : bundle_first b = first := by simp [bundle_first, hsparse]
  have hlast : 2 ≤ b.frames.length → bundle_last b = (first + lastDelta + 1) % 2 ^ 64 := by
    intro h2
    have : b.frames.length ≠ 1 := by omega
    simp [bundle_last, hsparse, this]
  have hsp : b.sparse.isSome = true := by simp [hsparse]
  have hlen : (bundle_msgs (segment_end_seq running pre) b).length = b.frames.length := by
    simp [bundle_msgs, frames_msgs_length]
  refine ⟨bundle_msgs (segment_end_seq running pre) b, _, hscan, hlen, ?_, ?_, ?_⟩
  · intro hk
    obtain ⟨f, hf⟩ : ∃ f, b.frames[0]? = some f := exists_getElem? _ _ hk
    refine ⟨_, frames_msgs_head _ _ _ _ _ _ _ _ f hf, ?_⟩
    simp [frame_msg, frame_seq_num, hsp, hfirst]
  · intro hk
    have hidx : b.frames.length - 2 + 1 = b.frames.length - 1 := by omega
    obtain ⟨f, hf⟩ : ∃ f, b.frames[b.frames.length - 2 + 1]? = some f :=
      exists_getElem? _ _ (by omega)
    obtain ⟨prev, hprev⟩ : ∃ prev, (bundle_msgs (segment_end_seq running pre) b)[
        b.frames.length - 2]? = some prev := exists_getElem? _ _ (by omega)
    have hsucc := frames_msgs_succ _ _ _ _ b.frames 0 (segment_end_seq running pre) 0
      (b.frames.length - 2) f prev hf hprev
    rw [hidx] at hsucc
    refine ⟨_, hsucc, ?_⟩
    have h1 : ¬ (0 + (b.frames.length - 2) + 1 = 0) := by omega
    have h2 : 0 + (b.frames.length - 2) + 1 = b.frames.length - 1 := by omega
    simp only [frame_msg, frame_seq_num, hsp, if_true, h2, hlast hk]
    rw [if_neg (by omega)]
  · intro i f hi0 hik hf
    obtain ⟨j, rfl⟩ : ∃ j, i = j + 1 := ⟨i - 1, by omega⟩
    obtain ⟨prev, hprev⟩ : ∃ prev, (bundle_msgs (segment_end_seq running pre) b)[j]?
        = some prev := exists_getElem? _ _ (by omega)
    have hsucc := frames_msgs_succ _ _ _ _ b.frames 0 (segment_end_seq running pre) 0
      j f prev hf hprev
    refine ⟨prev, _, by simpa using hprev, hsucc, ?_⟩
    have h1 : ¬ (0 + j + 1 = 0) := by omega
    have h2 : ¬ (0 + j + 1 = b.frames.length - 1) := by omega
    simp only [frame_msg, frame_seq_num, hsp, if_true, h1, if_false, h2]
    split
    · rfl
    · omega

/-- Witness of C10: a dense bundle of two messages, then a sparse bundle of
four messages with first sequence number 100 and last-sequence delta 10, whose
interior messages use `SeqNumPrevPlusOne` and a delta of 3. -/
theorem scan_vma_sparse_seq_nums_witness :
    ∃ (ms : List msg) (s1 : Unit),
      scan_vma (fun (_ : Unit) (_ : msg) => (true, ())) (fun _ => none)
        (encode_segment ([plain_bundle example_bundles.flatten] ++
          example_sparse_bundle :: []) ++ [])
        (encode_segment ([plain_bundle example_bundles.flatten] ++
          example_sparse_bundle :: [])).length 40 ()
        = .returned true
            (segment_msgs 40 [plain_bundle example_bundles.flatten] ++ ms ++
              segment_msgs (bundle_end_seq
                (segment_end_seq 40 [plain_bundle example_bundles.flatten])
                example_sparse_bundle) []) s1 ∧
      ms.length = example_sparse_bundle.frames.length ∧
      (0 < example_sparse_bundle.frames.length → ∃ m0, ms[0]? = some m0 ∧ m0.seqNum = 100) ∧
      (2 ≤ example_sparse_bundle.frames.length →
        ∃ m, ms[example_sparse_bundle.frames.length - 1]? = some m ∧
          m.seqNum = (100 + 10 + 1) % 2 ^ 64) ∧
      (∀ i f, 0 < i → i + 1 < example_sparse_bundle.frames.length →
        example_sparse_bundle.frames[i]? = some f →
        ∃ prev cur, ms[i - 1]? = some prev ∧ ms[i]? = some cur ∧
          cur.seqNum = if f.prevPlusOne then (prev.seqNum + 1) % 2 ^ 64
                       else (prev.seqNum + 1 + f.delta) % 2 ^ 64) :=
  scan_vma_sparse_seq_nums (fun (_ : Unit) (_ : msg) => (true, ())) (fun _ => none)
    [plain_bundle example_bundles.flatten] [] example_sparse_bundle 100 10 40 [] ()
    (by decide) (by decide) (by decide) rfl (fun _ _ => rfl)

/-! ## Segment scan: the recursion budget is never used up -/

theorem decode_varuint32_loop_bound (left : Nat) :
    ∀ (shift acc used : Nat) (bytes : List Nat) (v n : Nat),
      decode_varuint32_loop left shift acc used bytes = some (v, n) →
      n ≤ used + bytes.length ∧ (0 < left → used < n) := by
  induction left with
  | zero =>
    intro shift acc used bytes v n h
    simp only [decode_varuint32_loop, Option.some.injEq, Prod.mk.injEq] at h
    omega
  | succ left ih =>
    intro shift acc used bytes v n h
    cases bytes with
    | nil => simp [decode_varuint32_loop] at h
    | cons b bytes =>
      simp only [decode_varuint32_loop] at h
      split at h
      · simp only [Option.some.injEq, Prod.mk.injEq] at h
        simp only [List.length_cons]
        omega
      · have := ih _ _ _ _ _ _ h
        simp only [List.length_cons]
        by_cases hl : 0 < left
        · have := this.2 hl
          omega
        · have hl0 : left = 0 := by omega
          subst hl0
          simp only [decode_varuint32_loop, Option.some.injEq, Prod.mk.injEq] at h
          omega

theorem decode_varuint32_bound (bytes : List Nat) (v n : Nat)
    (h : decode_varuint32 bytes = some (v, n)) : 0 < n ∧ n ≤ bytes.length := by
  have := decode_varuint32_loop_bound 5 0 0 0 bytes v n h
  omega

theorem decode_pod_u64_bound (bytes : List Nat) (v n : Nat)
    (h : decode_pod_u64 bytes = some (v, n)) : n ≤ bytes.length := by
  unfold decode_pod_u64 at h
  split at h
  · simp only [Option.some.injEq, Prod.mk.injEq] at h
    omega
  · simp at h

theorem scan_seq_num_bound (sparse : Bool) (k first last i seqNum flags : Nat)
    (bytes : List Nat) (v n : Nat)
    (h : scan_seq_num sparse k first last i seqNum flags bytes = some (v, n)) :
    n ≤ bytes.length := by
  unfold scan_seq_num at h
  split at h
  · split at h
    · simp only [Option.some.injEq, Prod.mk.injEq] at h; omega
    · split at h
      · simp only [Option.some.injEq, Prod.mk.injEq] at h; omega
      · split at h
        · simp only [Option.some.injEq, Prod.mk.injEq] at h; omega
        · split at h
          · simp at h
          · rename_i delta m hd
            simp only [Option.some.injEq, Prod.mk.injEq] at h
            have := decode_varuint32_bound bytes delta m hd
            omega
  · simp only [Option.some.injEq, Prod.mk.injEq] at h; omega

theorem scan_ts_bound (flags ts : Nat) (bytes : List Nat) (v n : Nat)
    (h : scan_ts flags ts bytes = some (v, n)) : n ≤ bytes.length := by
  unfold scan_ts at h
  split at h
  · simp only [Option.some.injEq, Prod.mk.injEq] at h; omega
  · exact decode_pod_u64_bound bytes v n h

theorem scan_msg_bound (sparse : Bool) (k first last i seqNum ts : Nat) (bytes : List Nat)
    (m : msg) (n : Nat) (h : scan_msg sparse k first last i seqNum ts bytes = some (m, n)) :
    0 < n ∧ 0 < bytes.length := by
  unfold scan_msg at h
  split at h
  · simp at h
  · rename_i flags b1
    split at h
    · simp at h
    · split at h
      · simp at h
      · split at h
        · simp at h
        · split at h
          · simp at h
          · simp only [Option.some.injEq, Prod.mk.injEq] at h
            simp only [List.length_cons]
            omega

theorem scan_msgs_set_size_bound (bundleFlags : Nat) (bytes : List Nat) (v n : Nat)
    (h : scan_msgs_set_size bundleFlags bytes = some (v, n)) : n ≤ bytes.length := by
  unfold scan_msgs_set_size at h
  split at h
  · simp only [Option.some.injEq, Prod.mk.injEq] at h; omega
  · exact (decode_varuint32_bound bytes v n h).2

theorem scan_sparse_bound (sparse : Bool) (msgsSetSize : Nat) (bytes : List Nat)
    (first last n : Nat) (h : scan_sparse sparse msgsSetSize bytes = some (first, last, n)) :
    n ≤ bytes.length := by
  unfold scan_sparse at h
  split at h
  · split at h
    · simp at h
    · rename_i f n1 h1
      have a1 := decode_pod_u64_bound bytes f n1 h1
      split at h
      · split at h
        · simp at h
        · rename_i delta n2 h2
          have a2 := decode_varuint32_bound _ delta n2 h2
          simp only [List.length_drop] at a2
          simp only [Option.some.injEq, Prod.mk.injEq] at h
          omega
      · simp only [Option.some.injEq, Prod.mk.injEq] at h
        omega
  · simp only [Option.some.injEq, Prod.mk.injEq] at h; omega

theorem scan_bundle_header_bound (bytes : List Nat) (h : bundle_header)
    (hh : scan_bundle_header bytes = some h) :
    0 < h.lenBytes ∧ 0 < h.headBytes ∧ h.lenBytes + h.headBytes ≤ bytes.length := by
  unfold scan_bundle_header at hh
  split at hh
  · simp at hh
  · rename_i bundleLen n0 h0
    have a0 := decode_varuint32_bound bytes bundleLen n0 h0
    split at hh
    · simp at hh
    · rename_i bundleFlags b1 hb1
      have hlen : (bytes.drop n0).length = b1.length + 1 := by rw [hb1]; rfl
      simp only [List.length_drop] at hlen
      split at hh
      · simp at hh
      · rename_i msgsSetSize n1 h1
        have a1 := scan_msgs_set_size_bound _ _ _ _ h1
        split at hh
        · simp at hh
        · rename_i first last n2 h2
          have a2 := scan_sparse_bound _ _ _ _ _ _ h2
          simp only [List.length_drop] at a2
          simp only [Option.some.injEq] at hh
          subst hh
          simp only
          omega

/-- The message loop never ends for lack of budget when the budget covers the
bytes that are left: every pass but the last starts inside the memory and
moves the pointer on. -/
theorem scan_msgs_budget {σ : Type} (l : σ → msg → Bool × σ) (mem : List Nat) (e : Nat)
    (sparse : Bool) (k first last : Nat) (fuel : Nat) :
    ∀ (p msgIdx seqNum ts : Nat) (calls : List msg) (s : σ) (out : scan_outcome σ),
      0 < fuel → mem.length + 1 ≤ fuel + p →
      scan_msgs l mem e sparse k first last fuel p msgIdx seqNum ts calls s = .error out →
      out.ran_out = false := by
  induction fuel with
  | zero => intro p msgIdx seqNum ts calls s out h0; omega
  | succ fuel ih =>
    intro p msgIdx seqNum ts calls s out _ hfuel h
    unfold scan_msgs at h
    split at h
    · simp at h
    · split at h
      · simp only [Except.error.injEq] at h
        rw [← h]; rfl
      · rename_i m n hm
        have hb := scan_msg_bound _ _ _ _ _ _ _ _ _ _ hm
        simp only [List.length_drop] at hb
        split at h
        · simp only [Except.error.injEq] at h
          rw [← h]; rfl
        · exact ih _ _ _ _ _ _ out (by omega) (by omega) h

/-- The bundle loop never ends for lack of budget when the budget covers the
bytes that are left. -/
theorem scan_bundles_budget {σ : Type} (l : σ → msg → Bool × σ)
    (UnCompress : List Nat → Option (List Nat)) (mem : List Nat) (e : Nat) (fuel : Nat) :
    ∀ (p seqNum : Nat) (calls : List msg) (s : σ),
      0 < fuel → mem.length + 1 ≤ fuel + p →
      (scan_bundles l UnCompress mem e fuel p seqNum calls s).ran_out = false := by
  induction fuel with
  | zero => intro p seqNum calls s h0; omega
  | succ fuel ih =>
    intro p seqNum calls s _ hfuel
    unfold scan_bundles
    split
    · rfl
    · split
      · rfl
      · rename_i h hh
        have hb := scan_bundle_header_bound _ _ hh
        simp only [List.length_drop] at hb
        simp only
        split
        · split
          · rfl
          · split
            · rfl
            · rename_i db hdb
              split
              · rename_i out hout
                exact scan_msgs_budget l db db.length _ _ _ _ _ _ _ _ _ _ _ out
                  (by omega) (by omega) hout
              · exact ih _ _ _ _ (by omega) (by omega)
        · split
          · rename_i out hout
            exact scan_msgs_budget l mem _ _ _ _ _ _ _ _ _ _ _ _ out
              (by omega) (by omega) hout
          · exact ih _ _ _ _ (by omega) (by omega)

/-- The scan is total: whatever the memory holds, `scan_vma` returns, throws or
faults, it never ends for lack of recursion budget. -/
theorem scan_vma_budget {σ : Type} (l : σ → msg → Bool × σ)
    (UnCompress : List Nat → Option (List Nat)) (fileData : List Nat) (fileSize seqNum : Nat)
    (s : σ) : (scan_vma l UnCompress fileData fileSize seqNum s).ran_out = false :=
  scan_bundles_budget l UnCompress fileData fileSize _ 0 seqNum [] s (by omega) (by omega)


/-! ## The walk over the segments -/

theorem deliver_after {σ : Type} (l : σ → msg → Bool × σ) (ms calls : List msg) (s : σ) :
    deliver l ms calls s =
      match deliver l ms [] s with
      | .ok (c, s1) => .ok (calls ++ c, s1)
      | .error out => .error (out.after calls) := by
  induction ms generalizing calls s with
  | nil => simp [deliver]
  | cons m ms ih =>
    by_cases hstop : (l s m).1 = false
    · simp [deliver, hstop, scan_outcome.after]
    · simp only [deliver, hstop, if_false, List.nil_append]
      rw [ih (calls ++ [m]), ih [m]]
      cases deliver l ms [] (l s m).2 with
      | error out => cases out <;> simp [scan_outcome.after]
      | ok r => obtain ⟨c, s1⟩ := r; simp

theorem deliver_error_refused {σ : Type} (l : σ → msg → Bool × σ) (ms calls : List msg) (s : σ)
    (out : scan_outcome σ) (h : deliver l ms calls s = .error out) :
    ∃ c s1, out = scan_outcome.returned false c s1 := by
  induction ms generalizing calls s with
  | nil => simp [deliver] at h
  | cons m ms ih =>
    by_cases hstop : (l s m).1 = false
    · simp only [deliver, hstop, if_true, Except.error.injEq] at h
      exact ⟨_, _, h.symm⟩
    · simp only [deliver, hstop, if_false] at h
      exact ih _ _ h

theorem encode_segment_eq_nil (bs : List bundle) (h : (encode_segment bs).length = 0) :
    bs = [] := by
  have := encode_segment_length_ge bs
  exact List.length_eq_zero.mp (by omega)

theorem foreach_segment_encoded {σ : Type} (l : σ → msg → Bool × σ)
    (UnCompress : List Nat → Option (List Nat)) (mmap : Nat → Nat → Int → Option (List Nat))
    (st : stored_segment) (calls : List msg) (s : σ)
    (hok : ∀ b ∈ st.bundles, bundle_ok UnCompress b)
    (hmap : mmap (encode_segment st.bundles).length st.fd (-1) =
      some (encode_segment st.bundles ++ st.trailing)) :
    foreach_segment l UnCompress mmap st.record calls s =
      deliver l (segment_msgs st.baseSeqNum st.bundles) calls s := by
  unfold foreach_segment
  simp only [stored_segment.record, hmap]
  rw [scan_vma_encoded l UnCompress st.bundles st.trailing st.baseSeqNum s hok,
    deliver_after l _ calls s]
  unfold expected_scan_result
  cases hd : deliver l (segment_msgs st.baseSeqNum st.bundles) [] s with
  | error out =>
    have hne : ∀ c s1, out ≠ scan_outcome.returned true c s1 := by
      intro c s1 h
      subst h
      obtain ⟨c2, s2, h2⟩ := deliver_error_refused l _ [] s _ hd
      simp at h2
    cases out with
    | returned ret c s1 =>
      cases ret with
      | true => exact absurd rfl (hne c s1)
      | false => rfl
    | thrown c s1 => rfl
    | fault c s1 => rfl
    | out_of_fuel c s1 => rfl
  | ok r => obtain ⟨c, s1⟩ := r; rfl


theorem deliver_append {σ : Type} (l : σ → msg → Bool × σ) (ms1 ms2 calls : List msg) (s : σ) :
    deliver l (ms1 ++ ms2) calls s =
      match deliver l ms1 calls s with
      | .ok (calls1, s1) => deliver l ms2 calls1 s1
      | .error out => .error out := by
  induction ms1 generalizing calls s with
  | nil => simp [deliver]
  | cons m ms ih =>
    by_cases hstop : (l s m).1 = false
    · simp [deliver, hstop]
    · simp only [List.cons_append, deliver, hstop, if_false]
      exact ih _ _

theorem foreach_ro_encoded {σ : Type} (l : σ → msg → Bool × σ)
    (UnCompress : List Nat → Option (List Nat)) (mmap : Nat → Nat → Int → Option (List Nat))
    (sts : List stored_segment) (calls : List msg) (s : σ)
    (hok : ∀ st ∈ sts, ∀ b ∈ st.bundles, bundle_ok UnCompress b)
    (hmap : ∀ st ∈ sts, mmap (encode_segment st.bundles).length st.fd (-1) =
      some (encode_segment st.bundles ++ st.trailing)) :
    foreach_ro l UnCompress mmap (sts.map stored_segment.record) calls s =
      deliver l (stored_msgs sts) calls s := by
  induction sts generalizing calls s with
  | nil => simp [foreach_ro, stored_msgs, deliver]
  | cons st rest ih =>
    simp only [List.map_cons, foreach_ro, stored_msgs]
    rw [foreach_segment_encoded l UnCompress mmap st calls s (hok st (by simp))
      (hmap st (by simp)), deliver_append]
    cases deliver l (segment_msgs st.baseSeqNum st.bundles) calls s with
    | error out => rfl
    | ok r =>
      obtain ⟨c, s1⟩ := r
      exact ih c s1 (fun x hx => hok x (by simp [hx])) (fun x hx => hmap x (by simp [hx]))

theorem stored_msgs_snoc (ro : List stored_segment) (cur : stored_segment) :
    stored_msgs (ro ++ [cur]) =
      stored_msgs ro ++ segment_msgs cur.baseSeqNum cur.bundles := by
  induction ro with
  | nil => simp [stored_msgs]
  | cons st rest ih => simp [stored_msgs, ih]

/-- The walk over stored segments made of well-formed bundles hands the visitor
the stored messages in storage order until it refuses one. -/
theorem foreach_msg_encoded {σ : Type} (l : σ → msg → Bool × σ)
    (UnCompress : List Nat → Option (List Nat)) (mmap : Nat → Nat → Int → Option (List Nat))
    (ro : List stored_segment) (cur : stored_segment) (s : σ)
    (hok : ∀ st ∈ ro ++ [cur], ∀ b ∈ st.bundles, bundle_ok UnCompress b)
    (hmap : ∀ st ∈ ro ++ [cur], mmap (encode_segment st.bundles).length st.fd (-1) =
      some (encode_segment st.bundles ++ st.trailing)) :
    foreach_msg l UnCompress mmap (ro.map stored_segment.record) cur.record s =
      expected_scan_result l (stored_msgs (ro ++ [cur])) [] s := by
  have hmsgs := stored_msgs_snoc ro cur
  unfold foreach_msg expected_scan_result
  rw [foreach_ro_encoded l UnCompress mmap ro [] s (fun st h => hok st (by simp [h]))
    (fun st h => hmap st (by simp [h])), hmsgs, deliver_append]
  cases deliver l (stored_msgs ro) [] s with
  | error out => rfl
  | ok r =>
    obtain ⟨c, s1⟩ := r
    simp only
    by_cases hz : cur.record.fileSize = 0
    · have hnil : cur.bundles = [] := encode_segment_eq_nil _ hz
      simp [hz, hnil, segment_msgs, deliver]
    · rw [if_pos hz, foreach_segment_encoded l UnCompress mmap cur c s1
        (hok cur (by simp)) (hmap cur (by simp))]
      cases deliver l (segment_msgs cur.baseSeqNum cur.bundles) c s1 with
      | error out => rfl
      | ok r2 => obtain ⟨c2, s2⟩ := r2; rfl

theorem visitor_state_append {σ : Type} (l : σ → msg → Bool × σ) (s : σ) (xs ys : List msg) :
    visitor_state l s (xs ++ ys) = visitor_state l (visitor_state l s xs) ys := by
  simp [visitor_state, List.foldl_append]

/-- When the visitor accepts every message of the list, it is called on all of
them. -/
theorem deliver_all_accepted {σ : Type} (l : σ → msg → Bool × σ) (ms : List msg) (s : σ)
    (calls : List msg)
    (h : ∀ i m, ms[i]? = some m → visitor_accepts l s (ms.take i) m = true) :
    deliver l ms calls s = .ok (calls ++ ms, visitor_state l s ms) := by
  induction ms generalizing s calls with
  | nil => simp [deliver, visitor_state]
  | cons m ms ih =>
    have h0 := h 0 m (by simp)
    simp only [visitor_accepts, List.take_zero, visitor_state, List.foldl_nil] at h0
    simp only [deliver, h0, Bool.true_eq_false, if_false]
    rw [ih (l s m).2 (calls ++ [m])]
    · simp [visitor_state]
    · intro i x hx
      have := h (i + 1) x (by simpa using hx)
      simpa [visitor_accepts, visitor_state] using this

/-- When the visitor refuses message `i` after accepting the earlier ones, it
is called on the first `i + 1` messages and on no other. -/
theorem deliver_first_refused {σ : Type} (l : σ → msg → Bool × σ) (ms : List msg) (s : σ)
    (calls : List msg) (i : Nat) (m : msg) (hm : ms[i]? = some m)
    (hrefuse : visitor_accepts l s (ms.take i) m = false)
    (h : ∀ j x, j < i → ms[j]? = some x → visitor_accepts l s (ms.take j) x = true) :
    deliver l ms calls s =
      .error (.returned false (calls ++ ms.take (i + 1)) (visitor_state l s (ms.take (i + 1)))) := by
  induction ms generalizing s calls i with
  | nil => simp at hm
  | cons x xs ih =>
    cases i with
    | zero =>
      simp only [List.getElem?_cons_zero, Option.some.injEq] at hm
      subst hm
      simp only [visitor_accepts, List.take_zero, visitor_state, List.foldl_nil] at hrefuse
      simp [deliver, hrefuse, visitor_state]
    | succ i =>
      have h0 := h 0 x (by omega) (by simp)
      simp only [visitor_accepts, List.take_zero, visitor_state, List.foldl_nil] at h0
      simp only [deliver, h0, Bool.true_eq_false, if_false]
      rw [ih (l s x).2 (calls ++ [x]) i (by simpa using hm)]
      · simp [visitor_state]
      · simpa [visitor_accepts, visitor_state] using hrefuse
      · intro j y hj hy
        have := h (j + 1) y (by omega) (by simpa using hy)
        simpa [visitor_accepts, visitor_state] using this

/-- The walk of `foreach_msg` under a mapping call that accepts the offset -1
of lines 366 and 384 and shows the file, which `mmap(2)` does not do. For
stored segments made of well-formed bundles and for every visitor,
`foreach_msg` then calls the visitor on the stored messages in storage order
(RO segments in list order, then the active segment). When the visitor accepts
all of them it is called on all of them and `foreach_msg` returns `true`; when
message `i` is the first it refuses, it is called on exactly the first `i + 1`
messages and `foreach_msg` returns `false`. -/
theorem foreach_msg_when_mapped {σ : Type} (l : σ → msg → Bool × σ)
    (UnCompress : List Nat → Option (List Nat)) (mmap : Nat → Nat → Int → Option (List Nat))
    (ro : List stored_segment) (cur : stored_segment) (s : σ)
    (hok : ∀ st ∈ ro ++ [cur], ∀ b ∈ st.bundles, bundle_ok UnCompress b)
    (hmap : ∀ st ∈ ro ++ [cur], mmap (encode_segment st.bundles).length st.fd (-1) =
      some (encode_segment st.bundles ++ st.trailing)) :
    ((∀ i m, (stored_msgs (ro ++ [cur]))[i]? = some m →
        visitor_accepts l s ((stored_msgs (ro ++ [cur])).take i) m = true) →
      foreach_msg l UnCompress mmap (ro.map stored_segment.record) cur.record s =
        .returned true (stored_msgs (ro ++ [cur]))
          (visitor_state l s (stored_msgs (ro ++ [cur])))) ∧
    (∀ i m, (stored_msgs (ro ++ [cur]))[i]? = some m →
      visitor_accepts l s ((stored_msgs (ro ++ [cur])).take i) m = false →
      (∀ j x, j < i → (stored_msgs (ro ++ [cur]))[j]? = some x →
        visitor_accepts l s ((stored_msgs (ro ++ [cur])).take j) x = true) →
      foreach_msg l UnCompress mmap (ro.map stored_segment.record) cur.record s =
        .returned false ((stored_msgs (ro ++ [cur])).take (i + 1))
          (visitor_state l s ((stored_msgs (ro ++ [cur])).take (i + 1)))) := by
  rw [foreach_msg_encoded l UnCompress mmap ro cur s hok hmap]
  refine ⟨fun hall => ?_, fun i m hm hrefuse hbefore => ?_⟩
  · simp [expected_scan_result, deliver_all_accepted l _ s [] hall]
  · simp [expected_scan_result, deliver_first_refused l _ s [] i m hm hrefuse hbefore]

/-- The offset -1 is not a multiple of a page size. -/
theorem minus_one_not_page_aligned (pageSize : Nat) (hpage : 1 < pageSize) :
    (-1 : Int) % (pageSize : Int) ≠ 0 := by
  intro h
  have h1 : (pageSize : Int) ∣ 1 := Int.dvd_neg.mp (Int.dvd_of_emod_eq_zero h)
  have h2 : pageSize ∣ 1 := by exact_mod_cast h1
  have h3 := Nat.dvd_one.mp h2
  omega

theorem foreach_ro_offset_refused {σ : Type} (l : σ → msg → Bool × σ)
    (UnCompress : List Nat → Option (List Nat)) (mmap : Nat → Nat → Int → Option (List Nat))
    (seg : log_segment) (rest : List log_segment) (calls : List msg) (s : σ)
    (hmmap : mmap seg.fileSize seg.fd (-1) = none) :
    foreach_ro l UnCompress mmap (seg :: rest) calls s = .error (.thrown calls s) := by
  simp only [foreach_ro, foreach_segment, hmmap]

/-- C11. Visitor stop does not hold of the code. `foreach_msg` hands the offset
-1 to `mmap` for every segment (lines 366 and 384), and `mmap` refuses an
offset that is not a multiple of the page size. So for every log that has an RO
segment or a non-empty active segment, whatever is stored in it and whatever
the visitor answers, `foreach_msg` throws `data_error` before the visitor is
called on any message. -/
theorem foreach_msg_offset_refused {σ : Type} (l : σ → msg → Bool × σ)
    (UnCompress : List Nat → Option (List Nat)) (mmap : Nat → Nat → Int → Option (List Nat))
    (pageSize : Nat) (roSegments : List log_segment) (cur : log_segment) (s : σ)
    (hpage : 1 < pageSize)
    (hmmap : ∀ (length fd : Nat) (offset : Int),
      offset % (pageSize : Int) ≠ 0 → mmap length fd offset = none)
    (hlog : roSegments ≠ [] ∨ cur.fileSize ≠ 0) :
    foreach_msg l UnCompress mmap roSegments cur s = .thrown [] s := by
  have hrefused : ∀ (length fd : Nat), mmap length fd (-1) = none :=
    fun length fd => hmmap length fd (-1) (minus_one_not_page_aligned pageSize hpage)
  cases roSegments with
  | cons seg rest =>
    unfold foreach_msg
    rw [foreach_ro_offset_refused l UnCompress mmap seg rest [] s (hrefused _ _)]
  | nil =>
    have hcur : cur.fileSize ≠ 0 := by
      rcases hlog with h | h
      · exact absurd rfl h
      · exact h
    unfold foreach_msg
    simp only [foreach_ro, foreach_segment, hrefused, if_pos hcur]

/-- Witness of C11: an RO segment of two stored messages and an active segment
of one, with a visitor that refuses the second message. The visitor would be
called twice; `foreach_msg` throws before the first call. -/
theorem foreach_msg_offset_refused_witness :
    stored_msgs (example_ro_segments ++ [example_cur_segment]) =
      [{ seqNum := 40, ts := 1700000000000, key := [107, 49], data := [118, 48] },
       { seqNum := 41, ts := 1700000000001, key := [], data := [] },
       { seqNum := 42, ts := 1700000000002, key := [], data := [118, 50] }] ∧
    foreach_msg stop_at_second (fun _ => none) example_mmap
        (example_ro_segments.map stored_segment.record) example_cur_segment.record 0 =
      .thrown [] 0 :=
  ⟨by decide,
   foreach_msg_offset_refused stop_at_second (fun _ => none) example_mmap 4096
     (example_ro_segments.map stored_segment.record) example_cur_segment.record 0
     (by decide)
     (fun _ fd offset h => by
       simp only [Nat.cast_ofNat] at h
       simp only [example_mmap, if_pos h])
     (Or.inl (by decide))⟩


/-! ## Segment scan: one bundle at a time -/

theorem bundle_ok_of_framed (UnCompress : List Nat → Option (List Nat)) (b : bundle)
    (hb : bundle_framed b)
    (hun : ∀ cb ∈ b.compressed, UnCompress cb.2 = some (bundle_content b)) :
    bundle_ok UnCompress b :=
  ⟨hb.1, hb.2.1, hb.2.2.1, hb.2.2.2.1,
    fun cb h => ⟨(hb.2.2.2.2 cb h).1, (hb.2.2.2.2 cb h).2, hun cb h⟩⟩

theorem bundle_framed_of_ok (UnCompress : List Nat → Option (List Nat)) (b : bundle)
    (hb : bundle_ok UnCompress b) : bundle_framed b :=
  ⟨hb.1, hb.2.1, hb.2.2.1, hb.2.2.2.1,
    fun cb h => ⟨(hb.2.2.2.2 cb h).1, (hb.2.2.2.2 cb h).2.1⟩⟩

/-- The head of a framed bundle is read back whatever the decompressor is. -/
theorem scan_bundle_header_framed (b : bundle) (rest : List Nat) (hb : bundle_framed b) :
    scan_bundle_header (encode_bundle b ++ rest) =
      some { bundleLen := (bundle_body b).length, codec := bundle_codec b,
             sparseBundleBitSet := b.sparse.isSome, msgsSetSize := b.frames.length,
             firstMsgSeqNum := bundle_first b, lastMsgSeqNum := bundle_last b,
             lenBytes := (encode_varuint32 (bundle_body b).length).length,
             headBytes := (bundle_head b).length } :=
  scan_bundle_header_encode (fun _ => some (bundle_content b)) b rest
    (bundle_ok_of_framed _ b hb (fun _ _ => rfl))

/-- One pass of the bundle loop over a well-formed bundle: its messages are
handed to the visitor and, unless the visitor stops the scan, the loop goes on
behind the bundle. -/
theorem scan_bundles_step {σ : Type} (l : σ → msg → Bool × σ)
    (UnCompress : List Nat → Option (List Nat)) (mem : List Nat) (b : bundle)
    (fuel e p running : Nat) (calls : List msg) (s : σ) (rest : List Nat)
    (hb : bundle_ok UnCompress b)
    (hmem : mem.drop p = encode_bundle b ++ rest) (hne : p ≠ e) :
    scan_bundles l UnCompress mem e (fuel + 1) p running calls s =
      match deliver l (bundle_msgs running b) calls s with
      | .error out => out
      | .ok (c, s1) =>
        scan_bundles l UnCompress mem e fuel (p + (encode_bundle b).length)
          (bundle_end_seq running b) c s1 := by
  have hpos := encode_bundle_length_pos b
  have hhdr := scan_bundle_header_encode UnCompress b rest hb
  rw [← hmem] at hhdr
  have hmem2 : mem.drop p = (encode_varuint32 (bundle_body b).length ++ bundle_head b) ++
      (bundle_stored b ++ rest) := by
    rw [hmem]; simp [encode_bundle, bundle_body]
  have hcontent := drop_of_drop_eq_append mem p _ _ hmem2
  have hblen : (encode_bundle b).length =
      (encode_varuint32 (bundle_body b).length).length + (bundle_body b).length := by
    simp [encode_bundle]
  have hbody : (bundle_body b).length = (bundle_head b).length + (bundle_stored b).length := by
    simp [bundle_body]
  simp only [List.length_append] at hcontent
  have hinmem := length_le_of_drop_eq_append mem p _ _ hmem hpos
  obtain ⟨hframes, -, hcount, -, hcomp⟩ := hb
  conv_lhs => unfold scan_bundles
  rw [if_neg hne, hhdr]
  simp only
  cases hc : b.compressed with
  | none =>
    have hcodec : bundle_codec b = 0 := by simp [bundle_codec, hc]
    have hstored : bundle_stored b = bundle_content b := by simp [bundle_stored, hc]
    rw [hstored] at hcontent hbody
    have hloop := scan_msgs_encoded l mem b.sparse.isSome b.frames.length (bundle_first b)
      (bundle_last b) b.frames (mem.length + 1)
      (p + (encode_varuint32 (bundle_body b).length).length + (bundle_body b).length)
      (p + (encode_varuint32 (bundle_body b).length).length + (bundle_head b).length)
      0 running 0 calls s rest hframes (by omega) (by simp)
      (by rw [← Nat.add_assoc] at hcontent; exact hcontent)
      (by simp only [bundle_content] at hbody; omega)
      (by
        have h1 := encode_frames_length_ge b.sparse.isSome b.frames.length b.frames 0
        simp only [bundle_content] at hbody
        omega)
    simp only [hcodec, ne_eq, not_true_eq_false, if_false]
    rw [hloop]
    simp only [expected_msgs_result, bundle_msgs, bundle_end_seq]
    cases hd : deliver l (frames_msgs b.sparse.isSome b.frames.length (bundle_first b)
        (bundle_last b) 0 running 0 b.frames) calls s with
    | error out => rfl
    | ok r =>
      obtain ⟨calls1, s1⟩ := r
      simp only
      rw [hblen, ← Nat.add_assoc]
  | some cb =>
    obtain ⟨codec, bytes⟩ := cb
    obtain ⟨hc0, -, hun⟩ := hcomp (codec, bytes) hc
    have hcodec : bundle_codec b = codec := by simp [bundle_codec, hc]
    have hstored : bundle_stored b = bytes := by simp [bundle_stored, hc]
    rw [hstored] at hcontent hbody
    have hne0 : codec ≠ 0 := by omega
    have hrange : ¬ (p + (encode_varuint32 (bundle_body b).length).length +
          (bundle_body b).length <
        p + (encode_varuint32 (bundle_body b).length).length + (bundle_head b).length ∨
        mem.length < p + (encode_varuint32 (bundle_body b).length).length +
          (bundle_body b).length) := by omega
    have htake : (mem.drop (p + (encode_varuint32 (bundle_body b).length).length +
          (bundle_head b).length)).take
        (p + (encode_varuint32 (bundle_body b).length).length + (bundle_body b).length -
          (p + (encode_varuint32 (bundle_body b).length).length + (bundle_head b).length))
        = bytes := by
      rw [← Nat.add_assoc] at hcontent
      rw [hcontent]
      have : p + (encode_varuint32 (bundle_body b).length).length + (bundle_body b).length -
          (p + (encode_varuint32 (bundle_body b).length).length + (bundle_head b).length)
          = bytes.length := by omega
      rw [this, List.take_left]
    have hloop := scan_msgs_encoded l (bundle_content b) b.sparse.isSome b.frames.length
      (bundle_first b) (bundle_last b) b.frames ((bundle_content b).length + 1)
      (bundle_content b).length 0 0 running 0 calls s [] hframes (by omega) (by simp)
      (by simp [bundle_content]) (by simp [bundle_content])
      (by
        have h1 := encode_frames_length_ge b.sparse.isSome b.frames.length b.frames 0
        simp only [bundle_content]
        omega)
    simp only [hcodec, ne_eq, hne0, not_false_eq_true, if_true, hrange, if_false, htake, hun]
    rw [hloop]
    simp only [expected_msgs_result, bundle_msgs, bundle_end_seq]
    cases hd : deliver l (frames_msgs b.sparse.isSome b.frames.length (bundle_first b)
        (bundle_last b) 0 running 0 b.frames) calls s with
    | error out => rfl
    | ok r =>
      obtain ⟨calls1, s1⟩ := r
      simp only
      rw [hblen, ← Nat.add_assoc]

/-- The bundle loop over well-formed bundles that all start before the end of
the buffer: their messages are handed to the visitor and, unless the visitor
stops the scan, the loop goes on behind them. -/
theorem scan_bundles_through {σ : Type} (l : σ → msg → Bool × σ)
    (UnCompress : List Nat → Option (List Nat)) (mem : List Nat) (pre : List bundle) :
    ∀ (fuel e p running : Nat) (calls : List msg) (s : σ) (rest : List Nat),
      (∀ b ∈ pre, bundle_ok UnCompress b) →
      mem.drop p = encode_segment pre ++ rest →
      p + (encode_segment pre).length ≤ e →
      scan_bundles l UnCompress mem e (fuel + pre.length) p running calls s =
        match deliver l (segment_msgs running pre) calls s with
        | .error out => out
        | .ok (c, s1) =>
          scan_bundles l UnCompress mem e fuel (p + (encode_segment pre).length)
            (segment_end_seq running pre) c s1 := by
  induction pre with
  | nil =>
    intro fuel e p running calls s rest _ _ _
    simp [encode_segment, segment_msgs, deliver, segment_end_seq]
  | cons b bs ih =>
    intro fuel e p running calls s rest hok hmem he
    simp only [encode_segment, List.append_assoc] at hmem
    simp only [encode_segment, List.length_append] at he
    have hpos := encode_bundle_length_pos b
    have hstep := scan_bundles_step l UnCompress mem b (fuel + bs.length) e p running calls s
      (encode_segment bs ++ rest) (hok b (by simp)) hmem (by omega)
    have hnextmem := drop_of_drop_eq_append mem p _ _ hmem
    simp only [List.length_cons, ← Nat.add_assoc, segment_msgs, encode_segment,
      List.length_append, segment_end_seq]
    rw [hstep, deliver_append]
    cases deliver l (bundle_msgs running b) calls s with
    | error out => rfl
    | ok r =>
      obtain ⟨c, s1⟩ := r
      simp only
      exact ih fuel e (p + (encode_bundle b).length) (bundle_end_seq running b) c s1 rest
        (fun g hg => hok g (by simp [hg])) hnextmem (by omega)


/-- The scan of a segment buffer that starts with well-formed bundles, up to
the bundle that follows them. -/
theorem scan_vma_through {σ : Type} (l : σ → msg → Bool × σ)
    (UnCompress : List Nat → Option (List Nat)) (pre : List bundle) (rest : List Nat)
    (fileSize running : Nat) (s : σ)
    (hpre : ∀ x ∈ pre, bundle_ok UnCompress x)
    (hsize : (encode_segment pre).length ≤ fileSize) :
    scan_vma l UnCompress (encode_segment pre ++ rest) fileSize running s =
      match deliver l (segment_msgs running pre) [] s with
      | .error out => out
      | .ok (c, s1) =>
        scan_bundles l UnCompress (encode_segment pre ++ rest) fileSize
          ((encode_segment pre ++ rest).length + 1 - pre.length) (encode_segment pre).length
          (segment_end_seq running pre) c s1 := by
  unfold scan_vma
  have hlen := encode_segment_length_ge pre
  have hfuel : (encode_segment pre ++ rest).length + 1 =
      ((encode_segment pre ++ rest).length + 1 - pre.length) + pre.length := by
    simp only [List.length_append]; omega
  have h := scan_bundles_through l UnCompress (encode_segment pre ++ rest) pre
    ((encode_segment pre ++ rest).length + 1 - pre.length) fileSize 0 running [] s rest hpre
    (by simp) (by omega)
  rw [← hfuel] at h
  rw [h]
  simp

/-- A compressed bundle whose stored bytes the decompressor rejects ends the
scan with the exception, before any of its messages is handed over. -/
theorem scan_bundles_uncompress_fails {σ : Type} (l : σ → msg → Bool × σ)
    (UnCompress : List Nat → Option (List Nat)) (mem : List Nat) (b : bundle)
    (codec : Nat) (bytes : List Nat)
    (fuel e p running : Nat) (calls : List msg) (s : σ) (rest : List Nat)
    (hb : bundle_framed b) (hc : b.compressed = some (codec, bytes))
    (hun : UnCompress bytes = none)
    (hmem : mem.drop p = encode_bundle b ++ rest) (hne : p ≠ e) :
    scan_bundles l UnCompress mem e (fuel + 1) p running calls s = .thrown calls s := by
  have hpos := encode_bundle_length_pos b
  have hhdr := scan_bundle_header_framed b rest hb
  rw [← hmem] at hhdr
  have hmem2 : mem.drop p = (encode_varuint32 (bundle_body b).length ++ bundle_head b) ++
      (bundle_stored b ++ rest) := by
    rw [hmem]; simp [encode_bundle, bundle_body]
  have hcontent := drop_of_drop_eq_append mem p _ _ hmem2
  have hblen : (encode_bundle b).length =
      (encode_varuint32 (bundle_body b).length).length + (bundle_body b).length := by
    simp [encode_bundle]
  have hbody : (bundle_body b).length = (bundle_head b).length + (bundle_stored b).length := by
    simp [bundle_body]
  simp only [List.length_append] at hcontent
  have hinmem := length_le_of_drop_eq_append mem p _ _ hmem hpos
  obtain ⟨hc0, -⟩ := hb.2.2.2.2 (codec, bytes) hc
  have hcodec : bundle_codec b = codec := by simp [bundle_codec, hc]
  have hstored : bundle_stored b = bytes := by simp [bundle_stored, hc]
  rw [hstored] at hcontent hbody
  have hne0 : codec ≠ 0 := by omega
  have hrange : ¬ (p + (encode_varuint32 (bundle_body b).length).length +
        (bundle_body b).length <
      p + (encode_varuint32 (bundle_body b).length).length + (bundle_head b).length ∨
      mem.length < p + (encode_varuint32 (bundle_body b).length).length +
        (bundle_body b).length) := by omega
  have htake : (mem.drop (p + (encode_varuint32 (bundle_body b).length).length +
        (bundle_head b).length)).take
      (p + (encode_varuint32 (bundle_body b).length).length + (bundle_body b).length -
        (p + (encode_varuint32 (bundle_body b).length).length + (bundle_head b).length))
      = bytes := by
    rw [← Nat.add_assoc] at hcontent
    rw [hcontent]
    have : p + (encode_varuint32 (bundle_body b).length).length + (bundle_body b).length -
        (p + (encode_varuint32 (bundle_body b).length).length + (bundle_head b).length)
        = bytes.length := by omega
    rw [this, List.take_left]
  unfold scan_bundles
  rw [if_neg hne, hhdr]
  simp only [hcodec, ne_eq, hne0, not_false_eq_true, if_true, hrange, if_false, htake, hun]

/-! ## Segment scan: codec ids -/

/-- C12, as stated, fails: a bundle whose codec bits are 2 and whose stored
bytes are a valid Snappy stream is not rejected; its message is handed to the
visitor and the scan returns `true`. -/
theorem scan_vma_unknown_codec_counterexample :
    bundle_flags (example_compressed_bundle 2) % 4 = 2 ∧
    scan_vma accept_all snappy_literal (encode_bundle (example_compressed_bundle 2))
      (encode_bundle (example_compressed_bundle 2)).length 40 ()
      = .returned true [{ seqNum := 40, ts := 7, key := [], data := [65] }] () := by
  decide

/-- C12, amended. Codec bits 2 and 3 are not rejected but treated like codec
1: the low two bits of the flags byte of a compressed bundle are its codec id,
1 to 3, and in each case the stored bytes go to the Snappy decompressor. When
it reports failure the scan throws and hands over no message of that bundle
(only those of the bundles before it); when it returns the framed message set
the bundle is read like any other and its messages are handed over. -/
theorem scan_vma_codec_not_checked {σ : Type} (l : σ → msg → Bool × σ)
    (UnCompress : List Nat → Option (List Nat)) (pre post : List bundle) (b : bundle)
    (codec : Nat) (bytes : List Nat) (rest : List Nat) (running : Nat) (s : σ)
    (hpre : ∀ x ∈ pre, bundle_ok UnCompress x) (hpost : ∀ x ∈ post, bundle_ok UnCompress x)
    (hb : bundle_framed b)
    (hc : b.compressed = some (codec, bytes)) :
    (bundle_flags b % 4 = codec ∧ 0 < codec ∧ codec < 4) ∧
    (UnCompress bytes = none →
      ∀ fileSize, (encode_segment pre).length < fileSize →
      scan_vma l UnCompress (encode_segment pre ++ (encode_bundle b ++ rest)) fileSize running s =
        match deliver l (segment_msgs running pre) [] s with
        | .error out => out
        | .ok (c, s1) => .thrown c s1) ∧
    (UnCompress bytes = some (bundle_content b) →
      scan_vma l UnCompress (encode_segment (pre ++ b :: post) ++ rest)
        (encode_segment (pre ++ b :: post)).length running s =
        expected_scan_result l
          (segment_msgs running pre ++ bundle_msgs (segment_end_seq running pre) b ++
            segment_msgs (bundle_end_seq (segment_end_seq running pre) b) post) [] s) := by
  refine ⟨?_, fun hun fileSize hsize => ?_, fun hun => ?_⟩
  · have hcb := hb.2.2.2.2 (codec, bytes) hc
    have hsmall := bundle_small_count_lt b
    have hcodec : bundle_codec b = codec := by simp [bundle_codec, hc]
    refine ⟨?_, hcb.1, hcb.2⟩
    unfold bundle_flags
    rw [hcodec]
    simp only at hcb
    split_ifs <;> omega
  · rw [scan_vma_through l UnCompress pre (encode_bundle b ++ rest) fileSize running s hpre
      (by omega)]
    cases deliver l (segment_msgs running pre) [] s with
    | error out => rfl
    | ok r =>
      obtain ⟨c, s1⟩ := r
      simp only
      have hlen := encode_segment_length_ge pre
      have hpos := encode_bundle_length_pos b
      obtain ⟨fuel, hfuel⟩ : ∃ fuel,
          (encode_segment pre ++ (encode_bundle b ++ rest)).length + 1 - pre.length = fuel + 1 :=
        ⟨(encode_segment pre ++ (encode_bundle b ++ rest)).length - pre.length, by
          simp only [List.length_append]; omega⟩
      rw [hfuel]
      exact scan_bundles_uncompress_fails l UnCompress _ b codec bytes fuel fileSize _ _ c s1
        rest hb hc hun (by simp) (by omega)
  · have hbok : bundle_ok UnCompress b :=
      bundle_ok_of_framed UnCompress b hb (fun cb h => by
        rw [hc] at h
        cases h
        exact hun)
    have hok : ∀ x ∈ pre ++ b :: post, bundle_ok UnCompress x := by
      intro x hx
      rcases List.mem_append.mp hx with h | h
      · exact hpre x h
      · rcases List.mem_cons.mp h with rfl | h
        · exact hbok
        · exact hpost x h
    rw [scan_vma_encoded l UnCompress (pre ++ b :: post) rest running s hok,
      segment_msgs_append]
    simp only [segment_msgs, List.append_assoc]

/-- Witness of the amended C12: a bundle with codec bits 3, after a dense
bundle and a decompressor that rejects everything, and alone with a
decompressor that reads its stored bytes. -/
theorem scan_vma_codec_not_checked_witness :
    (bundle_flags (example_compressed_bundle 3) % 4 = 3 ∧ 0 < 3 ∧ 3 < 4) ∧
    ((fun (_ : List Nat) => (none : Option (List Nat)))
        (11 :: 40 :: encode_frames false 1 0 [⟨none, [65], some 7, false, 0⟩]) = none →
      ∀ fileSize, (encode_segment [plain_bundle example_bundles.flatten]).length < fileSize →
      scan_vma accept_all (fun _ => none)
        (encode_segment [plain_bundle example_bundles.flatten] ++
          (encode_bundle (example_compressed_bundle 3) ++ [])) fileSize 40 () =
        match deliver accept_all (segment_msgs 40 [plain_bundle example_bundles.flatten]) [] () with
        | .error out => out
        | .ok (c, s1) => .thrown c s1) ∧
    (snappy_literal (11 :: 40 :: encode_frames false 1 0 [⟨none, [65], some 7, false, 0⟩])
        = some (bundle_content (example_compressed_bundle 3)) →
      scan_vma accept_all snappy_literal
        (encode_segment ([] ++ example_compressed_bundle 3 :: []) ++ [])
        (encode_segment ([] ++ example_compressed_bundle 3 :: [])).length 40 () =
        expected_scan_result accept_all
          (segment_msgs 40 [] ++ bundle_msgs (segment_end_seq 40 []) (example_compressed_bundle 3) ++
            segment_msgs (bundle_end_seq (segment_end_seq 40 []) (example_compressed_bundle 3)) [])
          [] ()) :=
  ⟨(scan_vma_codec_not_checked accept_all snappy_literal
      [] [] (example_compressed_bundle 3) 3 _ [] 40 ()
      (by decide) (by decide) (by decide) rfl).1,
   (scan_vma_codec_not_checked accept_all (fun _ => none)
      [plain_bundle example_bundles.flatten] [] (example_compressed_bundle 3) 3 _ [] 40 ()
      (by decide) (by decide) (by decide) rfl).2.1,
   (scan_vma_codec_not_checked accept_all snappy_literal
      [] [] (example_compressed_bundle 3) 3 _ [] 40 ()
      (by decide) (by decide) (by decide) rfl).2.2⟩


/-! ## Segment scan: buffers that end inside a bundle -/

/-- The message loop ends the scan only by a fault, by the visitor, or for lack
of budget: never with `true`. -/
theorem scan_msgs_error_not_succeeded {σ : Type} (l : σ → msg → Bool × σ) (mem : List Nat)
    (e : Nat) (sparse : Bool) (k first last : Nat) (fuel : Nat) :
    ∀ (p msgIdx seqNum ts : Nat) (calls : List msg) (s : σ) (out : scan_outcome σ),
      scan_msgs l mem e sparse k first last fuel p msgIdx seqNum ts calls s = .error out →
      out.succeeded = false := by
  induction fuel with
  | zero =>
    intro p msgIdx seqNum ts calls s out h
    simp only [scan_msgs, Except.error.injEq] at h
    rw [← h]; rfl
  | succ fuel ih =>
    intro p msgIdx seqNum ts calls s out h
    unfold scan_msgs at h
    split at h
    · simp at h
    · split at h
      · simp only [Except.error.injEq] at h
        rw [← h]; rfl
      · split at h
        · simp only [Except.error.injEq] at h
          rw [← h]; rfl
        · exact ih _ _ _ _ _ _ out h

/-- Once the bundle pointer is past the end of the buffer the scan cannot
return `true` any more: the loop test `p != e` never fails again. -/
theorem scan_bundles_past_end {σ : Type} (l : σ → msg → Bool × σ)
    (UnCompress : List Nat → Option (List Nat)) (mem : List Nat) (e : Nat) (fuel : Nat) :
    ∀ (p seqNum : Nat) (calls : List msg) (s : σ), e < p →
      (scan_bundles l UnCompress mem e fuel p seqNum calls s).succeeded = false := by
  induction fuel with
  | zero => intro p seqNum calls s _; rfl
  | succ fuel ih =>
    intro p seqNum calls s hp
    unfold scan_bundles
    rw [if_neg (by omega)]
    split
    · rfl
    · rename_i h hh
      simp only
      split
      · split
        · rfl
        · split
          · rfl
          · split
            · rename_i out hout
              exact scan_msgs_error_not_succeeded l _ _ _ _ _ _ _ _ _ _ _ _ _ out hout
            · exact ih _ _ _ _ (by omega)
      · split
        · rename_i out hout
          exact scan_msgs_error_not_succeeded l _ _ _ _ _ _ _ _ _ _ _ _ _ out hout
        · exact ih _ _ _ _ (by omega)

/-- A bundle whose declared length reaches past the end of the buffer keeps the
scan from returning `true`, whatever the memory holds. -/
theorem scan_bundles_overrun {σ : Type} (l : σ → msg → Bool × σ)
    (UnCompress : List Nat → Option (List Nat)) (mem : List Nat) (e fuel p seqNum : Nat)
    (calls : List msg) (s : σ) (hne : p ≠ e)
    (hover : ∀ h, scan_bundle_header (mem.drop p) = some h → e < p + h.lenBytes + h.bundleLen) :
    (scan_bundles l UnCompress mem e fuel p seqNum calls s).succeeded = false := by
  cases fuel with
  | zero => rfl
  | succ fuel =>
    unfold scan_bundles
    rw [if_neg hne]
    split
    · rfl
    · rename_i h hh
      have hov := hover h hh
      simp only
      split
      · split
        · rfl
        · split
          · rfl
          · split
            · rename_i out hout
              exact scan_msgs_error_not_succeeded l _ _ _ _ _ _ _ _ _ _ _ _ _ out hout
            · exact scan_bundles_past_end l UnCompress mem e fuel _ _ _ _ hov
      · split
        · rename_i out hout
          exact scan_msgs_error_not_succeeded l _ _ _ _ _ _ _ _ _ _ _ _ _ out hout
        · exact scan_bundles_past_end l UnCompress mem e fuel _ _ _ _ hov

/-- A run of continuation bytes makes `decode_varuint32` read on behind it. -/
theorem decode_varuint32_loop_continues (cont : List Nat) :
    ∀ (left shift acc used : Nat) (behind : List Nat) (v n : Nat),
      (∀ b ∈ cont, 128 ≤ b) → cont.length < left →
      decode_varuint32_loop left shift acc used (cont ++ behind) = some (v, n) →
      used + cont.length < n := by
  induction cont with
  | nil =>
    intro left shift acc used behind v n _ hleft h
    have := decode_varuint32_loop_bound left shift acc used behind v n h
    simp only [List.length_nil, List.nil_append] at hleft h ⊢
    exact this.2 (by omega)
  | cons b bs ih =>
    intro left shift acc used behind v n hcont hleft h
    cases left with
    | zero => simp at hleft
    | succ left =>
      have hb : ¬ b < 128 := by have := hcont b (by simp); omega
      simp only [List.cons_append, decode_varuint32_loop, hb, if_false] at h
      have := ih left _ _ _ behind v n (fun x hx => hcont x (by simp [hx]))
        (by simp only [List.length_cons] at hleft; omega) h
      simp only [List.length_cons]
      omega

/-- Every byte but the last of an encoded varint carries the continuation bit,
and the encoding has at most five bytes. -/
theorem encode_varuint32_take (n k : Nat) (hk : k < (encode_varuint32 n).length) :
    (∀ b ∈ (encode_varuint32 n).take k, 128 ≤ b) ∧ ((encode_varuint32 n).take k).length < 5 := by
  unfold encode_varuint32 at hk ⊢
  split_ifs at hk ⊢ <;> simp only [List.length_cons, List.length_nil] at hk <;>
    (refine ⟨?_, ?_⟩
     · intro b hb
       rcases k with _ | _ | _ | _ | _ | k <;> simp at hb <;> omega
     · rw [List.length_take]
       simp only [List.length_cons, List.length_nil]
       omega)

theorem scan_bundle_header_len (bytes : List Nat) (h : bundle_header)
    (hh : scan_bundle_header bytes = some h) :
    decode_varuint32 bytes = some (h.bundleLen, h.lenBytes) := by
  unfold scan_bundle_header at hh
  split at hh
  · simp at hh
  · rename_i bundleLen n0 h0
    split at hh
    · simp at hh
    · split at hh
      · simp at hh
      · split at hh
        · simp at hh
        · simp only [Option.some.injEq] at hh
          subst hh
          exact h0

/-- C13, as stated, fails: two segments agree on their first 12 bytes, which
end inside the only bundle (before the payload). Scanned with `fileSize = 12`
the scan hands over the message with the payload that lies behind the buffer,
different in the two cases, and ends with a read of unmapped memory; when the
visitor stops at that message the scan just returns `false`. When no memory is
mapped behind the 12 bytes the visitor is still called, with a payload that
lies outside the memory, and the scan returns `false` when the visitor stops
there. -/
theorem scan_vma_short_buffer_counterexample :
    (encode_bundle (example_one_message [1, 2, 3])).take 12
      = (encode_bundle (example_one_message [9, 9, 9])).take 12 ∧
    12 < (encode_bundle (example_one_message [1, 2, 3])).length ∧
    scan_vma accept_all (fun _ => none) (encode_bundle (example_one_message [1, 2, 3])) 12 40 ()
      = .fault [{ seqNum := 40, ts := 7, key := [], data := [1, 2, 3] }] () ∧
    scan_vma accept_all (fun _ => none) (encode_bundle (example_one_message [9, 9, 9])) 12 40 ()
      = .fault [{ seqNum := 40, ts := 7, key := [], data := [9, 9, 9] }] () ∧
    scan_vma stop_at_once (fun _ => none) (encode_bundle (example_one_message [1, 2, 3])) 12 40 0
      = .returned false [{ seqNum := 40, ts := 7, key := [], data := [1, 2, 3] }] 1 ∧
    scan_vma stop_at_once (fun _ => none)
        ((encode_bundle (example_one_message [1, 2, 3])).take 12) 12 40 0
      = .returned false [{ seqNum := 40, ts := 7, key := [], data := [] }] 1 ∧
    scan_vma accept_all (fun _ => none)
        ((encode_bundle (example_one_message [1, 2, 3])).take 12) 12 40 ()
      = .fault [{ seqNum := 40, ts := 7, key := [], data := [] }] () := by
  decide

/-- C13, amended. A segment buffer that ends inside a bundle (after whole
well-formed bundles it holds the first `k` bytes of a bundle, `k` neither 0 nor
the bundle's length) is never scanned to a `true` result, whatever the memory
behind the buffer holds, nothing included: the scan ends by a read of unmapped
memory, by a decompression failure or by the visitor. No bounds are checked on
the way, and a key or payload that leaves the buffer or the memory is handed
to the visitor all the same. -/
theorem scan_vma_cut_bundle {σ : Type} (l : σ → msg → Bool × σ)
    (UnCompress : List Nat → Option (List Nat)) (pre : List bundle) (b : bundle) (k : Nat)
    (behind : List Nat) (running : Nat) (s : σ)
    (hpre : ∀ x ∈ pre, bundle_ok UnCompress x)
    (hlen : (bundle_body b).length < 2 ^ 32)
    (hk0 : 0 < k) (hk : k < (encode_bundle b).length) :
    (scan_vma l UnCompress (encode_segment pre ++ ((encode_bundle b).take k ++ behind))
      ((encode_segment pre).length + k) running s).succeeded = false := by
  rw [scan_vma_through l UnCompress pre _ _ running s hpre (by omega)]
  cases hd : deliver l (segment_msgs running pre) [] s with
  | error out =>
    obtain ⟨c, s1, h⟩ := deliver_error_refused l _ _ _ _ hd
    subst h
    rfl
  | ok r =>
    obtain ⟨c, s1⟩ := r
    simp only
    apply scan_bundles_overrun l UnCompress _ _ _ _ _ _ _ (by omega)
    intro h hh
    rw [List.drop_left] at hh
    have hdec := scan_bundle_header_len _ h hh
    by_cases hcase : (encode_varuint32 (bundle_body b).length).length ≤ k
    · have htake : (encode_bundle b).take k =
          encode_varuint32 (bundle_body b).length ++
            (bundle_body b).take (k - (encode_varuint32 (bundle_body b).length).length) := by
        unfold encode_bundle
        rw [List.take_append_eq_append_take, List.take_of_length_le hcase]
      rw [htake, List.append_assoc, decode_encode_varuint32 _ _ hlen] at hdec
      simp only [Option.some.injEq, Prod.mk.injEq] at hdec
      simp only [encode_bundle, List.length_append] at hk
      omega
    · have htake : (encode_bundle b).take k =
          (encode_varuint32 (bundle_body b).length).take k := by
        unfold encode_bundle
        rw [List.take_append_of_le_length (by omega)]
      rw [htake] at hdec
      have hcont := encode_varuint32_take (bundle_body b).length k (by omega)
      have := decode_varuint32_loop_continues _ 5 0 0 0 behind h.bundleLen h.lenBytes
        hcont.1 hcont.2 hdec
      have hl : ((encode_varuint32 (bundle_body b).length).take k).length = k := by
        rw [List.length_take]; omega
      omega

/-- Witness of the amended C13: after a dense bundle, the first 12 bytes of a
one-message bundle, with the rest of that bundle behind the buffer. -/
theorem scan_vma_cut_bundle_witness :
    0 < 12 ∧ 12 < (encode_bundle (example_one_message [1, 2, 3])).length ∧
    (scan_vma accept_all (fun _ => none)
      (encode_segment [plain_bundle example_bundles.flatten] ++
        ((encode_bundle (example_one_message [1, 2, 3])).take 12 ++ [1, 2, 3]))
      ((encode_segment [plain_bundle example_bundles.flatten]).length + 12) 40 ()).succeeded
      = false :=
  ⟨by decide, by decide,
   scan_vma_cut_bundle accept_all (fun _ => none) [plain_bundle example_bundles.flatten]
     (example_one_message [1, 2, 3]) 12 [1, 2, 3] 40 () (by decide) (by decide) (by decide)
     (by decide)⟩


/-! ## Segment scan: timestamps -/

theorem frames_msgs_getElem?_some (sparse : Bool) (k first last : Nat) (fs : List frame)
    (i0 running ts0 i : Nat) (m : msg)
    (h : (frames_msgs sparse k first last i0 running ts0 fs)[i]? = some m) :
    ∃ f, fs[i]? = some f := by
  have hlt : i < fs.length := by
    have := (List.getElem?_eq_some_iff.mp h).1
    rwa [frames_msgs_length] at this
  exact exists_getElem? fs i hlt

theorem frames_msgs_ts_own (sparse : Bool) (k first last : Nat) (fs : List frame)
    (i0 running ts0 i : Nat) (f : frame) (m : msg) (t : Nat)
    (hf : fs[i]? = some f) (ht : f.ts = some t)
    (hm : (frames_msgs sparse k first last i0 running ts0 fs)[i]? = some m) : m.ts = t := by
  cases i with
  | zero =>
    rw [frames_msgs_head _ _ _ _ _ _ _ _ f hf] at hm
    simp only [Option.some.injEq] at hm
    rw [← hm]
    simp [frame_msg, ht]
  | succ i =>
    obtain ⟨prev, hprev⟩ := exists_getElem?
      (frames_msgs sparse k first last i0 running ts0 fs) i (by
        have := (List.getElem?_eq_some_iff.mp hm).1
        omega)
    rw [frames_msgs_succ _ _ _ _ fs i0 running ts0 i f prev hf hprev] at hm
    simp only [Option.some.injEq] at hm
    rw [← hm]
    simp [frame_msg, ht]

theorem frames_msgs_ts_reused (sparse : Bool) (k first last : Nat) (fs : List frame)
    (i0 running ts0 i : Nat) (f : frame) (prev m : msg)
    (hf : fs[i + 1]? = some f) (ht : f.ts = none)
    (hprev : (frames_msgs sparse k first last i0 running ts0 fs)[i]? = some prev)
    (hm : (frames_msgs sparse k first last i0 running ts0 fs)[i + 1]? = some m) :
    m.ts = prev.ts := by
  rw [frames_msgs_succ _ _ _ _ fs i0 running ts0 i f prev hf hprev] at hm
  simp only [Option.some.injEq] at hm
  rw [← hm]
  simp [frame_msg, ht]

/-- A message that reuses the timestamp gets the one of the nearest earlier
frame that stores one. -/
theorem frames_msgs_ts_nearest (sparse : Bool) (k first last : Nat) (fs : List frame)
    (i0 running ts0 j : Nat) (g : frame) (t : Nat) (hg : fs[j]? = some g) (ht : g.ts = some t) :
    ∀ (d : Nat) (m : msg),
      (∀ j2 g2, j < j2 → j2 ≤ j + d → fs[j2]? = some g2 → g2.ts = none) →
      (frames_msgs sparse k first last i0 running ts0 fs)[j + d]? = some m → m.ts = t := by
  intro d
  induction d with
  | zero =>
    intro m _ hm
    exact frames_msgs_ts_own _ _ _ _ fs _ _ _ j g m t hg ht hm
  | succ d ih =>
    intro m hnone hm
    obtain ⟨f, hf⟩ := frames_msgs_getElem?_some _ _ _ _ fs _ _ _ _ m hm
    obtain ⟨prev, hprev⟩ := exists_getElem?
      (frames_msgs sparse k first last i0 running ts0 fs) (j + d) (by
        have := (List.getElem?_eq_some_iff.mp hm).1
        omega)
    have hfn := hnone (j + (d + 1)) f (by omega) (by omega) hf
    rw [frames_msgs_ts_reused _ _ _ _ fs _ _ _ (j + d) f prev m hf hfn hprev hm]
    exact ih prev (fun j2 g2 h1 h2 h3 => hnone j2 g2 h1 (by omega) h3) hprev

/-- While no frame has stored a timestamp the initial one stays in force. -/
theorem frames_msgs_ts_initial (sparse : Bool) (k first last : Nat) (fs : List frame)
    (i0 running ts0 : Nat) :
    ∀ (i : Nat) (m : msg),
      (∀ j g, j ≤ i → fs[j]? = some g → g.ts = none) →
      (frames_msgs sparse k first last i0 running ts0 fs)[i]? = some m → m.ts = ts0 := by
  intro i
  induction i with
  | zero =>
    intro m hnone hm
    obtain ⟨f, hf⟩ := frames_msgs_getElem?_some _ _ _ _ fs _ _ _ _ m hm
    rw [frames_msgs_head _ _ _ _ _ _ _ _ f hf] at hm
    simp only [Option.some.injEq] at hm
    rw [← hm]
    simp [frame_msg, hnone 0 f (by omega) hf]
  | succ i ih =>
    intro m hnone hm
    obtain ⟨f, hf⟩ := frames_msgs_getElem?_some _ _ _ _ fs _ _ _ _ m hm
    obtain ⟨prev, hprev⟩ := exists_getElem?
      (frames_msgs sparse k first last i0 running ts0 fs) i (by
        have := (List.getElem?_eq_some_iff.mp hm).1
        omega)
    rw [frames_msgs_ts_reused _ _ _ _ fs _ _ _ i f prev m hf (hnone (i + 1) f (by omega) hf)
      hprev hm]
    exact ih prev (fun j g h1 h2 => hnone j g (by omega) h2) hprev

/-- C14. Timestamp coalescing: let a well-formed bundle stand anywhere in a
segment of well-formed bundles and let the visitor not stop. A message whose
frame stores a timestamp (little-endian, 64 bits, `UseLastSpecifiedTS` clear)
is handed over with that timestamp; a message whose frame sets
`UseLastSpecifiedTS` is handed over with the timestamp of the nearest earlier
frame of the same bundle that stores one, and with 0 when no earlier frame of
the bundle stores one. -/
theorem scan_vma_timestamps {σ : Type} (l : σ → msg → Bool × σ)
    (UnCompress : List Nat → Option (List Nat)) (pre post : List bundle) (b : bundle)
    (running : Nat) (trailing : List Nat) (s : σ)
    (hpre : ∀ x ∈ pre, bundle_ok UnCompress x) (hb : bundle_ok UnCompress b)
    (hpost : ∀ x ∈ post, bundle_ok UnCompress x)
    (hl : ∀ st m, (l st m).1 = true) :
    ∃ (ms : List msg) (s1 : σ),
      scan_vma l UnCompress (encode_segment (pre ++ b :: post) ++ trailing)
        (encode_segment (pre ++ b :: post)).length running s
        = .returned true
            (segment_msgs running pre ++ ms ++
              segment_msgs (bundle_end_seq (segment_end_seq running pre) b) post) s1 ∧
      ms.length = b.frames.length ∧
      ∀ (i : Nat) (f : frame), b.frames[i]? = some f → ∃ m : msg, ms[i]? = some m ∧
        (∀ t, f.ts = some t → m.ts = t) ∧
        (f.ts = none →
          (∀ (j : Nat) (g : frame) (t : Nat), j < i → b.frames[j]? = some g → g.ts = some t →
            (∀ (j2 : Nat) (g2 : frame), j < j2 → j2 < i → b.frames[j2]? = some g2 → g2.ts = none) → m.ts = t) ∧
          ((∀ (j : Nat) (g : frame), j < i → b.frames[j]? = some g → g.ts = none) → m.ts = 0)) := by
  have hok : ∀ x ∈ pre ++ b :: post, bundle_ok UnCompress x := by
    intro x hx
    rcases List.mem_append.mp hx with h | h
    · exact hpre x h
    · rcases List.mem_cons.mp h with rfl | h
      · exact hb
      · exact hpost x h
  have hscan := scan_vma_encoded l UnCompress (pre ++ b :: post) trailing running s hok
  rw [expected_scan_result_accepting l hl, segment_msgs_append] at hscan
  simp only [segment_msgs, ← List.append_assoc] at hscan
  have hlen : (bundle_msgs (segment_end_seq running pre) b).length = b.frames.length := by
    simp [bundle_msgs, frames_msgs_length]
  refine ⟨bundle_msgs (segment_end_seq running pre) b, _, hscan, hlen, ?_⟩
  intro i f hf
  have hi : i < b.frames.length := (List.getElem?_eq_some_iff.mp hf).1
  obtain ⟨m, hm⟩ := exists_getElem? (bundle_msgs (segment_end_seq running pre) b) i (by omega)
  refine ⟨m, hm, ?_, ?_⟩
  · intro t ht
    exact frames_msgs_ts_own _ _ _ _ b.frames _ _ _ i f m t hf ht hm
  · intro hnone
    refine ⟨?_, ?_⟩
    · intro j g t hj hg ht hbetween
      obtain ⟨d, rfl⟩ : ∃ d, i = j + d := ⟨i - j, by omega⟩
      refine frames_msgs_ts_nearest _ _ _ _ b.frames _ _ _ j g t hg ht d m ?_ hm
      intro j2 g2 h1 h2 h3
      by_cases he : j2 = j + d
      · subst he
        rw [hf] at h3
        simp only [Option.some.injEq] at h3
        rw [← h3]
        exact hnone
      · exact hbetween j2 g2 h1 (by omega) h3
    · intro hearlier
      refine frames_msgs_ts_initial _ _ _ _ b.frames _ _ _ i m ?_ hm
      intro j g h1 h2
      by_cases he : j = i
      · subst he
        rw [hf] at h2
        simp only [Option.some.injEq] at h2
        rw [← h2]
        exact hnone
      · exact hearlier j g (by omega) h2

/-- Witness of C14: the sparse example bundle, in which only the first message
stores a timestamp, after a dense bundle. -/
theorem scan_vma_timestamps_witness :
    ∃ (ms : List msg) (s1 : Unit),
      scan_vma accept_all (fun _ => none)
        (encode_segment ([plain_bundle example_bundles.flatten] ++
          example_sparse_bundle :: []) ++ [])
        (encode_segment ([plain_bundle example_bundles.flatten] ++
          example_sparse_bundle :: [])).length 40 ()
        = .returned true
            (segment_msgs 40 [plain_bundle example_bundles.flatten] ++ ms ++
              segment_msgs (bundle_end_seq
                (segment_end_seq 40 [plain_bundle example_bundles.flatten])
                example_sparse_bundle) []) s1 ∧
      ms.length = example_sparse_bundle.frames.length ∧
      ∀ (i : Nat) (f : frame), example_sparse_bundle.frames[i]? = some f → ∃ m : msg, ms[i]? = some m ∧
        (∀ t, f.ts = some t → m.ts = t) ∧
        (f.ts = none →
          (∀ (j : Nat) (g : frame) (t : Nat), j < i → example_sparse_bundle.frames[j]? = some g → g.ts = some t →
            (∀ (j2 : Nat) (g2 : frame), j < j2 → j2 < i → example_sparse_bundle.frames[j2]? = some g2 →
              g2.ts = none) → m.ts = t) ∧
          ((∀ (j : Nat) (g : frame), j < i → example_sparse_bundle.frames[j]? = some g → g.ts = none) →
            m.ts = 0)) :=
  scan_vma_timestamps accept_all (fun _ => none)
    [plain_bundle example_bundles.flatten] [] example_sparse_bundle 40 [] ()
    (by decide) (by decide) (by decide) (fun _ _ => rfl)



/-! ## Duration and size texts: the digit loop -/

theorem decimal_fold_congr (M : Nat) (ds : List Char) :
    ∀ a b : Nat, a % M = b % M →
      (ds.foldl (fun n c => n * 10 + (c.toNat - 48)) a) % M =
        (ds.foldl (fun n c => n * 10 + (c.toNat - 48)) b) % M := by
  induction ds with
  | nil => intro a b h; simpa using h
  | cons c cs ih =>
    intro a b h
    simp only [List.foldl_cons]
    apply ih
    rw [Nat.add_mod, Nat.mul_mod, h, ← Nat.mul_mod, ← Nat.add_mod]

theorem decimal_fold_mod (M : Nat) (ds : List Char) (hne : ds ≠ []) :
    ∀ a : Nat, ds.foldl (fun n c => (n * 10 + (c.toNat - 48)) % M) a =
      (ds.foldl (fun n c => n * 10 + (c.toNat - 48)) a) % M := by
  induction ds with
  | nil => exact absurd rfl hne
  | cons c cs ih =>
    intro a
    cases cs with
    | nil => simp
    | cons c2 cs2 =>
      rw [List.foldl_cons, ih (by simp), List.foldl_cons (b := a)]
      exact decimal_fold_congr M _ _ _ (Nat.mod_mod _ _)

theorem scan_digits_append (M : Nat) (ds rest : List Char)
    (hds : ∀ c ∈ ds, c.isDigit = true) (hrest : ∀ c ∈ rest.head?, c.isDigit = false) :
    ∀ n i : Nat, scan_digits M (ds ++ rest) n i =
      (ds.foldl (fun n c => (n * 10 + (c.toNat - 48)) % M) n, i + ds.length, rest) := by
  induction ds with
  | nil =>
    intro n i
    cases rest with
    | nil => simp [scan_digits]
    | cons c cs =>
      have hc : c.isDigit = false := hrest c (by simp)
      simp [scan_digits, hc]
  | cons c cs ih =>
    intro n i
    have hc : c.isDigit = true := hds c (by simp)
    have hstep : scan_digits M (c :: cs ++ rest) n i =
        scan_digits M (cs ++ rest) ((n * 10 + (c.toNat - 48)) % M) (i + 1) := by
      simp only [List.cons_append, scan_digits, hc, if_true]
      rfl
    rw [hstep, ih (fun x hx => hds x (by simp [hx]))]
    simp only [List.foldl_cons, List.length_cons, Prod.mk.injEq, true_and, and_true]
    omega

/-- What the digit loop leaves is a suffix of the text behind a run of digits,
which is not followed by a digit. -/
theorem scan_digits_split (M : Nat) (inp : List Char) :
    ∀ n i : Nat, ∃ ds : List Char, inp = ds ++ (scan_digits M inp n i).2.2 ∧
      (∀ c ∈ ds, c.isDigit = true) ∧ (scan_digits M inp n i).2.1 = i + ds.length ∧
      ∀ c ∈ (scan_digits M inp n i).2.2.head?, c.isDigit = false := by
  induction inp with
  | nil => intro n i; exact ⟨[], by simp [scan_digits]⟩
  | cons c cs ih =>
    intro n i
    by_cases hc : c.isDigit = true
    · obtain ⟨ds, h1, h2, h3, h4⟩ := ih ((n * 10 + (c.toNat - 48)) % M) (i + 1)
      refine ⟨c :: ds, ?_, ?_, ?_, ?_⟩
      · simp only [scan_digits, hc, if_true, List.cons_append]
        rw [← h1]
      · intro x hx
        rcases List.mem_cons.mp hx with rfl | hx
        · exact hc
        · exact h2 x hx
      · simp only [scan_digits, hc, if_true, List.length_cons]
        omega
      · simpa only [scan_digits, hc, if_true] using h4
    · refine ⟨[], ?_, ?_, ?_, ?_⟩
      · simp [scan_digits, hc]
      · simp
      · simp [scan_digits, hc]
      · simp only [scan_digits, hc]
        simpa using hc

/-! ## Duration and size texts: unit names -/

theorem StripPrefix_split (s : List Char) :
    ∀ inp rest : List Char, StripPrefix s inp = some rest → inp = s ++ rest := by
  induction s with
  | nil => intro inp rest h; simpa [StripPrefix] using h
  | cons a s ih =>
    intro inp rest h
    cases inp with
    | nil => simp [StripPrefix] at h
    | cons b inp =>
      simp only [StripPrefix] at h
      split_ifs at h with hab
      rw [hab, ih inp rest h]
      rfl

theorem StripPrefix_append (s : List Char) (c : Char) (t : List Char) (hs : ∀ x ∈ s, x ≠ c) :
    ∀ r : List Char, StripPrefix s (r ++ c :: t) = (StripPrefix s r).map (fun x => x ++ c :: t) := by
  induction s with
  | nil => intro r; simp [StripPrefix]
  | cons a s ih =>
    intro r
    cases r with
    | nil =>
      have hac : a ≠ c := hs a (by simp)
      simp [StripPrefix, hac]
    | cons b r =>
      simp only [List.cons_append, StripPrefix]
      split_ifs
      · exact ih (fun x hx => hs x (by simp [hx])) r
      · rfl

theorem strip_any_split (names : List String) (inp rest : List Char)
    (h : strip_any names inp = some rest) : ∃ s ∈ names, inp = s.toList ++ rest := by
  induction names with
  | nil => simp [strip_any] at h
  | cons u us ih =>
    simp only [strip_any] at h
    cases hu : StripPrefix u.toList inp with
    | some r =>
      rw [hu] at h
      simp only [Option.some.injEq] at h
      subst h
      exact ⟨u, by simp, StripPrefix_split _ _ _ hu⟩
    | none =>
      rw [hu] at h
      obtain ⟨s, hs, hsplit⟩ := ih h
      exact ⟨s, by simp [hs], hsplit⟩

theorem strip_any_append (names : List String) (c : Char) (t : List Char)
    (hnames : ∀ s ∈ names, ∀ x ∈ s.toList, x ≠ c) (r : List Char) :
    strip_any names (r ++ c :: t) = (strip_any names r).map (fun x => x ++ c :: t) := by
  induction names with
  | nil => simp [strip_any]
  | cons u us ih =>
    simp only [strip_any]
    rw [StripPrefix_append u.toList c t (hnames u (by simp)) r]
    cases StripPrefix u.toList r with
    | some x => simp
    | none =>
      simp only [Option.map_none']
      exact ih (fun s hs => hnames s (by simp [hs]))

/-- What the unit chain removes is one of its names, or nothing. -/
theorem unit_scale_split (P : Char → Prop) (units : List (List String × Nat))
    (hunits : units_all P units) (inp : List Char) :
    ∃ name : List Char, inp = name ++ (unit_scale units inp).2 ∧ ∀ x ∈ name, P x := by
  induction units with
  | nil => exact ⟨[], by simp [unit_scale]⟩
  | cons row rows ih =>
    obtain ⟨names, scale⟩ := row
    simp only [unit_scale]
    cases hs : strip_any names inp with
    | some rest =>
      obtain ⟨s, hmem, hsplit⟩ := strip_any_split names inp rest hs
      exact ⟨s.toList, hsplit, hunits (names, scale) (by simp) s hmem⟩
    | none =>
      exact ih (fun row hrow => hunits row (by simp [hrow]))

/-- A character that occurs in no unit name can follow the unit without
changing which unit is read. -/
theorem unit_scale_append (units : List (List String × Nat)) (c : Char) (t : List Char)
    (hunits : units_all (fun x => x ≠ c) units) (r : List Char) :
    unit_scale units (r ++ c :: t) =
      ((unit_scale units r).1, (unit_scale units r).2 ++ c :: t) := by
  induction units with
  | nil => simp [unit_scale]
  | cons row rows ih =>
    obtain ⟨names, scale⟩ := row
    simp only [unit_scale]
    rw [strip_any_append names c t (hunits (names, scale) (by simp)) r]
    cases strip_any names r with
    | some x => simp
    | none =>
      simp only [Option.map_none']
      exact ih (fun row hrow => hunits row (by simp [hrow]))

theorem units_all_mono (P Q : Char → Prop) (units : List (List String × Nat))
    (h : ∀ x, P x → Q x) (hP : units_all P units) : units_all Q units :=
  fun row hrow s hs x hx => h x (hP row hrow s hs x hx)

theorem duration_units_letters :
    units_all (fun x => ¬ is_boundary x ∧ x.isLower = true) duration_units := by
  decide

theorem size_units_letters :
    units_all (fun x => ¬ is_boundary x ∧ x.isLower = true) size_units := by
  decide


/-! ## Duration and size texts: one pass of the loop -/

theorem strip_optional_comma (inp : List Char) :
    strip_optional "," inp = match inp with
      | [] => []
      | x :: xs => if x = ',' then xs else x :: xs := by
  cases inp with
  | nil => rfl
  | cons x xs =>
    show (StripPrefix [','] (x :: xs)).getD (x :: xs) = _
    simp only [StripPrefix]
    by_cases h : x = ','
    · subst h
      rfl
    · have h2 : ¬ ',' = x := fun e => h e.symm
      simp [h, h2]

theorem strip_optional_plus (inp : List Char) :
    strip_optional "+" inp = match inp with
      | [] => []
      | x :: xs => if x = '+' then xs else x :: xs := by
  cases inp with
  | nil => rfl
  | cons x xs =>
    show (StripPrefix ['+'] (x :: xs)).getD (x :: xs) = _
    simp only [StripPrefix]
    by_cases h : x = '+'
    · subst h
      rfl
    · have h2 : ¬ '+' = x := fun e => h e.symm
      simp [h, h2]

/-- The two optional separators: what is removed is nothing, `,`, `+` or
`,+`. -/
theorem strip_separators_split (inp : List Char) :
    ∃ seps : List Char, inp = seps ++ strip_optional "+" (strip_optional "," inp) ∧
      (seps = [] ∨ seps = [','] ∨ seps = ['+'] ∨ seps = [',', '+']) := by
  rw [strip_optional_comma]
  cases inp with
  | nil => exact ⟨[], rfl, Or.inl rfl⟩
  | cons x xs =>
    by_cases hx : x = ','
    · subst hx
      simp only [if_true]
      rw [strip_optional_plus]
      cases xs with
      | nil => exact ⟨[','], rfl, Or.inr (Or.inl rfl)⟩
      | cons y ys =>
        by_cases hy : y = '+'
        · subst hy
          exact ⟨[',', '+'], by simp, Or.inr (Or.inr (Or.inr rfl))⟩
        · exact ⟨[','], by simp [hy], Or.inr (Or.inl rfl)⟩
    · simp only [hx, if_false]
      rw [strip_optional_plus]
      by_cases hp : x = '+'
      · subst hp
        exact ⟨['+'], by simp, Or.inr (Or.inr (Or.inl rfl))⟩
      · exact ⟨[], by simp [hp], Or.inl rfl⟩

/-- A text that begins with a number: the number is read modulo `M` and the
unit chain is applied to what follows it. -/
theorem quantity_step_digits (M : Nat) (units : List (List String × Nat)) (ds rest : List Char)
    (hds : is_digits ds) (hrest : ∀ c ∈ rest.head?, c.isDigit = false) :
    quantity_step M units (ds ++ rest) =
      some ((decimal_value ds % M) * (unit_scale units rest).1 % M,
        strip_optional "+" (strip_optional "," (unit_scale units rest).2)) := by
  unfold quantity_step
  simp only [scan_digits_append M ds rest hds.2 hrest, decimal_fold_mod M ds hds.1]
  have hlen : 0 + ds.length ≠ 0 := by
    have := List.length_pos.mpr hds.1
    omega
  simp only [hlen, if_false]
  rfl

/-- One pass removes a non-empty piece from the front of the text, made of
digits, the letters of a unit name and separators. -/
theorem quantity_step_split (P : Char → Prop) (M : Nat) (units : List (List String × Nat))
    (hdigit : ∀ x : Char, x.isDigit = true → P x) (hunits : units_all P units)
    (hcomma : P ',') (hplus : P '+') (inp : List Char) (v : Nat) (rest : List Char)
    (h : quantity_step M units inp = some (v, rest)) :
    ∃ pre : List Char, inp = pre ++ rest ∧ pre ≠ [] ∧ ∀ x ∈ pre, P x := by
  unfold quantity_step at h
  obtain ⟨ds, h1, h2, h3, _⟩ := scan_digits_split M inp 0 0
  simp only at h
  split_ifs at h with hi
  simp only [Option.some.injEq, Prod.mk.injEq] at h
  obtain ⟨name, hn1, hn2⟩ := unit_scale_split P units hunits (scan_digits M inp 0 0).2.2
  obtain ⟨seps, hs1, hs2⟩ := strip_separators_split (unit_scale units (scan_digits M inp 0 0).2.2).2
  rw [h.2] at hs1
  refine ⟨ds ++ (name ++ seps), ?_, ?_, ?_⟩
  · rw [List.append_assoc, List.append_assoc, ← hs1, ← hn1, ← h1]
  · intro hnil
    have : ds = [] := (List.append_eq_nil.mp hnil).1
    rw [this] at h3
    simp at h3
    exact hi h3
  · intro x hx
    rcases List.mem_append.mp hx with hx | hx
    · exact hdigit x (h2 x hx)
    · rcases List.mem_append.mp hx with hx | hx
      · exact hn2 x hx
      · rcases hs2 with rfl | rfl | rfl | rfl
        · simp at hx
        · simp at hx; rw [hx]; exact hcomma
        · simp at hx; rw [hx]; exact hplus
        · simp at hx
          rcases hx with rfl | rfl
          · exact hcomma
          · exact hplus

theorem quantity_step_shorter (M : Nat) (units : List (List String × Nat)) (inp : List Char)
    (v : Nat) (rest : List Char) (h : quantity_step M units inp = some (v, rest)) :
    rest.length < inp.length := by
  obtain ⟨pre, h1, h2, _⟩ := quantity_step_split (fun _ => True) M units (fun _ _ => trivial)
    (fun _ _ _ _ _ _ => trivial) trivial trivial inp v rest h
  have := List.length_pos.mpr h2
  rw [h1, List.length_append]
  omega

/-! ## Duration and size texts: the loop -/

/-- With a budget above the length of the text the loop never runs out of
budget: the functions `parse_duration` and `parse_size` are total. -/
theorem quantity_loop_budget (M : Nat) (units : List (List String × Nat)) :
    ∀ (fuel : Nat) (inp : List Char) (sum : Nat), inp.length < fuel →
      quantity_loop M units fuel inp sum ≠ .thrown .out_of_fuel := by
  intro fuel
  induction fuel with
  | zero => intro inp sum h; omega
  | succ fuel ih =>
    intro inp sum h
    unfold quantity_loop
    cases hstep : quantity_step M units inp with
    | none => simp
    | some r =>
      obtain ⟨v, rest⟩ := r
      simp only
      split_ifs
      · simp
      · have := quantity_step_shorter M units inp v rest hstep
        exact ih rest _ (by omega)

/-- A result reached within some budget is reached within every larger one. -/
theorem quantity_loop_more_fuel (M : Nat) (units : List (List String × Nat)) :
    ∀ (fuel extra : Nat) (inp : List Char) (sum : Nat),
      quantity_loop M units fuel inp sum ≠ .thrown .out_of_fuel →
      quantity_loop M units (fuel + extra) inp sum = quantity_loop M units fuel inp sum := by
  intro fuel
  induction fuel with
  | zero => intro extra inp sum h; exact absurd rfl h
  | succ fuel ih =>
    intro extra inp sum h
    rw [show fuel + 1 + extra = (fuel + extra) + 1 by omega]
    unfold quantity_loop at h ⊢
    cases hstep : quantity_step M units inp with
    | none => rfl
    | some r =>
      obtain ⟨v, rest⟩ := r
      rw [hstep] at h
      simp only at h ⊢
      split_ifs with hr
      · rfl
      · rw [if_neg hr] at h
        exact ih extra rest _ h

theorem mod_accumulate (M s v w : Nat) :
    ((s + v) % M + w) % M = (s + ((0 + v) % M + w) % M) % M := by
  have h1 : ((s + v) % M + w) % M = (s + v + w) % M := Nat.mod_add_mod _ _ _
  have h2 : (s + ((0 + v) % M + w) % M) % M = (s + v + w) % M := by
    rw [Nat.add_mod_mod, Nat.zero_add, show s + (v % M + w) = v % M + (s + w) by omega,
      Nat.mod_add_mod]
    congr 1
    omega
  rw [h1, h2]

/-- The sum so far is only added to: the loop started with `sum` yields `sum`
plus what it yields started with 0. -/
theorem quantity_loop_sum (M : Nat) (units : List (List String × Nat)) :
    ∀ (fuel : Nat) (inp : List Char) (sum : Nat),
      quantity_loop M units fuel inp sum =
        match quantity_loop M units fuel inp 0 with
        | .value v => .value ((sum + v) % M)
        | .thrown e => .thrown e := by
  intro fuel
  induction fuel with
  | zero => intro inp sum; rfl
  | succ fuel ih =>
    intro inp sum
    unfold quantity_loop
    cases hstep : quantity_step M units inp with
    | none => rfl
    | some r =>
      obtain ⟨v, rest⟩ := r
      simp only
      split_ifs with hr
      · simp only [Nat.zero_add, Nat.add_mod_mod]
      · rw [ih rest ((sum + v) % M), ih rest ((0 + v) % M)]
        cases quantity_loop M units fuel rest 0 with
        | value w => simp only [mod_accumulate M sum v w]
        | thrown e => rfl


/-- A text made of one number and one unit name of the chain. -/
theorem quantity_loop_single (M : Nat) (units : List (List String × Nat)) (fuel : Nat)
    (ds u : List Char) (scale sum : Nat) (hds : is_digits ds)
    (hu : unit_scale units u = (scale, []))
    (hhead : ∀ c ∈ u.head?, c.isDigit = false) :
    quantity_loop M units (fuel + 1) (ds ++ u) sum =
      .value ((sum + decimal_value ds % M * scale % M) % M) := by
  unfold quantity_loop
  rw [quantity_step_digits M units ds u hds hhead, hu]
  rfl

/-- A text made of one number and letters that the unit chain does not know:
the letters stay in the text and the second pass finds no digit. -/
theorem quantity_loop_unknown_unit (M : Nat) (units : List (List String × Nat)) (fuel : Nat)
    (ds : List Char) (c : Char) (u : List Char) (sum : Nat) (hds : is_digits ds)
    (hu : unit_scale units (c :: u) = (1, c :: u))
    (hc : ¬ is_boundary c) :
    quantity_loop M units (fuel + 2) (ds ++ c :: u) sum = .thrown .data_error := by
  have hdigit : c.isDigit = false := by
    cases h : c.isDigit with
    | false => rfl
    | true => exact absurd (Or.inl h) hc
  have hcomma : c ≠ ',' := fun h => hc (Or.inr (Or.inl h))
  have hplus : c ≠ '+' := fun h => hc (Or.inr (Or.inr h))
  unfold quantity_loop
  rw [quantity_step_digits M units ds (c :: u) hds (by simpa using hdigit), hu]
  simp only [strip_optional_comma, strip_optional_plus, hcomma, hplus, if_false]
  simp only [reduceCtorEq, if_false]
  unfold quantity_loop
  have hstep : quantity_step M units (c :: u) = none := by
    simp [quantity_step, scan_digits, hdigit]
  rw [hstep]

/-- C15. Duration units: for every non-empty decimal digit string `n` and
every unit `u` with scale `scale` in the table (1 for `s`, `sec`, `secs`,
`second`, `seconds` and no unit; 3600 for `h`, `hour`, `hours`; 86400 for `d`,
`day`, `days`; 604800 for `w`, `week`, `weeks`; 365 * 86400 for `mon`, `month`,
`months` and for `y`, `year`, `years`), `parse_duration (n ++ u)` returns
`value n * scale` whenever that product is below `2 ^ 32`. -/
theorem parse_duration_units (n : List Char) (u : String) (scale : Nat) (hn : is_digits n)
    (hu : (u, scale) ∈ duration_scale_table) (hfit : decimal_value n * scale < 2 ^ 32) :
    parse_duration (n ++ u.toList) = .value (decimal_value n * scale) := by
  have key : ∀ p ∈ duration_scale_table,
      unit_scale duration_units p.1.toList = (p.2, []) ∧ 0 < p.2 ∧
        ∀ c ∈ p.1.toList.head?, c.isDigit = false := by decide
  obtain ⟨h1, h2, h3⟩ := key (u, scale) hu
  unfold parse_duration
  rw [quantity_loop_single (2 ^ 32) duration_units _ n u.toList scale 0 hn h1 h3]
  have hle : decimal_value n ≤ decimal_value n * scale := Nat.le_mul_of_pos_right _ h2
  rw [Nat.zero_add, Nat.mod_mod, Nat.mod_eq_of_lt (lt_of_le_of_lt hle hfit),
    Nat.mod_eq_of_lt hfit]

/-- Witness of C15: twelve months are twelve years. -/
theorem parse_duration_units_witness :
    parse_duration ("12".toList ++ "mon".toList) = .value (decimal_value "12".toList * (365 * 86400)) ∧
    parse_duration ("12".toList ++ "y".toList) = .value 378432000 :=
  ⟨parse_duration_units "12".toList "mon" (365 * 86400) (by decide) (by decide) (by decide),
   parse_duration_units "12".toList "y" (365 * 86400) (by decide) (by decide) (by decide)⟩

/-- C16, as stated, fails: `m` is not a unit name of `parse_duration`; on `5m`
the function throws `Switch::data_error`. -/
theorem parse_duration_bare_m_counterexample :
    is_digits "5".toList ∧ 60 * decimal_value "5".toList < 2 ^ 32 ∧
    parse_duration ("5".toList ++ "m".toList) = .thrown .data_error := by
  decide

/-- C16, amended. Minute units: for every non-empty decimal digit string `n`
and each of the unit names `min`, `mins`, `minute` and `minutes`,
`parse_duration (n ++ unit)` returns `60 * value n` when that is below
`2 ^ 32`; the name `m` is not a unit, and `parse_duration (n ++ "m")` fails
with a data error. -/
theorem parse_duration_minutes (n : List Char) (hn : is_digits n) :
    (∀ u ∈ minute_names, 60 * decimal_value n < 2 ^ 32 →
      parse_duration (n ++ u.toList) = .value (60 * decimal_value n)) ∧
    parse_duration (n ++ "m".toList) = .thrown .data_error := by
  refine ⟨fun u hu hfit => ?_, ?_⟩
  · have key : ∀ p ∈ minute_names,
        unit_scale duration_units p.toList = (60, []) ∧
          ∀ c ∈ p.toList.head?, c.isDigit = false := by decide
    obtain ⟨h1, h3⟩ := key u hu
    unfold parse_duration
    rw [quantity_loop_single (2 ^ 32) duration_units _ n u.toList 60 0 hn h1 h3]
    have hle : decimal_value n ≤ 60 * decimal_value n := Nat.le_mul_of_pos_left _ (by omega)
    rw [Nat.zero_add, Nat.mod_mod, Nat.mod_eq_of_lt (lt_of_le_of_lt hle hfit),
      Nat.mul_comm, Nat.mod_eq_of_lt hfit]
  · unfold parse_duration
    have hlen : (n ++ "m".toList).length + 1 = n.length + 2 := by
      rw [List.length_append]
      rfl
    rw [hlen]
    exact quantity_loop_unknown_unit (2 ^ 32) duration_units n.length n 'm' [] 0 hn
      (by decide) (by decide)

/-- Witness of the amended C16: `15min` is 900 seconds, `15m` is refused. -/
theorem parse_duration_minutes_witness :
    parse_duration ("15".toList ++ "min".toList) = .value (60 * decimal_value "15".toList) ∧
    parse_duration ("15".toList ++ "m".toList) = .thrown .data_error :=
  ⟨(parse_duration_minutes "15".toList (by decide)).1 "min" (by decide) (by decide),
   (parse_duration_minutes "15".toList (by decide)).2⟩


/-! ## Duration and size texts: joined components -/

theorem scan_digits_append_boundary (M : Nat) (c : Char) (t : List Char)
    (hc : c.isDigit = false) (a : List Char) :
    ∀ n i : Nat, scan_digits M (a ++ c :: t) n i =
      ((scan_digits M a n i).1, (scan_digits M a n i).2.1,
        (scan_digits M a n i).2.2 ++ c :: t) := by
  induction a with
  | nil => intro n i; simp [scan_digits, hc]
  | cons x xs ih =>
    intro n i
    by_cases hx : x.isDigit = true
    · have h1 : scan_digits M (x :: xs ++ c :: t) n i =
          scan_digits M (xs ++ c :: t) ((n * 10 + (x.toNat - 48)) % M) (i + 1) := by
        simp only [List.cons_append, scan_digits, hx, if_true]
        rfl
      have h2 : scan_digits M (x :: xs) n i =
          scan_digits M xs ((n * 10 + (x.toNat - 48)) % M) (i + 1) := by
        simp only [scan_digits, hx, if_true]
      rw [h1, h2, ih]
    · simp [scan_digits, hx]

theorem quantity_step_head (M : Nat) (units : List (List String × Nat)) (inp : List Char)
    (r : Nat × List Char) (h : quantity_step M units inp = some r) :
    ∃ d ds, inp = d :: ds ∧ d.isDigit = true := by
  cases inp with
  | nil => simp [quantity_step, scan_digits] at h
  | cons d ds =>
    by_cases hd : d.isDigit = true
    · exact ⟨d, ds, rfl, hd⟩
    · simp [quantity_step, scan_digits, hd] at h

/-- The two optional separators in front of a text that goes on behind a
separator `c`. -/
theorem strip_separators_append (rest1 : List Char) (c : Char) (t : List Char)
    (hne : strip_optional "+" (strip_optional "," rest1) ≠ []) :
    strip_optional "+" (strip_optional "," (rest1 ++ c :: t)) =
      strip_optional "+" (strip_optional "," rest1) ++ c :: t := by
  cases rest1 with
  | nil => exact absurd rfl hne
  | cons x xs =>
    by_cases hx : x = ','
    · have e1 : strip_optional "," (x :: xs) = xs := by
        rw [strip_optional_comma]; simp [hx]
      have e2 : strip_optional "," (x :: xs ++ c :: t) = xs ++ c :: t := by
        rw [strip_optional_comma]; simp [hx]
      rw [e1] at hne ⊢
      rw [e2]
      cases xs with
      | nil => exact absurd rfl hne
      | cons y ys =>
        rw [strip_optional_plus, strip_optional_plus]
        by_cases hy : y = '+'
        · simp [hy]
        · simp [hy]
    · have e1 : strip_optional "," (x :: xs) = x :: xs := by
        rw [strip_optional_comma]; simp [hx]
      have e2 : strip_optional "," (x :: xs ++ c :: t) = x :: xs ++ c :: t := by
        rw [strip_optional_comma]; simp [hx]
      rw [e1] at hne ⊢
      rw [e2, strip_optional_plus, strip_optional_plus]
      by_cases hp : x = '+'
      · simp [hp]
      · simp [hp]

theorem strip_separators_joiner (c : Char) (t : List Char) (hc : c = ',' ∨ c = '+')
    (ht : ∀ x ∈ t.head?, x ≠ '+') :
    strip_optional "+" (strip_optional "," (c :: t)) = t := by
  rw [strip_optional_comma]
  rcases hc with rfl | rfl
  · simp only [if_true]
    rw [strip_optional_plus]
    cases t with
    | nil => rfl
    | cons y ys =>
      have : y ≠ '+' := ht y (by simp)
      simp [this]
  · rw [strip_optional_plus]
    simp

theorem getLast?_of_append_seps (pre seps : List Char)
    (hs : seps = [','] ∨ seps = ['+'] ∨ seps = [',', '+']) :
    (pre ++ seps).getLast? = some ',' ∨ (pre ++ seps).getLast? = some '+' := by
  rcases hs with rfl | rfl | rfl
  · left; simp
  · right; simp
  · right
    rw [show pre ++ [',', '+'] = (pre ++ [',']) ++ ['+'] by simp]
    simp

/-- One pass over a text that is followed by a separator and more text reads
the same number and unit as on the text alone. -/
theorem quantity_step_joined (M : Nat) (units : List (List String × Nat))
    (hunits : units_all (fun x => ¬ is_boundary x) units)
    (a : List Char) (v : Nat) (r : List Char) (c : Char) (t : List Char)
    (hc : c = ',' ∨ c = '+') (h : quantity_step M units a = some (v, r)) :
    (r ≠ [] → quantity_step M units (a ++ c :: t) = some (v, r ++ c :: t)) ∧
    (r = [] → a.getLast? ≠ some ',' → a.getLast? ≠ some '+' → (∀ x ∈ t.head?, x ≠ '+') →
      quantity_step M units (a ++ c :: t) = some (v, t)) := by
  have hcd : c.isDigit = false := by
    rcases hc with rfl | rfl <;> rfl
  have hcb : is_boundary c := Or.inr hc
  have hunits2 : units_all (fun x => x ≠ c) units :=
    units_all_mono _ _ units (fun x hx hxc => hx (hxc ▸ hcb)) hunits
  obtain ⟨ds, hd1, _, _, _⟩ := scan_digits_split M a 0 0
  obtain ⟨name, hn1, _⟩ := unit_scale_split (fun _ => True) units (fun _ _ _ _ _ _ => trivial)
    (scan_digits M a 0 0).2.2
  obtain ⟨seps, hs1, hs2⟩ :=
    strip_separators_split (unit_scale units (scan_digits M a 0 0).2.2).2
  unfold quantity_step at h ⊢
  simp only at h ⊢
  rw [scan_digits_append_boundary M c t hcd a 0 0]
  simp only
  split_ifs at h ⊢ with hi
  simp only [Option.some.injEq, Prod.mk.injEq] at h
  obtain ⟨hv, hr⟩ := h
  rw [unit_scale_append units c t hunits2]
  simp only
  rw [hr] at hs1
  refine ⟨fun hne => ?_, fun hnil hl1 hl2 ht => ?_⟩
  · rw [strip_separators_append _ c t (by rw [hr]; exact hne), hr, hv]
  · subst hnil
    rw [List.append_nil] at hs1
    have hseps : seps = [] := by
      rcases hs2 with h0 | h0
      · exact h0
      · exfalso
        have ha : a = (ds ++ name) ++ seps := by
          rw [List.append_assoc, ← hs1, ← hn1, ← hd1]
        rcases getLast?_of_append_seps (ds ++ name) seps h0 with h1 | h1
        · exact hl1 (ha ▸ h1)
        · exact hl2 (ha ▸ h1)
    rw [hseps] at hs1
    rw [hs1, List.nil_append, strip_separators_joiner c t hc ht, hv]

/-- The loop on a text followed by a separator and a second text: after the
first text it goes on with the second one, from the sum reached so far. -/
theorem quantity_loop_joined (M : Nat) (units : List (List String × Nat))
    (hunits : units_all (fun x => ¬ is_boundary x) units) (c : Char) (b : List Char)
    (hc : c = ',' ∨ c = '+') (hb0 : b ≠ []) (hb : ∀ x ∈ b.head?, x ≠ '+') (g : Nat) :
    ∀ (fuel : Nat) (a : List Char) (sum va : Nat),
      quantity_loop M units fuel a sum = .value va →
      a.getLast? ≠ some ',' → a.getLast? ≠ some '+' →
      quantity_loop M units g b va ≠ .thrown .out_of_fuel →
      quantity_loop M units (fuel + g) (a ++ c :: b) sum = quantity_loop M units g b va := by
  intro fuel
  induction fuel with
  | zero => intro a sum va h; simp [quantity_loop] at h
  | succ fuel ih =>
    intro a sum va h hl1 hl2 hg
    rw [show fuel + 1 + g = (fuel + g) + 1 by omega]
    unfold quantity_loop at h
    conv_lhs => unfold quantity_loop
    cases hstep : quantity_step M units a with
    | none => rw [hstep] at h; simp at h
    | some p =>
      obtain ⟨v, r⟩ := p
      rw [hstep] at h
      simp only at h
      obtain ⟨h1, h2⟩ := quantity_step_joined M units hunits a v r c b hc hstep
      by_cases hr : r = []
      · rw [if_pos hr] at h
        simp only [parsed.value.injEq] at h
        rw [h2 hr hl1 hl2 hb]
        simp only [hb0, if_false]
        rw [h, Nat.add_comm fuel g]
        exact quantity_loop_more_fuel M units g fuel b va hg
      · rw [if_neg hr] at h
        rw [h1 hr]
        have hne : r ++ c :: b ≠ [] := by simp
        simp only [hne, if_false]
        obtain ⟨pre, hpre, _, _⟩ := quantity_step_split (fun _ => True) M units
          (fun _ _ => trivial) (fun _ _ _ _ _ _ => trivial) trivial trivial a v r hstep
        have hlast : a.getLast? = r.getLast? := by
          rw [hpre]
          exact List.getLast?_append_of_ne_nil pre hr
        exact ih r _ va h (hlast ▸ hl1) (hlast ▸ hl2) hg

/-- Two texts joined by `,` or `+`: the results add up. -/
theorem quantity_joined (M : Nat) (units : List (List String × Nat))
    (hunits : units_all (fun x => ¬ is_boundary x) units) (c : Char) (a b : List Char)
    (va vb : Nat) (hc : c = ',' ∨ c = '+')
    (ha : quantity_loop M units (a.length + 1) a 0 = .value va)
    (hb : quantity_loop M units (b.length + 1) b 0 = .value vb)
    (hl1 : a.getLast? ≠ some ',') (hl2 : a.getLast? ≠ some '+') :
    quantity_loop M units ((a ++ c :: b).length + 1) (a ++ c :: b) 0
      = .value ((va + vb) % M) := by
  have hstep : ∃ p, quantity_step M units b = some p := by
    unfold quantity_loop at hb
    cases hs : quantity_step M units b with
    | none => rw [hs] at hb; simp at hb
    | some p => exact ⟨p, rfl⟩
  obtain ⟨p, hp⟩ := hstep
  obtain ⟨d, ds, hbd, hd⟩ := quantity_step_head M units b p hp
  have hb0 : b ≠ [] := by rw [hbd]; simp
  have hbh : ∀ x ∈ b.head?, x ≠ '+' := by
    intro x hx hxp
    rw [hbd] at hx
    simp only [List.head?_cons, Option.mem_def, Option.some.injEq] at hx
    rw [hx, hxp] at hd
    exact absurd hd (by decide)
  have hsum : quantity_loop M units (b.length + 1) b va = .value ((va + vb) % M) := by
    rw [quantity_loop_sum, hb]
  have hlen : (a ++ c :: b).length + 1 = (a.length + 1) + (b.length + 1) := by
    simp only [List.length_append, List.length_cons]
    omega
  rw [hlen, quantity_loop_joined M units hunits c b hc hb0 hbh (b.length + 1) (a.length + 1) a 0
    va ha hl1 hl2 (by rw [hsum]; simp), hsum]

/-- C17. Duration components add up: for all texts `a` and `b` on which
`parse_duration` succeeds, where `a` does not end in `,` or `+`, both
`parse_duration (a ++ "," ++ b)` and `parse_duration (a ++ "+" ++ b)` succeed
and equal `(parse_duration a + parse_duration b) mod 2 ^ 32`. -/
theorem parse_duration_components_add (a b : List Char) (va vb : Nat)
    (ha : parse_duration a = .value va) (hb : parse_duration b = .value vb)
    (hcomma : a.getLast? ≠ some ',') (hplus : a.getLast? ≠ some '+') :
    parse_duration (a ++ ",".toList ++ b) = .value ((va + vb) % 2 ^ 32) ∧
    parse_duration (a ++ "+".toList ++ b) = .value ((va + vb) % 2 ^ 32) := by
  have hunits : units_all (fun x => ¬ is_boundary x) duration_units :=
    units_all_mono _ _ _ (fun _ h => h.1) duration_units_letters
  refine ⟨?_, ?_⟩
  · rw [List.append_assoc]
    exact quantity_joined (2 ^ 32) duration_units hunits ',' a b va vb (Or.inl rfl) ha hb
      hcomma hplus
  · rw [List.append_assoc]
    exact quantity_joined (2 ^ 32) duration_units hunits '+' a b va vb (Or.inr rfl) ha hb
      hcomma hplus

/-- Witness of C17: `1w2d` and `3h,30min`, and a sum that wraps around. -/
theorem parse_duration_components_add_witness :
    (parse_duration ("1w2d".toList ++ ",".toList ++ "3h,30min".toList)
        = .value ((777600 + 12600) % 2 ^ 32) ∧
      parse_duration ("1w2d".toList ++ "+".toList ++ "3h,30min".toList)
        = .value ((777600 + 12600) % 2 ^ 32)) ∧
    parse_duration ("4294967295".toList ++ ",".toList ++ "2".toList) = .value 1 :=
  ⟨parse_duration_components_add "1w2d".toList "3h,30min".toList 777600 12600
      (by decide) (by decide) (by decide) (by decide),
   (parse_duration_components_add "4294967295".toList "2".toList 4294967295 2
      (by decide) (by decide) (by decide) (by decide)).1⟩


/-! ## Duration and size texts: sequences of components -/

theorem strip_separators_none (t : List Char) (ht : ∀ x ∈ t.head?, x.isDigit = true) :
    strip_optional "+" (strip_optional "," t) = t := by
  cases t with
  | nil => rfl
  | cons x xs =>
    have hx : x.isDigit = true := ht x (by simp)
    have h1 : x ≠ ',' := fun h => by rw [h] at hx; exact absurd hx (by decide)
    have h2 : x ≠ '+' := fun h => by rw [h] at hx; exact absurd hx (by decide)
    rw [strip_optional_comma]
    simp only [h1, if_false]
    rw [strip_optional_plus]
    simp only [h2, if_false]

/-- One pass over a component that is followed by its joiner and by more text:
the component is read and the text behind the joiner is left. -/
theorem quantity_step_component (M : Nat) (units : List (List String × Nat))
    (hunits : units_all (fun x => ¬ is_boundary x) units) (ds u j tail : List Char)
    (scale : Nat) (hds : is_digits ds) (hu : unit_scale units u = (scale, []))
    (hhead : ∀ c ∈ u.head?, c.isDigit = false)
    (hj : j = [','] ∨ j = ['+'] ∨ (j = [] ∧ (u = [] → tail = [])))
    (htail : ∀ x ∈ tail.head?, x.isDigit = true) :
    quantity_step M units (ds ++ u ++ j ++ tail) =
      some (decimal_value ds % M * scale % M, tail) := by
  have hstrip : strip_optional "+" (strip_optional "," (j ++ tail)) = tail := by
    rcases hj with rfl | rfl | ⟨rfl, _⟩
    · exact strip_separators_joiner ',' tail (Or.inl rfl) (fun x hx hxp => by
        have := htail x hx
        rw [hxp] at this
        exact absurd this (by decide))
    · exact strip_separators_joiner '+' tail (Or.inr rfl) (fun x hx hxp => by
        have := htail x hx
        rw [hxp] at this
        exact absurd this (by decide))
    · exact strip_separators_none tail htail
  have hunit : unit_scale units (u ++ (j ++ tail)) = (scale, j ++ tail) := by
    cases hjt : j ++ tail with
    | nil => rw [List.append_nil]; exact hu
    | cons x t =>
      have hx : is_boundary x := by
        rcases hj with rfl | rfl | ⟨rfl, _⟩
        · simp only [List.cons_append, List.nil_append, List.cons.injEq] at hjt
          exact Or.inr (Or.inl hjt.1.symm)
        · simp only [List.cons_append, List.nil_append, List.cons.injEq] at hjt
          exact Or.inr (Or.inr hjt.1.symm)
        · rw [List.nil_append] at hjt
          exact Or.inl (htail x (by rw [hjt]; simp))
      rw [unit_scale_append units x t
        (units_all_mono _ _ units (fun y hy hyx => hy (hyx ▸ hx)) hunits), hu]
      rfl
  have hrest : ∀ c ∈ (u ++ (j ++ tail)).head?, c.isDigit = false := by
    intro c hc
    cases u with
    | cons y ys => exact hhead c (by simpa using hc)
    | nil =>
      rcases hj with rfl | rfl | ⟨rfl, h⟩
      · simp at hc; rw [← hc]; rfl
      · simp at hc; rw [← hc]; rfl
      · rw [h rfl] at hc
        simp at hc
  rw [List.append_assoc, List.append_assoc,
    quantity_step_digits M units ds (u ++ (j ++ tail)) hds hrest, hunit]
  simp only [hstrip]

theorem render_components_head (cs : List quantity_component)
    (hok : ∀ c ∈ cs, is_digits c.digits) :
    ∀ x ∈ (render_components cs).head?, x.isDigit = true := by
  cases cs with
  | nil => intro x hx; simp [render_components] at hx
  | cons c cs =>
    intro x hx
    obtain ⟨hne, hall⟩ := hok c (by simp)
    cases hd : c.digits with
    | nil => exact absurd hd hne
    | cons d ds =>
      simp only [render_components, hd, List.cons_append, List.head?_cons, Option.mem_def,
        Option.some.injEq] at hx
      rw [← hx]
      exact hall d (by rw [hd]; simp)

theorem render_components_ne_nil (c : quantity_component) (cs : List quantity_component)
    (hok : is_digits c.digits) : render_components (c :: cs) ≠ [] := by
  intro h
  simp only [render_components, List.append_eq_nil] at h
  exact hok.1 h.1.1.1

theorem mod_component (M s a scale : Nat) :
    (s + a % M * scale % M) % M = (s + a * scale) % M := by
  rw [Nat.add_mod_mod]
  conv_rhs => rw [Nat.add_mod, Nat.mul_mod]
  conv_lhs => rw [Nat.add_mod, Nat.mul_mod, Nat.mod_mod]

theorem mod_component_add (M s a scale rest : Nat) :
    (s + a % M * scale % M + rest) % M = (s + (a * scale + rest)) % M := by
  rw [Nat.add_right_comm, mod_component M (s + rest) a scale]
  congr 1
  ring

/-- The loop on a sequence of joined components adds up the components. -/
theorem quantity_loop_components (M : Nat) (units : List (List String × Nat))
    (table : List (String × Nat))
    (hunits : units_all (fun x => ¬ is_boundary x) units)
    (htable : ∀ p ∈ table, unit_scale units p.1.toList = (p.2, []) ∧
      ∀ c ∈ p.1.toList.head?, c.isDigit = false) :
    ∀ (cs : List quantity_component), cs ≠ [] →
      (∀ c ∈ cs, is_digits c.digits ∧ (c.unit, c.scale) ∈ table) → components_joined cs →
      ∀ (fuel sum : Nat), cs.length ≤ fuel →
        quantity_loop M units fuel (render_components cs) sum =
          .value ((sum + components_total cs) % M) := by
  intro cs
  induction cs with
  | nil => intro h; exact absurd rfl h
  | cons c cs ih =>
    intro _ hok hj fuel sum hfuel
    obtain ⟨hc1, hc2⟩ := hok c (by simp)
    obtain ⟨hu1, hu2⟩ := htable (c.unit, c.scale) hc2
    have hoks : ∀ x ∈ cs, is_digits x.digits := fun x hx => (hok x (by simp [hx])).1
    have hjoin : c.joiner = [','] ∨ c.joiner = ['+'] ∨
        (c.joiner = [] ∧ (c.unit.toList = [] → render_components cs = [])) := by
      cases cs with
      | nil => exact Or.inr (Or.inr ⟨hj, fun _ => rfl⟩)
      | cons c2 cs2 =>
        rcases hj.1 with h | h | ⟨h, h2⟩
        · exact Or.inl h
        · exact Or.inr (Or.inl h)
        · exact Or.inr (Or.inr ⟨h, fun h3 => absurd h3 h2⟩)
    have hstep := quantity_step_component M units hunits c.digits c.unit.toList c.joiner
      (render_components cs) c.scale hc1 hu1 hu2 hjoin (render_components_head cs hoks)
    obtain ⟨fuel, rfl⟩ : ∃ f, fuel = f + 1 := ⟨fuel - 1, by simp at hfuel; omega⟩
    unfold quantity_loop
    simp only [render_components]
    rw [hstep]
    simp only
    cases cs with
    | nil =>
      simp only [render_components, if_true, components_total, List.map_cons, List.map_nil,
        List.sum_cons, List.sum_nil, Nat.add_zero]
      rw [mod_component]
    | cons c2 cs2 =>
      have hne := render_components_ne_nil c2 cs2 (hoks c2 (by simp))
      simp only [hne, if_false]
      rw [ih (by simp) (fun x hx => hok x (by simp [hx])) hj.2 fuel _
        (by simp at hfuel ⊢; omega)]
      simp only [components_total, List.map_cons, List.sum_cons]
      congr 1
      rw [Nat.mod_add_mod, mod_component_add]


theorem render_components_length (cs : List quantity_component)
    (hok : ∀ c ∈ cs, is_digits c.digits) : cs.length ≤ (render_components cs).length := by
  induction cs with
  | nil => simp
  | cons c cs ih =>
    have h1 := List.length_pos.mpr (hok c (by simp)).1
    have h2 := ih (fun x hx => hok x (by simp [hx]))
    simp only [render_components, List.length_append, List.length_cons]
    omega

/-- C18, as stated, fails: the components `5` and `3` joined by nothing are
the text `53`, which is read as one number; and two components of `2 ^ 63`
bytes each add up to 0 in the 64-bit sum. -/
theorem parse_size_sequence_counterexample :
    (parse_size "5".toList = .value 5 ∧ parse_size "3".toList = .value 3 ∧
      parse_size ("5".toList ++ "3".toList) = .value 53) ∧
    (parse_size "8388608t".toList = .value (2 ^ 63) ∧
      parse_size ("8388608t".toList ++ ",".toList ++ "8388608t".toList) = .value 0) := by
  decide

/-- C18, amended. Size units: for every non-empty decimal digit string `n` and
every unit `u` of the table (scale 1 for `b`, `bytes` and no unit; 1024 for
`k`, `kb`; `1024 ^ 2` for `m`, `mb`; `1024 ^ 3` for `g`, `gb`; `1024 ^ 4` for
`t`, `tb`), `parse_size (n ++ u)` returns `value n * scale u` whenever that
product is below `2 ^ 64`; and a sequence of such components, each joined to
the next by `,` or `+`, or by nothing when it has a unit name, yields the sum
of the components modulo `2 ^ 64`. -/
theorem parse_size_components :
    (∀ (n : List Char) (u : String) (scale : Nat), is_digits n →
      (u, scale) ∈ size_scale_table → decimal_value n * scale < 2 ^ 64 →
      parse_size (n ++ u.toList) = .value (decimal_value n * scale)) ∧
    (∀ cs : List quantity_component, cs ≠ [] →
      (∀ c ∈ cs, is_digits c.digits ∧ (c.unit, c.scale) ∈ size_scale_table) →
      components_joined cs →
      parse_size (render_components cs) = .value (components_total cs % 2 ^ 64)) := by
  have key : ∀ p ∈ size_scale_table,
      (unit_scale size_units p.1.toList = (p.2, []) ∧
        ∀ c ∈ p.1.toList.head?, c.isDigit = false) ∧ 0 < p.2 := by decide
  refine ⟨fun n u scale hn hu hfit => ?_, fun cs hne hok hj => ?_⟩
  · obtain ⟨⟨h1, h3⟩, h2⟩ := key (u, scale) hu
    unfold parse_size
    rw [quantity_loop_single (2 ^ 64) size_units _ n u.toList scale 0 hn h1 h3]
    have hle : decimal_value n ≤ decimal_value n * scale := Nat.le_mul_of_pos_right _ h2
    rw [Nat.zero_add, Nat.mod_mod, Nat.mod_eq_of_lt (lt_of_le_of_lt hle hfit),
      Nat.mod_eq_of_lt hfit]
  · unfold parse_size
    have hlen := render_components_length cs (fun c hc => (hok c hc).1)
    rw [quantity_loop_components (2 ^ 64) size_units size_scale_table
      (units_all_mono _ _ _ (fun _ h => h.1) size_units_letters)
      (fun p hp => (key p hp).1) cs hne hok hj _ 0 (by omega), Nat.zero_add]

/-- Witness of the amended C18: `3gb`, and `1m512k,64` as three components. -/
theorem parse_size_components_witness :
    parse_size ("3".toList ++ "gb".toList) = .value (decimal_value "3".toList * 1024 ^ 3) ∧
    parse_size (render_components
      [⟨"1".toList, "m", 1024 ^ 2, []⟩, ⟨"512".toList, "k", 1024, [',']⟩,
       ⟨"64".toList, "", 1, []⟩]) =
      .value (components_total
        [⟨"1".toList, "m", 1024 ^ 2, []⟩, ⟨"512".toList, "k", 1024, [',']⟩,
         ⟨"64".toList, "", 1, []⟩] % 2 ^ 64) :=
  ⟨parse_size_components.1 "3".toList "gb" (1024 ^ 3) (by decide) (by decide) (by decide),
   parse_size_components.2
     [⟨"1".toList, "m", 1024 ^ 2, []⟩, ⟨"512".toList, "k", 1024, [',']⟩,
      ⟨"64".toList, "", 1, []⟩] (by decide) (by decide) (by decide)⟩



/-! ## Partition configuration: one line -/

theorem split_single (c : Char) (line : List Char) (h : c ∉ line) : split c line = [line] := by
  induction line with
  | nil => rfl
  | cons x xs ih =>
    have hx : x ≠ c := fun e => h (by simp [e])
    have hxs : c ∉ xs := fun e => h (by simp [e])
    simp only [split, hx, if_false, ih hxs]

theorem cut_comment_none (line : List Char) (h : '#' ∉ line) : cut_comment line = line := by
  unfold cut_comment
  rw [List.takeWhile_eq_self_iff]
  intro x hx
  have : x ≠ '#' := fun e => h (e ▸ hx)
  simpa using this

theorem divided_append (c : Char) (pre post : List Char) (h : c ∉ pre) :
    divided c (pre ++ c :: post) = (pre, post) := by
  induction pre with
  | nil => simp [divided]
  | cons x xs ih =>
    have hx : x ≠ c := fun e => h (by simp [e])
    have hxs : c ∉ xs := fun e => h (by simp [e])
    have := ih hxs
    simp only [divided, Prod.mk.injEq] at this ⊢
    simp only [List.cons_append, List.takeWhile_cons, List.dropWhile_cons, bne_iff_ne, ne_eq, hx,
      not_false_eq_true, decide_True, if_true, List.cons.injEq, true_and]
    exact this

theorem dropWhile_all (p : Char → Bool) (w rest : List Char) (hw : ∀ c ∈ w, p c = true) :
    (w ++ rest).dropWhile p = rest.dropWhile p := by
  induction w with
  | nil => rfl
  | cons x xs ih =>
    simp only [List.cons_append, List.dropWhile_cons, hw x (by simp), if_true]
    exact ih (fun c hc => hw c (by simp [hc]))

theorem dropWhile_none (p : Char → Bool) (text : List Char) (h : ∀ c ∈ text.head?, p c = false) :
    text.dropWhile p = text := by
  cases text with
  | nil => rfl
  | cons x xs => simp [List.dropWhile_cons, h x (by simp)]

/-- White space around a text that holds no white space is removed by
`TrimWS`, and nothing else. -/
theorem TrimWS_padded (w1 text w2 : List Char) (hw1 : ∀ c ∈ w1, isspace c = true)
    (hw2 : ∀ c ∈ w2, isspace c = true) (htext : ∀ c ∈ text, isspace c = false) :
    TrimWS (w1 ++ text ++ w2) = text := by
  unfold TrimWS
  rw [List.append_assoc, dropWhile_all isspace w1 _ hw1]
  cases text with
  | nil =>
    rw [List.nil_append]
    have h := dropWhile_all isspace w2 [] hw2
    rw [List.append_nil] at h
    rw [h]
    rfl
  | cons x xs =>
    have h1 : (x :: xs ++ w2).dropWhile isspace = x :: xs ++ w2 :=
      dropWhile_none isspace (x :: xs ++ w2) (by
        intro c hc
        simp only [List.cons_append, List.head?_cons, Option.mem_def, Option.some.injEq] at hc
        exact htext c (by simp [hc]))
    have h2 : (w2.reverse ++ (x :: xs).reverse).dropWhile isspace =
        ((x :: xs).reverse).dropWhile isspace :=
      dropWhile_all isspace w2.reverse _ (fun c hc => hw2 c (List.mem_reverse.mp hc))
    have h3 : ((x :: xs).reverse).dropWhile isspace = (x :: xs).reverse :=
      dropWhile_none isspace ((x :: xs).reverse) (by
        intro c hc
        have hmem : c ∈ (x :: xs).reverse := by
          cases hrev : (x :: xs).reverse with
          | nil => rw [hrev] at hc; simp at hc
          | cons y ys =>
            rw [hrev] at hc
            simp only [List.head?_cons, Option.mem_def, Option.some.injEq] at hc
            simp [hc]
        exact htext c (List.mem_reverse.mp hmem))
    rw [h1, List.reverse_append, h2, h3]
    exact List.reverse_reverse _

theorem not_special_not_space (c : Char) (h : c ∉ config_special) : isspace c = false := by
  simp only [config_special, List.mem_cons, List.mem_singleton, not_or] at h
  simp only [isspace, List.mem_cons, List.mem_singleton, decide_eq_false_iff_not, not_or]
  simp only [List.not_mem_nil, or_false] at h ⊢
  tauto

theorem padding_chars (w : List Char) (hw : is_padding w) :
    ∀ c ∈ w, isspace c = true ∧ c ≠ Char.ofNat 10 ∧ c ≠ '#' ∧ c ≠ '=' := by
  intro c hc
  obtain ⟨h1, h2⟩ := hw c hc
  refine ⟨h1, h2, ?_, ?_⟩
  · intro e
    rw [e] at h1
    exact absurd h1 (by decide)
  · intro e
    rw [e] at h1
    exact absurd h1 (by decide)

theorem not_special_chars (c : Char) (h : c ∉ config_special) :
    c ≠ Char.ofNat 10 ∧ c ≠ '#' ∧ c ≠ '=' := by
  refine ⟨?_, ?_, ?_⟩ <;> intro e <;> apply h <;> rw [e] <;> decide

theorem parse_config_lines_single (lib : switch_library) (line : List Char)
    (l : partition_config) : parse_config_lines lib [line] l = parse_config_line lib line l := by
  unfold parse_config_lines
  rcases h : parse_config_line lib line l with ⟨e, l1⟩
  cases e with
  | none => rfl
  | some e => rfl

/-- A line `key = value`, with white space around the key and around the
value: the entry is handled with the bare key and the bare value. -/
theorem parse_partition_config_line (lib : switch_library) (key value w1 w2 w3 w4 : List Char)
    (l : partition_config) (hkey : ∀ c ∈ key, c ∉ config_special)
    (hvalue : ∀ c ∈ value, c ∉ config_special)
    (hw1 : is_padding w1) (hw2 : is_padding w2) (hw3 : is_padding w3) (hw4 : is_padding w4) :
    parse_partition_config lib (w1 ++ key ++ w2 ++ '=' :: (w3 ++ value ++ w4)) l =
      parse_config_entry lib key value l := by
  have p1 := padding_chars w1 hw1
  have p2 := padding_chars w2 hw2
  have p3 := padding_chars w3 hw3
  have p4 := padding_chars w4 hw4
  have hleft : ∀ c ∈ w1 ++ key ++ w2, c ≠ Char.ofNat 10 ∧ c ≠ '#' ∧ c ≠ '=' := by
    intro c hc
    simp only [List.mem_append] at hc
    rcases hc with (hc | hc) | hc
    · exact (p1 c hc).2
    · exact not_special_chars c (hkey c hc)
    · exact (p2 c hc).2
  have hright : ∀ c ∈ w3 ++ value ++ w4, c ≠ Char.ofNat 10 ∧ c ≠ '#' := by
    intro c hc
    simp only [List.mem_append] at hc
    rcases hc with (hc | hc) | hc
    · exact ⟨(p3 c hc).2.1, (p3 c hc).2.2.1⟩
    · exact ⟨(not_special_chars c (hvalue c hc)).1, (not_special_chars c (hvalue c hc)).2.1⟩
    · exact ⟨(p4 c hc).2.1, (p4 c hc).2.2.1⟩
  have hnl : Char.ofNat 10 ∉ w1 ++ key ++ w2 ++ '=' :: (w3 ++ value ++ w4) := by
    intro hmem
    rcases List.mem_append.mp hmem with h | h
    · exact (hleft _ h).1 rfl
    · rcases List.mem_cons.mp h with h | h
      · exact absurd h (by decide)
      · exact (hright _ h).1 rfl
  have hhash : '#' ∉ w1 ++ key ++ w2 ++ '=' :: (w3 ++ value ++ w4) := by
    intro hmem
    rcases List.mem_append.mp hmem with h | h
    · exact (hleft _ h).2.1 rfl
    · rcases List.mem_cons.mp h with h | h
      · exact absurd h (by decide)
      · exact (hright _ h).2 rfl
  have heq : '=' ∉ w1 ++ key ++ w2 := fun h => (hleft _ h).2.2 rfl
  unfold parse_partition_config
  rw [split_single _ _ hnl, parse_config_lines_single]
  unfold parse_config_line
  simp only [cut_comment_none _ hhash, divided_append '=' _ _ heq]
  rw [if_neg (by simp)]
  rw [TrimWS_padded w1 key w2 (fun c hc => (p1 c hc).1) (fun c hc => (p2 c hc).1)
      (fun c hc => not_special_not_space c (hkey c hc)),
    TrimWS_padded w3 value w4 (fun c hc => (p3 c hc).1) (fun c hc => (p4 c hc).1)
      (fun c hc => not_special_not_space c (hvalue c hc))]


/-! ## Partition configuration: keys and values -/

theorem digit_not_special (c : Char) (h : c.isDigit = true) : c ∉ config_special := by
  intro hmem
  have key : ∀ b ∈ config_special, b.isDigit = false := by decide
  rw [key c hmem] at h
  exact absurd h (by decide)

theorem lower_not_special (name : List Char)
    (hname : ∀ b ∈ config_special, b.toLower ∉ name) (key : List Char)
    (hkey : key.map Char.toLower = name) : ∀ c ∈ key, c ∉ config_special := by
  intro c hc hmem
  apply hname c hmem
  rw [← hkey]
  exact List.mem_map_of_mem _ hc

/-- C19. Validation of `retention.segments.count`: for every non-empty decimal
digit string `ds` (within the length check) whose value is in `uint32_t` range,
`parse_partition_config` on the line `retention.segments.count=ds` throws a
range error exactly when the value is 1; for 0 and for every value from 2 on
it returns and `roSegmentsCnt` is the value. The key is matched without regard
to case, and white space around the key and around the value is ignored. -/
theorem parse_partition_config_segments_count (lib : switch_library) (hlib : library_ok lib)
    (key ds w1 w2 w3 w4 : List Char) (l : partition_config)
    (hkey : key.map Char.toLower = "retention.segments.count".toList)
    (hds : is_digits ds) (hlen : ds.length ≤ 127) (hval : decimal_value ds < 2 ^ 32)
    (hw1 : is_padding w1) (hw2 : is_padding w2) (hw3 : is_padding w3) (hw4 : is_padding w4) :
    parse_partition_config lib (w1 ++ key ++ w2 ++ '=' :: (w3 ++ ds ++ w4)) l =
      (if decimal_value ds = 1 then some .range_error else none,
        { l with roSegmentsCnt := decimal_value ds }) := by
  have hkey2 : ∀ c ∈ key, c ∉ config_special :=
    lower_not_special _ (by decide) key hkey
  rw [parse_partition_config_line lib key ds w1 w2 w3 w4 l hkey2
    (fun c hc => digit_not_special c (hds.2 c hc)) hw1 hw2 hw3 hw4]
  have hpos := List.length_pos.mpr hds.1
  have hrange : lib.IsBetweenRange ds.length 1 128 = true :=
    (hlib.1 ds.length 1 128).1 (by omega) (by omega)
  have hk : key ≠ [] := by
    intro e
    rw [e] at hkey
    exact absurd hkey (by decide)
  have hname : EqNoCase key "retention.segments.count" = true := by
    unfold EqNoCase
    rw [hkey]
    decide
  unfold parse_config_entry
  rw [if_neg (not_not.mpr hrange), if_pos ⟨hk, hds.1⟩, if_pos hname, hlib.2 ds hds hval]
  simp only [Prod.mk.injEq, and_true]
  by_cases h1 : decimal_value ds = 1
  · rw [if_pos h1, if_pos (by omega)]
  · rw [if_neg h1, if_neg (by omega)]

theorem example_library_ok (inclusive : Bool) : library_ok (example_library inclusive) := by
  refine ⟨fun v s e => ⟨fun h1 h2 => ?_, fun h => ?_⟩, fun ds _ hval => ?_⟩
  · simp [example_library, h1, h2]
  · simp only [example_library, Bool.and_eq_false_imp, decide_eq_true_eq, Bool.or_eq_false_iff,
      decide_eq_false_iff_not, Bool.and_eq_false_imp]
    intro hs
    refine ⟨by omega, fun _ => by omega⟩
  · exact Nat.mod_eq_of_lt hval

/-- Witness of C19: the key in mixed case with white space around key and
value; the value 1 is refused (and stored), the value 2 is accepted. -/
theorem parse_partition_config_segments_count_witness :
    parse_partition_config (example_library false)
      (" ".toList ++ "Retention.Segments.COUNT".toList ++ " ".toList ++
        '=' :: ("  ".toList ++ "1".toList ++ " ".toList)) (retention_limits 0 0 0) =
      (some .range_error, retention_limits 1 0 0) ∧
    parse_partition_config (example_library false)
      ([] ++ "retention.segments.count".toList ++ [] ++ '=' :: ([] ++ "2".toList ++ []))
      (retention_limits 0 0 0) = (none, retention_limits 2 0 0) :=
  ⟨parse_partition_config_segments_count (example_library false) (example_library_ok false)
      "Retention.Segments.COUNT".toList "1".toList " ".toList " ".toList "  ".toList " ".toList
      (retention_limits 0 0 0) (by decide) (by decide) (by decide) (by decide) (by decide)
      (by decide) (by decide) (by decide),
   parse_partition_config_segments_count (example_library false) (example_library_ok false)
      "retention.segments.count".toList "2".toList [] [] [] []
      (retention_limits 0 0 0) (by decide) (by decide) (by decide) (by decide) (by decide)
      (by decide) (by decide) (by decide)⟩


/-- A text on which the loop succeeds is not empty and is made of digits,
the letters of unit names and separators. -/
theorem quantity_loop_chars (P : Char → Prop) (M : Nat) (units : List (List String × Nat))
    (hdigit : ∀ x : Char, x.isDigit = true → P x) (hunits : units_all P units)
    (hcomma : P ',') (hplus : P '+') :
    ∀ (fuel : Nat) (inp : List Char) (sum s : Nat),
      quantity_loop M units fuel inp sum = .value s → inp ≠ [] ∧ ∀ x ∈ inp, P x := by
  intro fuel
  induction fuel with
  | zero => intro inp sum s h; simp [quantity_loop] at h
  | succ fuel ih =>
    intro inp sum s h
    unfold quantity_loop at h
    cases hstep : quantity_step M units inp with
    | none => rw [hstep] at h; simp at h
    | some p =>
      obtain ⟨v, r⟩ := p
      rw [hstep] at h
      simp only at h
      obtain ⟨pre, hpre, hne, hall⟩ :=
        quantity_step_split P M units hdigit hunits hcomma hplus inp v r hstep
      refine ⟨by rw [hpre]; simp [hne], ?_⟩
      intro x hx
      rw [hpre] at hx
      rcases List.mem_append.mp hx with hx | hx
      · exact hall x hx
      · by_cases hr : r = []
        · rw [hr] at hx
          simp at hx
        · rw [if_neg hr] at h
          exact (ih r _ s h).2 x hx

theorem parse_size_chars (v : List Char) (s : Nat) (h : parse_size v = .value s) :
    v ≠ [] ∧ ∀ c ∈ v, c ∉ config_special :=
  quantity_loop_chars (fun c => c ∉ config_special) (2 ^ 64) size_units digit_not_special
    (by decide) (by decide) (by decide) _ v 0 s h

theorem parse_partition_config_key_value (lib : switch_library) (key value : List Char)
    (l : partition_config) (hkey : ∀ c ∈ key, c ∉ config_special)
    (hvalue : ∀ c ∈ value, c ∉ config_special) :
    parse_partition_config lib (key ++ '=' :: value) l = parse_config_entry lib key value l := by
  have h := parse_partition_config_line lib key value [] [] [] [] l hkey hvalue
    (by decide) (by decide) (by decide) (by decide)
  simpa using h

theorem store_parsed_value (n : Nat) (l : partition_config)
    (store : partition_config → Nat → partition_config) (invalid : Nat → Bool) (p : Prop)
    [Decidable p] (hp : invalid n = true ↔ p) :
    store_parsed (.value n) l store invalid =
      (if p then some .range_error else none, store l n) := by
  unfold store_parsed
  by_cases h : p
  · simp [h, hp.mpr h]
  · have : invalid n = false := by
      cases hi : invalid n with
      | false => rfl
      | true => exact absurd (hp.mp hi) h
    simp [h, this]

set_option maxRecDepth 100000 in
/-- C20, as stated, fails: `parse_size` reads a text of 129 characters as 128,
but `parse_partition_config` refuses the line `log.segment.bytes=` with that
value with a data error, because the value is longer than the length check
allows (whether `IsBetweenRange` is half-open or closed), and stores
nothing. -/
theorem parse_partition_config_long_value_counterexample :
    parse_size (List.replicate 126 '0' ++ "128".toList) = .value 128 ∧
    ∀ inclusive : Bool,
      parse_partition_config (example_library inclusive)
        ("log.segment.bytes=".toList ++ (List.replicate 126 '0' ++ "128".toList))
        (retention_limits 0 0 0) = (some .data_error, retention_limits 0 0 0) := by
  decide

/-- C20, amended. Validation of the size keys: for every value text `v` of at
most 127 characters on which `parse_size` succeeds with result `s`,
`parse_partition_config` throws a range error on `log.retention.bytes=v`
exactly when `0 < s < 128`, on `log.segment.bytes=v` exactly when `s < 64`,
and on `log.index.interval.bytes=v` and `log.index.size.max.bytes=v` exactly
when `s < 128`; otherwise it returns; in each case `s` is stored in
`roSegmentsSize`, `maxSegmentSize`, `indexInterval` and `maxIndexSize`
respectively. -/
theorem parse_partition_config_size_keys (lib : switch_library) (hlib : library_ok lib)
    (v : List Char) (s : Nat) (l : partition_config) (hv : parse_size v = .value s)
    (hlen : v.length ≤ 127) :
    parse_partition_config lib ("log.retention.bytes".toList ++ '=' :: v) l =
      (if 0 < s ∧ s < 128 then some .range_error else none, { l with roSegmentsSize := s }) ∧
    parse_partition_config lib ("log.segment.bytes".toList ++ '=' :: v) l =
      (if s < 64 then some .range_error else none, { l with maxSegmentSize := s }) ∧
    parse_partition_config lib ("log.index.interval.bytes".toList ++ '=' :: v) l =
      (if s < 128 then some .range_error else none, { l with indexInterval := s }) ∧
    parse_partition_config lib ("log.index.size.max.bytes".toList ++ '=' :: v) l =
      (if s < 128 then some .range_error else none, { l with maxIndexSize := s }) := by
  obtain ⟨hne, hchars⟩ := parse_size_chars v s hv
  have hpos := List.length_pos.mpr hne
  have hrange : lib.IsBetweenRange v.length 1 128 = true :=
    (hlib.1 v.length 1 128).1 (by omega) (by omega)
  refine ⟨?_, ?_, ?_, ?_⟩
  · rw [parse_partition_config_key_value lib _ v l (by decide) hchars]
    unfold parse_config_entry
    rw [if_neg (not_not.mpr hrange), if_pos ⟨by decide, hne⟩, if_neg (by decide),
      if_neg (by decide), if_neg (by decide), if_neg (by decide), if_pos (by decide), hv]
    exact store_parsed_value s l _ _ _ (by simp; omega)
  · rw [parse_partition_config_key_value lib _ v l (by decide) hchars]
    unfold parse_config_entry
    rw [if_neg (not_not.mpr hrange), if_pos ⟨by decide, hne⟩, if_neg (by decide),
      if_neg (by decide), if_neg (by decide), if_neg (by decide), if_neg (by decide),
      if_pos (by decide), hv]
    exact store_parsed_value s l _ _ _ (by simp)
  · rw [parse_partition_config_key_value lib _ v l (by decide) hchars]
    unfold parse_config_entry
    rw [if_neg (not_not.mpr hrange), if_pos ⟨by decide, hne⟩, if_neg (by decide),
      if_neg (by decide), if_neg (by decide), if_neg (by decide), if_neg (by decide),
      if_neg (by decide), if_pos (by decide), hv]
    exact store_parsed_value s l _ _ _ (by simp)
  · rw [parse_partition_config_key_value lib _ v l (by decide) hchars]
    unfold parse_config_entry
    rw [if_neg (not_not.mpr hrange), if_pos ⟨by decide, hne⟩, if_neg (by decide),
      if_neg (by decide), if_neg (by decide), if_neg (by decide), if_neg (by decide),
      if_neg (by decide), if_neg (by decide), if_pos (by decide), hv]
    exact store_parsed_value s l _ _ _ (by simp)

/-- Witness of the amended C20: the value `100` is a range error for three of
the keys and is accepted as segment size; it is stored in each case. -/
theorem parse_partition_config_size_keys_witness :
    parse_partition_config (example_library false)
        ("log.retention.bytes".toList ++ '=' :: "100".toList) (retention_limits 0 0 0) =
      (some .range_error, retention_limits 0 100 0) ∧
    parse_partition_config (example_library false)
        ("log.segment.bytes".toList ++ '=' :: "100".toList) (retention_limits 0 0 0) =
      (none, { retention_limits 0 0 0 with maxSegmentSize := 100 }) ∧
    parse_partition_config (example_library false)
        ("log.index.interval.bytes".toList ++ '=' :: "100".toList) (retention_limits 0 0 0) =
      (some .range_error, { retention_limits 0 0 0 with indexInterval := 100 }) ∧
    parse_partition_config (example_library false)
        ("log.index.size.max.bytes".toList ++ '=' :: "100".toList) (retention_limits 0 0 0) =
      (some .range_error, { retention_limits 0 0 0 with maxIndexSize := 100 }) :=
  parse_partition_config_size_keys (example_library false) (example_library_ok false)
    "100".toList 100 (retention_limits 0 0 0) (by decide) (by decide)



/-! ## Partition configuration: several lines -/

theorem split_cons_line (c : Char) (line rest : List Char) (h : c ∉ line) :
    split c (line ++ c :: rest) = line :: split c rest := by
  induction line with
  | nil => simp [split]
  | cons x xs ih =>
    have hx : x ≠ c := fun e => h (by simp [e])
    have hxs : c ∉ xs := fun e => h (by simp [e])
    have hstep : split c (x :: xs ++ c :: rest) =
        match split c (xs ++ c :: rest) with
        | [] => [[x]]
        | piece :: pieces => (x :: piece) :: pieces := by
      simp only [List.cons_append, split, hx, if_false]
      rfl
    rw [hstep, ih hxs]

theorem split_join_lines (lines : List (List Char)) (hne : lines ≠ [])
    (h : ∀ x ∈ lines, Char.ofNat 10 ∉ x) : split (Char.ofNat 10) (join_lines lines) = lines := by
  induction lines with
  | nil => exact absurd rfl hne
  | cons line lines ih =>
    cases lines with
    | nil => exact split_single _ _ (h line (by simp))
    | cons line2 lines =>
      simp only [join_lines]
      rw [split_cons_line _ _ _ (h line (by simp)),
        ih (by simp) (fun x hx => h x (by simp [hx]))]

theorem parse_config_lines_append (lib : switch_library) (a b : List (List Char)) :
    ∀ l : partition_config, parse_config_lines lib (a ++ b) l =
      match parse_config_lines lib a l with
      | (some e, l1) => (some e, l1)
      | (none, l1) => parse_config_lines lib b l1 := by
  induction a with
  | nil => intro l; rfl
  | cons line lines ih =>
    intro l
    simp only [List.cons_append, parse_config_lines]
    rcases h : parse_config_line lib line l with ⟨e, l1⟩
    cases e with
    | none => exact ih l1
    | some e => rfl

/-- The parse of a text is the loop over its lines. -/
theorem parse_partition_config_lines (lib : switch_library) (lines : List (List Char))
    (h : ∀ x ∈ lines, Char.ofNat 10 ∉ x) (l : partition_config) :
    parse_partition_config lib (join_lines lines) l = parse_config_lines lib lines l := by
  cases lines with
  | nil => rfl
  | cons line lines =>
    unfold parse_partition_config
    rw [split_join_lines _ (by simp) h]

/-- The parse of lines that follow lines parsed without an exception. -/
theorem parse_partition_config_after (lib : switch_library) (before after : List (List Char))
    (l l1 : partition_config) (hb : ∀ x ∈ before, Char.ofNat 10 ∉ x)
    (ha : ∀ x ∈ after, Char.ofNat 10 ∉ x)
    (hbefore : parse_partition_config lib (join_lines before) l = (none, l1)) :
    parse_partition_config lib (join_lines (before ++ after)) l =
      parse_config_lines lib after l1 := by
  rw [parse_partition_config_lines lib before hb] at hbefore
  rw [parse_partition_config_lines lib (before ++ after) (by
    intro x hx
    rcases List.mem_append.mp hx with h | h
    · exact hb x h
    · exact ha x h), parse_config_lines_append, hbefore]

theorem cut_comment_append (line comment : List Char) (h : '#' ∉ line) :
    cut_comment (line ++ '#' :: comment) = line :=
  congrArg Prod.fst (divided_append '#' line comment h)

theorem parse_partition_config_one_line (lib : switch_library) (line : List Char)
    (h : Char.ofNat 10 ∉ line) (l : partition_config) :
    parse_partition_config lib line l = parse_config_line lib line l := by
  unfold parse_partition_config
  rw [split_single _ _ h, parse_config_lines_single]

/-- C21. Comments are ignored: for every line `L` without `#` and newline and
every text `C` without newline, `parse_partition_config` on `L ++ "#" ++ C`
returns or throws as on `L` alone, with the same configuration; a line that
starts with `#` leaves the configuration unchanged and does not fail. -/
theorem parse_partition_config_comment (lib : switch_library) (L C : List Char)
    (l : partition_config) (hhash : '#' ∉ L) (hL : Char.ofNat 10 ∉ L) (hC : Char.ofNat 10 ∉ C) :
    parse_partition_config lib (L ++ '#' :: C) l = parse_partition_config lib L l ∧
    parse_partition_config lib ('#' :: C) l = (none, l) := by
  have hline : ∀ x : List Char, '#' ∉ x → Char.ofNat 10 ∉ x →
      parse_partition_config lib (x ++ '#' :: C) l = parse_partition_config lib x l := by
    intro x h1 h2
    have hnl : Char.ofNat 10 ∉ x ++ '#' :: C := by
      intro hmem
      rcases List.mem_append.mp hmem with h | h
      · exact h2 h
      · rcases List.mem_cons.mp h with h | h
        · exact absurd h (by decide)
        · exact hC h
    rw [parse_partition_config_one_line lib _ hnl, parse_partition_config_one_line lib _ h2]
    unfold parse_config_line
    rw [cut_comment_append x C h1, cut_comment_none x h1]
  refine ⟨hline L hhash hL, ?_⟩
  have h := hline [] (by simp) (by simp)
  rw [List.nil_append] at h
  rw [h]
  rfl

/-- Witness of C21: an entry followed by a comment, and a comment line. -/
theorem parse_partition_config_comment_witness :
    parse_partition_config (example_library false)
        ("retention.segments.count=5 ".toList ++ '#' :: " five = 6".toList)
        (retention_limits 0 0 0) =
      parse_partition_config (example_library false) "retention.segments.count=5 ".toList
        (retention_limits 0 0 0) ∧
    parse_partition_config (example_library false) ('#' :: " five = 6".toList)
      (retention_limits 0 0 0) = (none, retention_limits 0 0 0) :=
  parse_partition_config_comment (example_library false) "retention.segments.count=5 ".toList
    " five = 6".toList (retention_limits 0 0 0) (by decide) (by decide) (by decide)


theorem divided_none (c : Char) (line : List Char) (h : c ∉ line) :
    divided c line = (line, []) := by
  have hall : ∀ x ∈ line, (x != c) = true := by
    intro x hx
    have : x ≠ c := fun e => h (e ▸ hx)
    simpa using this
  unfold divided
  rw [List.takeWhile_eq_self_iff.mpr hall, List.dropWhile_eq_nil_iff.mpr hall]
  rfl

/-- An entry whose value is empty or longer than 128 characters is refused
before the key is looked at. -/
theorem parse_config_entry_length (lib : switch_library) (hlib : library_ok lib)
    (k v : List Char) (l : partition_config) (hv : v = [] ∨ 128 < v.length) :
    parse_config_entry lib k v l = (some .data_error, l) := by
  have hrange : lib.IsBetweenRange v.length 1 128 = false := by
    apply (hlib.1 v.length 1 128).2
    rcases hv with h | h
    · left
      rw [h]
      decide
    · right
      exact h
  unfold parse_config_entry
  rw [if_pos (by rw [hrange]; decide)]

/-- C28. The value length is checked before the key is looked at: a line that
is not empty after its comment is cut off and whose value part, trimmed, is
empty or longer than 128 characters makes `parse_partition_config` throw a
data error, whatever the key is (the lines before it having been parsed
without an exception, whose configuration stays). This holds in particular for
every such line without `=`: a line of white space, an indented comment line,
a key alone. Only a line that is empty after its comment is cut off is
skipped. -/
theorem parse_partition_config_value_length (lib : switch_library) (hlib : library_ok lib)
    (before after : List (List Char)) (line : List Char) (l l1 : partition_config)
    (hb : ∀ x ∈ before, Char.ofNat 10 ∉ x) (hline : Char.ofNat 10 ∉ line)
    (ha : ∀ x ∈ after, Char.ofNat 10 ∉ x)
    (hbefore : parse_partition_config lib (join_lines before) l = (none, l1)) :
    (cut_comment line ≠ [] →
      (TrimWS (divided '=' (cut_comment line)).2 = [] ∨
        128 < (TrimWS (divided '=' (cut_comment line)).2).length) →
      parse_partition_config lib (join_lines (before ++ line :: after)) l =
        (some .data_error, l1)) ∧
    (cut_comment line ≠ [] → '=' ∉ cut_comment line →
      parse_partition_config lib (join_lines (before ++ line :: after)) l =
        (some .data_error, l1)) ∧
    (cut_comment line = [] →
      parse_partition_config lib (join_lines (before ++ line :: after)) l =
        parse_partition_config lib (join_lines after) l1) := by
  have hla : ∀ x ∈ line :: after, Char.ofNat 10 ∉ x := by
    intro x hx
    rcases List.mem_cons.mp hx with h | h
    · rw [h]; exact hline
    · exact ha x h
  have hparse := parse_partition_config_after lib before (line :: after) l l1 hb hla hbefore
  have hfail : cut_comment line ≠ [] →
      (TrimWS (divided '=' (cut_comment line)).2 = [] ∨
        128 < (TrimWS (divided '=' (cut_comment line)).2).length) →
      parse_partition_config lib (join_lines (before ++ line :: after)) l =
        (some .data_error, l1) := by
    intro hne hv
    rw [hparse]
    unfold parse_config_lines parse_config_line
    simp only [hne, if_false]
    rw [parse_config_entry_length lib hlib _ _ l1 hv]
  refine ⟨hfail, fun hne heq => ?_, fun hnil => ?_⟩
  · apply hfail hne
    left
    rw [divided_none '=' _ heq]
    rfl
  · rw [hparse, parse_partition_config_lines lib after ha]
    conv_lhs => unfold parse_config_lines parse_config_line
    simp only [hnil, if_true]

/-- Witness of C28: after an accepted entry, a line of white space, an
indented comment line, a key without `=` and an entry without value are each
refused with a data error; a comment line is skipped. -/
theorem parse_partition_config_value_length_witness :
    (parse_partition_config (example_library false)
        (join_lines (["retention.segments.count=5".toList] ++ "   ".toList ::
          ["log.segment.bytes=1k".toList])) (retention_limits 0 0 0) =
        (some .data_error, retention_limits 5 0 0) ∧
      parse_partition_config (example_library false)
        (join_lines (["retention.segments.count=5".toList] ++ "  # note".toList ::
          ["log.segment.bytes=1k".toList])) (retention_limits 0 0 0) =
        (some .data_error, retention_limits 5 0 0) ∧
      parse_partition_config (example_library false)
        (join_lines (["retention.segments.count=5".toList] ++ "no.such.key".toList ::
          ["log.segment.bytes=1k".toList])) (retention_limits 0 0 0) =
        (some .data_error, retention_limits 5 0 0)) ∧
    parse_partition_config (example_library false)
      (join_lines (["retention.segments.count=5".toList] ++ "log.segment.bytes =  ".toList ::
        ["log.segment.bytes=1k".toList])) (retention_limits 0 0 0) =
      (some .data_error, retention_limits 5 0 0) ∧
    parse_partition_config (example_library false)
      (join_lines (["retention.segments.count=5".toList] ++ "# note".toList ::
        ["log.segment.bytes=1k".toList])) (retention_limits 0 0 0) =
      parse_partition_config (example_library false)
        (join_lines ["log.segment.bytes=1k".toList]) (retention_limits 5 0 0) :=
  ⟨⟨(parse_partition_config_value_length (example_library false) (example_library_ok false)
        ["retention.segments.count=5".toList] ["log.segment.bytes=1k".toList] "   ".toList
        (retention_limits 0 0 0) (retention_limits 5 0 0) (by decide) (by decide) (by decide)
        (by decide)).2.1 (by decide) (by decide),
     (parse_partition_config_value_length (example_library false) (example_library_ok false)
        ["retention.segments.count=5".toList] ["log.segment.bytes=1k".toList] "  # note".toList
        (retention_limits 0 0 0) (retention_limits 5 0 0) (by decide) (by decide) (by decide)
        (by decide)).2.1 (by decide) (by decide),
     (parse_partition_config_value_length (example_library false) (example_library_ok false)
        ["retention.segments.count=5".toList] ["log.segment.bytes=1k".toList]
        "no.such.key".toList
        (retention_limits 0 0 0) (retention_limits 5 0 0) (by decide) (by decide) (by decide)
        (by decide)).2.1 (by decide) (by decide)⟩,
   (parse_partition_config_value_length (example_library false) (example_library_ok false)
      ["retention.segments.count=5".toList] ["log.segment.bytes=1k".toList]
      "log.segment.bytes =  ".toList
      (retention_limits 0 0 0) (retention_limits 5 0 0) (by decide) (by decide) (by decide)
      (by decide)).1 (by decide) (by decide),
   (parse_partition_config_value_length (example_library false) (example_library_ok false)
      ["retention.segments.count=5".toList] ["log.segment.bytes=1k".toList] "# note".toList
      (retention_limits 0 0 0) (retention_limits 5 0 0) (by decide) (by decide) (by decide)
      (by decide)).2.2 (by decide)⟩


/-! ## Partition configuration: what a refused entry leaves behind -/

/-- The last line of a text, when it is an entry `key=value`, handled after
the lines before it were parsed without an exception. -/
theorem parse_partition_config_last_entry (lib : switch_library) (before : List (List Char))
    (key v : List Char) (l l1 : partition_config) (hb : ∀ x ∈ before, Char.ofNat 10 ∉ x)
    (hbefore : parse_partition_config lib (join_lines before) l = (none, l1))
    (hkey : ∀ c ∈ key, c ∉ config_special) (hv : ∀ c ∈ v, c ∉ config_special) :
    parse_partition_config lib (join_lines (before ++ [key ++ '=' :: v])) l =
      parse_config_entry lib key v l1 := by
  have hnl : Char.ofNat 10 ∉ key ++ '=' :: v := by
    intro hmem
    rcases List.mem_append.mp hmem with h | h
    · exact (not_special_chars _ (hkey _ h)).1 rfl
    · rcases List.mem_cons.mp h with h | h
      · exact absurd h (by decide)
      · exact (not_special_chars _ (hv _ h)).1 rfl
  rw [parse_partition_config_after lib before [key ++ '=' :: v] l l1 hb
    (by intro x hx; rw [List.mem_singleton.mp hx]; exact hnl) hbefore,
    parse_config_lines_single, ← parse_partition_config_one_line lib _ hnl,
    parse_partition_config_key_value lib key v l1 hkey hv]

theorem parse_config_entry_count (lib : switch_library) (v : List Char) (l : partition_config)
    (hrange : lib.IsBetweenRange v.length 1 128 = true) (hne : v ≠ []) :
    parse_config_entry lib "retention.segments.count".toList v l =
      (if lib.AsUint32 v < 2 ∧ lib.AsUint32 v ≠ 0 then some .range_error else none,
        { l with roSegmentsCnt := lib.AsUint32 v }) := by
  unfold parse_config_entry
  rw [if_neg (not_not.mpr hrange), if_pos ⟨by decide, hne⟩, if_pos (by decide)]

theorem parse_config_entry_ratio (lib : switch_library) (v : List Char) (l : partition_config)
    (hrange : lib.IsBetweenRange v.length 1 128 = true) (hne : v ≠ []) :
    parse_config_entry lib "log.cleaner.min.cleanable.ratio".toList v l =
      (if lib.AsDouble v < 0 ∨ lib.AsDouble v > 1 then some .range_error else none,
        { l with logCleanRatioMin := lib.AsDouble v }) := by
  unfold parse_config_entry
  rw [if_neg (not_not.mpr hrange), if_pos ⟨by decide, hne⟩, if_neg (by decide),
    if_neg (by decide), if_pos (by decide)]

theorem parse_config_entry_sizes (lib : switch_library) (v : List Char) (s : Nat)
    (l : partition_config) (hrange : lib.IsBetweenRange v.length 1 128 = true) (hne : v ≠ [])
    (hv : parse_size v = .value s) :
    parse_config_entry lib "log.retention.bytes".toList v l =
      (if s < 128 ∧ s ≠ 0 then some .range_error else none, { l with roSegmentsSize := s }) ∧
    parse_config_entry lib "log.segment.bytes".toList v l =
      (if s < 64 then some .range_error else none, { l with maxSegmentSize := s }) ∧
    parse_config_entry lib "log.index.interval.bytes".toList v l =
      (if s < 128 then some .range_error else none, { l with indexInterval := s }) ∧
    parse_config_entry lib "log.index.size.max.bytes".toList v l =
      (if s < 128 then some .range_error else none, { l with maxIndexSize := s }) := by
  refine ⟨?_, ?_, ?_, ?_⟩
  · unfold parse_config_entry
    rw [if_neg (not_not.mpr hrange), if_pos ⟨by decide, hne⟩, if_neg (by decide),
      if_neg (by decide), if_neg (by decide), if_neg (by decide), if_pos (by decide), hv]
    exact store_parsed_value s l _ _ _ (by simp)
  · unfold parse_config_entry
    rw [if_neg (not_not.mpr hrange), if_pos ⟨by decide, hne⟩, if_neg (by decide),
      if_neg (by decide), if_neg (by decide), if_neg (by decide), if_neg (by decide),
      if_pos (by decide), hv]
    exact store_parsed_value s l _ _ _ (by simp)
  · unfold parse_config_entry
    rw [if_neg (not_not.mpr hrange), if_pos ⟨by decide, hne⟩, if_neg (by decide),
      if_neg (by decide), if_neg (by decide), if_neg (by decide), if_neg (by decide),
      if_neg (by decide), if_pos (by decide), hv]
    exact store_parsed_value s l _ _ _ (by simp)
  · unfold parse_config_entry
    rw [if_neg (not_not.mpr hrange), if_pos ⟨by decide, hne⟩, if_neg (by decide),
      if_neg (by decide), if_neg (by decide), if_neg (by decide), if_neg (by decide),
      if_neg (by decide), if_neg (by decide), if_pos (by decide), hv]
    exact store_parsed_value s l _ _ _ (by simp)

/-- C27. Validation is not atomic: let the lines before the last one be parsed
without an exception, leaving the configuration `l1`, and let the last line be
`key=v` with a value of 1 to 127 characters. When the value is refused with a
range error under one of the keys `retention.segments.count`,
`log.retention.bytes`, `log.segment.bytes`, `log.index.interval.bytes`,
`log.index.size.max.bytes` and `log.cleaner.min.cleanable.ratio`, the
configuration at the throw is `l1` (the earlier lines keep their effect) with
the refused value stored in the field of the key. -/
theorem parse_partition_config_not_atomic (lib : switch_library) (hlib : library_ok lib)
    (before : List (List Char)) (v : List Char) (l l1 : partition_config)
    (hb : ∀ x ∈ before, Char.ofNat 10 ∉ x)
    (hbefore : parse_partition_config lib (join_lines before) l = (none, l1))
    (hv : ∀ c ∈ v, c ∉ config_special) (hlen : 1 ≤ v.length ∧ v.length ≤ 127) :
    (lib.AsUint32 v = 1 →
      parse_partition_config lib
        (join_lines (before ++ ["retention.segments.count".toList ++ '=' :: v])) l =
        (some .range_error, { l1 with roSegmentsCnt := 1 })) ∧
    (∀ s, parse_size v = .value s → 0 < s → s < 128 →
      parse_partition_config lib
        (join_lines (before ++ ["log.retention.bytes".toList ++ '=' :: v])) l =
        (some .range_error, { l1 with roSegmentsSize := s })) ∧
    (∀ s, parse_size v = .value s → s < 64 →
      parse_partition_config lib
        (join_lines (before ++ ["log.segment.bytes".toList ++ '=' :: v])) l =
        (some .range_error, { l1 with maxSegmentSize := s })) ∧
    (∀ s, parse_size v = .value s → s < 128 →
      parse_partition_config lib
        (join_lines (before ++ ["log.index.interval.bytes".toList ++ '=' :: v])) l =
        (some .range_error, { l1 with indexInterval := s })) ∧
    (∀ s, parse_size v = .value s → s < 128 →
      parse_partition_config lib
        (join_lines (before ++ ["log.index.size.max.bytes".toList ++ '=' :: v])) l =
        (some .range_error, { l1 with maxIndexSize := s })) ∧
    (lib.AsDouble v < 0 ∨ lib.AsDouble v > 1 →
      parse_partition_config lib
        (join_lines (before ++ ["log.cleaner.min.cleanable.ratio".toList ++ '=' :: v])) l =
        (some .range_error, { l1 with logCleanRatioMin := lib.AsDouble v })) := by
  have hrange : lib.IsBetweenRange v.length 1 128 = true :=
    (hlib.1 v.length 1 128).1 hlen.1 (by omega)
  have hne : v ≠ [] := by
    intro e
    rw [e] at hlen
    simp at hlen
  refine ⟨fun h => ?_, fun s hs h0 h1 => ?_, fun s hs h1 => ?_, fun s hs h1 => ?_,
    fun s hs h1 => ?_, fun h => ?_⟩
  · rw [parse_partition_config_last_entry lib before _ v l l1 hb hbefore (by decide) hv,
      parse_config_entry_count lib v l1 hrange hne, h]
    rfl
  · rw [parse_partition_config_last_entry lib before _ v l l1 hb hbefore (by decide) hv,
      (parse_config_entry_sizes lib v s l1 hrange hne hs).1, if_pos ⟨h1, by omega⟩]
  · rw [parse_partition_config_last_entry lib before _ v l l1 hb hbefore (by decide) hv,
      (parse_config_entry_sizes lib v s l1 hrange hne hs).2.1, if_pos h1]
  · rw [parse_partition_config_last_entry lib before _ v l l1 hb hbefore (by decide) hv,
      (parse_config_entry_sizes lib v s l1 hrange hne hs).2.2.1, if_pos h1]
  · rw [parse_partition_config_last_entry lib before _ v l l1 hb hbefore (by decide) hv,
      (parse_config_entry_sizes lib v s l1 hrange hne hs).2.2.2, if_pos h1]
  · rw [parse_partition_config_last_entry lib before _ v l l1 hb hbefore (by decide) hv,
      parse_config_entry_ratio lib v l1 hrange hne, if_pos h]

/-- Witness of C27: after `log.segment.bytes=1k`, the value 1 is refused as
segment count and as retention size, and is in the configuration at the
throw, next to the segment size 1024 of the first line. -/
theorem parse_partition_config_not_atomic_witness :
    parse_partition_config (example_library false)
        (join_lines (["log.segment.bytes=1k".toList] ++
          ["retention.segments.count".toList ++ '=' :: "1".toList])) (retention_limits 0 0 0) =
      (some .range_error, { retention_limits 1 0 0 with maxSegmentSize := 1024 }) ∧
    parse_partition_config (example_library false)
        (join_lines (["log.segment.bytes=1k".toList] ++
          ["log.retention.bytes".toList ++ '=' :: "1".toList])) (retention_limits 0 0 0) =
      (some .range_error, { retention_limits 0 1 0 with maxSegmentSize := 1024 }) :=
  ⟨(parse_partition_config_not_atomic (example_library false) (example_library_ok false)
      ["log.segment.bytes=1k".toList] "1".toList (retention_limits 0 0 0)
      { retention_limits 0 0 0 with maxSegmentSize := 1024 } (by decide) (by decide)
      (by decide) (by decide)).1 (by decide),
   (parse_partition_config_not_atomic (example_library false) (example_library_ok false)
      ["log.segment.bytes=1k".toList] "1".toList (retention_limits 0 0 0)
      { retention_limits 0 0 0 with maxSegmentSize := 1024 } (by decide) (by decide)
      (by decide) (by decide)).2.1 1 (by decide) (by decide) (by decide)⟩


/-! ## Size texts: long unit names -/

/-- A number followed by a unit name of which the chain removes only a part:
the rest of the name stays in the text and the second pass finds no digit. -/
theorem quantity_loop_leftover (M : Nat) (units : List (List String × Nat)) (fuel : Nat)
    (ds u : List Char) (scale : Nat) (c : Char) (rest : List Char) (sum : Nat)
    (hds : is_digits ds) (hu : unit_scale units u = (scale, c :: rest))
    (hhead : ∀ x ∈ u.head?, x.isDigit = false) (hc : ¬ is_boundary c) :
    quantity_loop M units (fuel + 2) (ds ++ u) sum = .thrown .data_error := by
  have hdigit : c.isDigit = false := by
    cases h : c.isDigit with
    | false => rfl
    | true => exact absurd (Or.inl h) hc
  have hcomma : c ≠ ',' := fun h => hc (Or.inr (Or.inl h))
  have hplus : c ≠ '+' := fun h => hc (Or.inr (Or.inr h))
  unfold quantity_loop
  rw [quantity_step_digits M units ds u hds hhead, hu]
  simp only [strip_optional_comma, strip_optional_plus, hcomma, hplus, if_false]
  simp only [reduceCtorEq, if_false]
  unfold quantity_loop
  have hstep : quantity_step M units (c :: rest) = none := by
    simp [quantity_step, scan_digits, hdigit]
  rw [hstep]

/-- C29. Long unit names in `parse_size` are not handled uniformly: for every
non-empty decimal digit string `n`, `parse_size` succeeds on `n ++ "kilobyte"`,
`n ++ "megabyte"`, `n ++ "terabyte"` and `n ++ "gigabytes"`, returning
`value n` times 1024, `1024 ^ 2`, `1024 ^ 4` and `1024 ^ 3` (in 64-bit
arithmetic, so exactly that product when it is below `2 ^ 64`), but throws a
data error on `n ++ "gigabyte"`: the chain has `gibabyte` in place of
`gigabyte`, so only the leading `g` is removed and `igabyte` is left. -/
theorem parse_size_long_names (n : List Char) (hn : is_digits n) :
    (∀ p ∈ long_size_names,
      parse_size (n ++ p.1.toList) = .value (decimal_value n * p.2 % 2 ^ 64) ∧
      (decimal_value n * p.2 < 2 ^ 64 →
        parse_size (n ++ p.1.toList) = .value (decimal_value n * p.2))) ∧
    unit_scale size_units "gigabyte".toList = (1024 ^ 3, "igabyte".toList) ∧
    parse_size (n ++ "gigabyte".toList) = .thrown .data_error := by
  have key : ∀ p ∈ long_size_names,
      unit_scale size_units p.1.toList = (p.2, []) ∧
        ∀ c ∈ p.1.toList.head?, c.isDigit = false := by decide
  have hvalue : ∀ p ∈ long_size_names,
      parse_size (n ++ p.1.toList) = .value (decimal_value n * p.2 % 2 ^ 64) := by
    intro p hp
    obtain ⟨h1, h2⟩ := key p hp
    unfold parse_size
    rw [quantity_loop_single (2 ^ 64) size_units _ n p.1.toList p.2 0 hn h1 h2,
      mod_component, Nat.zero_add]
  refine ⟨fun p hp => ⟨hvalue p hp, fun hfit => ?_⟩, by decide, ?_⟩
  · rw [hvalue p hp, Nat.mod_eq_of_lt hfit]
  · unfold parse_size
    have hlen : (n ++ "gigabyte".toList).length + 1 = (n.length + 7) + 2 := by
      rw [List.length_append]
      rfl
    rw [hlen]
    exact quantity_loop_leftover (2 ^ 64) size_units _ n "gigabyte".toList (1024 ^ 3) 'i'
      "gabyte".toList 0 hn (by decide) (by decide) (by decide)

/-- Witness of C29: `2kilobyte` and `2gigabytes` are sizes, `2gigabyte` is
refused. -/
theorem parse_size_long_names_witness :
    parse_size ("2".toList ++ "kilobyte".toList) = .value 2048 ∧
    parse_size ("2".toList ++ "gigabytes".toList) = .value (2 * 1024 ^ 3) ∧
    parse_size ("2".toList ++ "gigabyte".toList) = .thrown .data_error :=
  ⟨((parse_size_long_names "2".toList (by decide)).1 ("kilobyte", 1024) (by decide)).2
      (by decide),
   ((parse_size_long_names "2".toList (by decide)).1 ("gigabytes", 1024 ^ 3) (by decide)).2
      (by decide),
   (parse_size_long_names "2".toList (by decide)).2.2⟩



/-! ## Flush scheduling -/

/-- C22. After `schedule_flush(now)`: `pendingFlushMsgs` is 0, `nextFlushTS`
is `now + flushIntervalSecs` in 32-bit arithmetic, and the mailbox is the old
mailbox followed by exactly one pair, (data fd, index fd) of the active
segment: the pairs queued before are unchanged and in order. -/
theorem schedule_flush_enqueues (ctx : flush_context) (now : Nat) :
    (schedule_flush ctx now).cur.flush_state.pendingFlushMsgs = 0 ∧
    (schedule_flush ctx now).cur.flush_state.nextFlushTS =
      (now + ctx.config.flushIntervalSecs) % 2 ^ 32 ∧
    (schedule_flush ctx now).mbox = ctx.mbox ++ [(ctx.cur.fd, ctx.cur.index_fd)] ∧
    (schedule_flush ctx now).mbox.length = ctx.mbox.length + 1 ∧
    (∀ (i : Nat) (p : Int × Int), ctx.mbox[i]? = some p →
      (schedule_flush ctx now).mbox[i]? = some p) ∧
    (schedule_flush ctx now).mbox[ctx.mbox.length]? = some (ctx.cur.fd, ctx.cur.index_fd) ∧
    (schedule_flush ctx now).cur.fd = ctx.cur.fd ∧
    (schedule_flush ctx now).cur.index_fd = ctx.cur.index_fd ∧
    (schedule_flush ctx now).config = ctx.config := by
  refine ⟨rfl, rfl, rfl, by simp [schedule_flush], ?_, by simp [schedule_flush], rfl, rfl, rfl⟩
  intro i p h
  have hi : i < ctx.mbox.length := (List.getElem?_eq_some_iff.mp h).1
  show (ctx.mbox ++ [(ctx.cur.fd, ctx.cur.index_fd)])[i]? = some p
  rw [List.getElem?_append_left hi, h]

/-! ## The passive cache -/

theorem sweep_active_filter :
    ∀ (rest pre : List topic_partition) (st : service_state),
      st.active_partitions = pre ++ rest → (pre ++ rest).Nodup →
      sweep_active rest st = some { st with
        active_partitions :=
          pre ++ rest.filter (fun p => decide (¬ p.last_access + 16 ≤ st.curTime)),
        closed := st.closed ++ rest.filter (fun p => decide (p.last_access + 16 ≤ st.curTime)) } := by
  intro rest
  induction rest with
  | nil =>
    intro pre st h _
    simp only [sweep_active, List.filter_nil, List.append_nil]
    rw [List.append_nil] at h
    rw [← h]
  | cons part rest ih =>
    intro pre st h hnd
    have hmem : part ∈ st.active_partitions := by rw [h]; simp
    have hpre : part ∉ pre := by
      intro hp
      have := List.nodup_append.mp hnd
      exact this.2.2 hp (by simp)
    have hrest : part ∉ rest := by
      have := (List.nodup_append.mp hnd).2.1
      exact (List.nodup_cons.mp this).1
    unfold sweep_active
    rw [if_neg (not_not.mpr hmem)]
    by_cases hexp : part.last_access + 16 ≤ st.curTime
    · rw [if_pos hexp]
      have herase : st.active_partitions.erase part = pre ++ rest := by
        rw [h, List.erase_append_right _ hpre, List.erase_cons_head]
      have hnot : part ∉ (close_partition_log st part).active_partitions := by
        simp only [close_partition_log, herase, List.mem_append, not_or]
        exact ⟨hpre, hrest⟩
      simp only [hnot, if_false]
      rw [ih pre (close_partition_log st part) (by simp [close_partition_log, herase])
        (by
          have h1 := List.nodup_append.mp hnd
          refine List.nodup_append.mpr ⟨h1.1, (List.nodup_cons.mp h1.2.1).2, ?_⟩
          intro a ha hb
          exact h1.2.2 ha (by simp [hb]))]
      simp [close_partition_log, hexp]
    · rw [if_neg hexp]
      rw [ih (pre ++ [part]) st (by rw [h]; simp) (by simpa using hnd)]
      have e1 : (part :: rest).filter (fun p => decide (¬ p.last_access + 16 ≤ st.curTime)) =
          part :: rest.filter (fun p => decide (¬ p.last_access + 16 ≤ st.curTime)) := by
        rw [List.filter_cons, if_pos (by simpa using hexp)]
      have e2 : (part :: rest).filter (fun p => decide (p.last_access + 16 ≤ st.curTime)) =
          rest.filter (fun p => decide (p.last_access + 16 ≤ st.curTime)) := by
        rw [List.filter_cons, if_neg (by simpa using hexp)]
      rw [e1, e2, List.append_assoc]
      rfl

/-- C25. Passive cache sweep, with `close_partition_log` unlinking the
partition from the active list: `consider_active_partitions` at time `curTime`
keeps exactly the partitions with `last_access + 16 > curTime` (in their
order), closes the log of every other partition of the list exactly once, and
sets `next_active_partitions_check` to the maximum `uint64_t` when the list
ends up empty and to `now_ms + 8000` (as a `uint64_t`) otherwise. -/
theorem consider_active_partitions_sweep (st : service_state)
    (hnodup : st.active_partitions.Nodup) :
    ∃ (st1 : service_state) (calls : List topic_partition),
      consider_active_partitions st = some st1 ∧
      (∀ p, p ∈ st1.active_partitions ↔
        p ∈ st.active_partitions ∧ p.last_access + 16 > st.curTime) ∧
      st1.active_partitions.Sublist st.active_partitions ∧
      st1.closed = st.closed ++ calls ∧
      (∀ p, p ∈ st.active_partitions → p.last_access + 16 ≤ st.curTime → calls.count p = 1) ∧
      (∀ p, ¬ (p ∈ st.active_partitions ∧ p.last_access + 16 ≤ st.curTime) →
        calls.count p = 0) ∧
      st1.next_active_partitions_check =
        (if st1.active_partitions = [] then 2 ^ 64 - 1 else (st.now_ms + 8000) % 2 ^ 64) := by
  have h := sweep_active_filter st.active_partitions [] st rfl (by simpa using hnodup)
  rw [List.nil_append] at h
  refine ⟨{ st with
      active_partitions :=
        st.active_partitions.filter (fun p => decide (¬ p.last_access + 16 ≤ st.curTime)),
      closed := st.closed ++
        st.active_partitions.filter (fun p => decide (p.last_access + 16 ≤ st.curTime)),
      next_active_partitions_check :=
        if st.active_partitions.filter (fun p => decide (¬ p.last_access + 16 ≤ st.curTime)) = []
        then 2 ^ 64 - 1 else (st.now_ms + 8000) % 2 ^ 64 },
    st.active_partitions.filter (fun p => decide (p.last_access + 16 ≤ st.curTime)),
    by simp only [consider_active_partitions, h], ?_, ?_, ?_, ?_, ?_, ?_⟩
  · intro p
    simp [List.mem_filter]
  · exact List.filter_sublist _
  · rfl
  · intro p hp hexp
    rw [List.count_eq_one_of_mem (hnodup.filter _)]
    exact List.mem_filter.mpr ⟨hp, by simpa using hexp⟩
  · intro p hp
    apply List.count_eq_zero_of_not_mem
    intro hmem
    have := List.mem_filter.mp hmem
    exact hp ⟨this.1, by simpa using this.2⟩
  · rfl

/-- Witness of C25: of three partitions last used at 100, 90 and 84, the sweep
at time 100 closes the third. -/
theorem consider_active_partitions_sweep_witness :
    ∃ (st1 : service_state) (calls : List topic_partition),
      consider_active_partitions example_service = some st1 ∧
      (∀ p, p ∈ st1.active_partitions ↔
        p ∈ example_service.active_partitions ∧
          p.last_access + 16 > example_service.curTime) ∧
      st1.active_partitions.Sublist example_service.active_partitions ∧
      st1.closed = example_service.closed ++ calls ∧
      (∀ p, p ∈ example_service.active_partitions →
        p.last_access + 16 ≤ example_service.curTime → calls.count p = 1) ∧
      (∀ p, ¬ (p ∈ example_service.active_partitions ∧
        p.last_access + 16 ≤ example_service.curTime) → calls.count p = 0) ∧
      st1.next_active_partitions_check =
        (if st1.active_partitions = [] then 2 ^ 64 - 1
         else (example_service.now_ms + 8000) % 2 ^ 64) :=
  consider_active_partitions_sweep example_service (by decide)


/-! ## Opening files -/

theorem safe_open_loop_retry (env : open_env) (fuel k : Nat) (h : open_retried env k) :
    safe_open_loop env (fuel + 1) k = safe_open_loop env fuel (k + 1) := by
  unfold open_retried at h
  conv_lhs => unfold safe_open_loop
  rcases h with h | ⟨h | h, hs⟩
  · rw [h]
  · rw [h]
    simp only [hs, if_true]
  · rw [h]
    simp only [hs, if_true]

theorem safe_open_loop_final (env : open_env) (fuel k : Nat) (h : ¬ open_retried env k) :
    safe_open_loop env (fuel + 1) k = .returned (env.open_call k).fd (k + 1) := by
  unfold open_retried at h
  unfold safe_open_loop
  cases hr : env.open_call k with
  | opened fd => rfl
  | EINTR => exact absurd (Or.inl hr) h
  | ENFILE =>
    have hs : env.try_shutdown_idle k = false := by
      cases hs : env.try_shutdown_idle k with
      | false => rfl
      | true => exact absurd (Or.inr ⟨Or.inl hr, hs⟩) h
    simp [hs, open_result.fd]
  | EMFILE =>
    have hs : env.try_shutdown_idle k = false := by
      cases hs : env.try_shutdown_idle k with
      | false => rfl
      | true => exact absurd (Or.inr ⟨Or.inr hr, hs⟩) h
    simp [hs, open_result.fd]
  | failed => rfl

/-- While every attempt is retried the loop goes on: whatever the budget, it
is used up. -/
theorem safe_open_loop_never (env : open_env) :
    ∀ (fuel k : Nat), (∀ j, k ≤ j → open_retried env j) →
      safe_open_loop env fuel k = .out_of_fuel (k + fuel) := by
  intro fuel
  induction fuel with
  | zero => intro k _; rfl
  | succ fuel ih =>
    intro k h
    rw [safe_open_loop_retry env fuel k (h k (Nat.le_refl k)),
      ih (k + 1) (fun j hj => h j (by omega))]
    congr 1
    omega

/-- The loop returns at the first attempt that is not retried. -/
theorem safe_open_loop_first (env : open_env) (k : Nat) (hk : ¬ open_retried env k) :
    ∀ (fuel k0 : Nat), k0 ≤ k → k - k0 < fuel →
      (∀ j, k0 ≤ j → j < k → open_retried env j) →
      safe_open_loop env fuel k0 = .returned (env.open_call k).fd (k + 1) := by
  intro fuel
  induction fuel with
  | zero => intro k0 _ h; omega
  | succ fuel ih =>
    intro k0 hle hfuel hretry
    by_cases hkk : k0 = k
    · subst hkk
      exact safe_open_loop_final env fuel k0 hk
    · rw [safe_open_loop_retry env fuel k0 (hretry k0 (Nat.le_refl k0) (by omega))]
      exact ih (k0 + 1) (by omega) (by omega) (fun j h1 h2 => hretry j (by omega) h2)

/-- C26, as stated, fails: when every `open()` fails with `EINTR`, or with
`EMFILE` while `try_shutdown_idle(1)` succeeds, `safe_open` does not return,
whatever number of attempts it is allowed: after `fuel` attempts it is about
to make the next one. -/
theorem safe_open_unbounded_counterexample :
    (∀ fuel : Nat, safe_open always_EINTR fuel = .out_of_fuel fuel) ∧
    (∀ fuel : Nat, safe_open always_EMFILE fuel = .out_of_fuel fuel) := by
  refine ⟨fun fuel => ?_, fun fuel => ?_⟩
  · have h := safe_open_loop_never always_EINTR fuel 0 (fun _ _ => Or.inl rfl)
    rw [Nat.zero_add] at h
    exact h
  · have h := safe_open_loop_never always_EMFILE fuel 0
      (fun _ _ => Or.inr ⟨Or.inr rfl, rfl⟩)
    rw [Nat.zero_add] at h
    exact h

/-- C26, amended. `safe_open` has no retry budget: it calls `open()` until a
call succeeds or fails in a way that is not retried (an error other than
`EINTR`, or `ENFILE`/`EMFILE` with `try_shutdown_idle(1)` failing), and then
returns the descriptor or `-1`; for every `N` there are outcomes with
`N + 1` attempts; and when every attempt fails with `EINTR`, or with
`ENFILE`/`EMFILE` while `try_shutdown_idle(1)` succeeds, it never returns. -/
theorem safe_open_retries :
    (∀ (env : open_env) (k : Nat), (∀ j, j < k → open_retried env j) → ¬ open_retried env k →
      ∀ fuel, k < fuel → safe_open env fuel = .returned (env.open_call k).fd (k + 1)) ∧
    (∀ N : Nat, ∃ env : open_env, ∀ fuel, N < fuel →
      safe_open env fuel = .returned 3 (N + 1)) ∧
    (∀ env : open_env, (∀ k, open_retried env k) →
      ∀ fuel, safe_open env fuel = .out_of_fuel fuel) := by
  have hfirst : ∀ (env : open_env) (k : Nat), (∀ j, j < k → open_retried env j) →
      ¬ open_retried env k →
      ∀ fuel, k < fuel → safe_open env fuel = .returned (env.open_call k).fd (k + 1) :=
    fun env k hretry hk fuel hfuel =>
      safe_open_loop_first env k hk fuel 0 (Nat.zero_le k) (by omega)
        (fun j _ h => hretry j h)
  refine ⟨hfirst, fun N => ⟨interrupted N, fun fuel hfuel => ?_⟩, fun env h fuel => ?_⟩
  · have h := hfirst (interrupted N) N
      (fun j hj => Or.inl (by simp [interrupted, hj]))
      (by simp [open_retried, interrupted]) fuel hfuel
    rw [h]
    simp [interrupted, open_result.fd]
  · have h2 := safe_open_loop_never env fuel 0 (fun j _ => h j)
    rw [Nat.zero_add] at h2
    exact h2

/-- Witness of the amended C26: interrupted five times, `safe_open` returns
the descriptor at the sixth attempt. -/
theorem safe_open_retries_witness :
    safe_open (interrupted 5) 10 = .returned ((interrupted 5).open_call 5).fd (5 + 1) :=
  safe_open_retries.1 (interrupted 5) 5 (by decide) (by decide) 10 (by decide)



/-! ## Opening an RO segment -/

theorem ro_segment_index_eq (env : segment_env) (seg : ro_segment) (wideEntries : Bool)
    (fd indexFd : Int) (rebuilt : Bool) (fx : ctor_effects) :
    ro_segment_index env seg wideEntries fd indexFd rebuilt fx =
      if env.lseek64 indexFd rebuilt = -1 then
        (.system_error, { fx with closes := fx.closes ++ [indexFd] })
      else if ¬ env.lseek64 indexFd rebuilt < env.index_fileSize_max then (.aborted, fx)
      else if ¬ (wideEntries = false) then (.aborted, fx)
      else if env.lseek64 indexFd rebuilt ≠ 0 then
        match env.mmap (env.lseek64 indexFd rebuilt).toNat indexFd 0 with
        | none => (.system_error, { fx with closes := fx.closes ++ [indexFd] })
        | some data =>
          (.completed
            { segment := seg, haveWideEntries := wideEntries, fd := fd,
              index := index_of_mapping (env.lseek64 indexFd rebuilt).toNat data },
            { fx with closes := fx.closes ++ [indexFd] })
      else
        (.completed
          { segment := seg, haveWideEntries := wideEntries, fd := fd,
            index := { fileSize := 0, data := none, relSeqNum := 0, absPhysical := 0 } },
          { fx with closes := fx.closes ++ [indexFd] }) :=
  rfl

/-- The index part of the constructor records no rebuild. -/
theorem ro_segment_index_rebuilds (env : segment_env) (seg : ro_segment) (wideEntries : Bool)
    (fd indexFd : Int) (rebuilt : Bool) (fx : ctor_effects) :
    (ro_segment_index env seg wideEntries fd indexFd rebuilt fx).2.rebuilds = fx.rebuilds := by
  rw [ro_segment_index_eq]
  by_cases h1 : env.lseek64 indexFd rebuilt = -1
  · rw [if_pos h1]
  · rw [if_neg h1]
    by_cases h2 : ¬ env.lseek64 indexFd rebuilt < env.index_fileSize_max
    · rw [if_pos h2]
    · rw [if_neg h2]
      by_cases h3 : ¬ (wideEntries = false)
      · rw [if_pos h3]
      · rw [if_neg h3]
        by_cases h4 : env.lseek64 indexFd rebuilt ≠ 0
        · rw [if_pos h4]
          cases hm : env.mmap (env.lseek64 indexFd rebuilt).toNat indexFd 0 <;> rfl
        · rw [if_neg h4]

/-- With wide entries the index part of the constructor builds no object. -/
theorem ro_segment_index_wide (env : segment_env) (seg : ro_segment)
    (fd indexFd : Int) (rebuilt : Bool) (fx : ctor_effects) :
    (ro_segment_index env seg true fd indexFd rebuilt fx).1 = .system_error ∨
    (ro_segment_index env seg true fd indexFd rebuilt fx).1 = .aborted := by
  rw [ro_segment_index_eq]
  by_cases h1 : env.lseek64 indexFd rebuilt = -1
  · rw [if_pos h1]
    exact Or.inl rfl
  · rw [if_neg h1]
    by_cases h2 : ¬ env.lseek64 indexFd rebuilt < env.index_fileSize_max
    · rw [if_pos h2]
      exact Or.inr rfl
    · rw [if_neg h2, if_pos (by decide)]
      exact Or.inr rfl

/-- An object built by the index part of the constructor carries the flag it
was called with. -/
theorem ro_segment_index_completed (env : segment_env) (seg : ro_segment) (wideEntries : Bool)
    (fd indexFd : Int) (rebuilt : Bool) (fx : ctor_effects) (s : opened_segment)
    (h : (ro_segment_index env seg wideEntries fd indexFd rebuilt fx).1 = .completed s) :
    s.haveWideEntries = wideEntries := by
  rw [ro_segment_index_eq] at h
  by_cases h1 : env.lseek64 indexFd rebuilt = -1
  · rw [if_pos h1] at h
    cases h
  · rw [if_neg h1] at h
    by_cases h2 : ¬ env.lseek64 indexFd rebuilt < env.index_fileSize_max
    · rw [if_pos h2] at h
      cases h
    · rw [if_neg h2] at h
      by_cases h3 : ¬ (wideEntries = false)
      · rw [if_pos h3] at h
        cases h
      · rw [if_neg h3] at h
        by_cases h4 : env.lseek64 indexFd rebuilt ≠ 0
        · rw [if_pos h4] at h
          cases hm : env.mmap (env.lseek64 indexFd rebuilt).toNat indexFd 0 with
          | none => rw [hm] at h; cases h
          | some data =>
            rw [hm] at h
            simp only [ctor_outcome.completed.injEq] at h
            rw [← h]
        · rw [if_neg h4] at h
          simp only [ctor_outcome.completed.injEq] at h
          rw [← h]

theorem ro_segment_ctor_eq (env : segment_env) (absSeqNum lastAbsSeqNum : Nat) (base : String)
    (creationTS : Nat) (wideEntries : Bool) :
    ro_segment_ctor env absSeqNum lastAbsSeqNum base creationTS wideEntries =
      if ¬ lastAbsSeqNum ≥ absSeqNum then (.aborted, { rebuilds := [], closes := [] })
      else if env.safe_open
          (ro_segment_data_path base ⟨absSeqNum, lastAbsSeqNum, creationTS, 0⟩)
          .read_noatime = -1 then
        (.system_error, { rebuilds := [], closes := [] })
      else
        match env.fstat64 (env.safe_open
          (ro_segment_data_path base ⟨absSeqNum, lastAbsSeqNum, creationTS, 0⟩)
          .read_noatime) with
        | none => (.system_error, { rebuilds := [], closes := [] })
        | some size =>
          if size = -1 then (.system_error, { rebuilds := [], closes := [] })
          else if ¬ size < env.fileSize_max then (.aborted, { rebuilds := [], closes := [] })
          else if env.safe_open
              (if wideEntries then
                ro_segment_wide_index_path base ⟨absSeqNum, lastAbsSeqNum, creationTS, size.toNat⟩
               else
                ro_segment_index_path base ⟨absSeqNum, lastAbsSeqNum, creationTS, size.toNat⟩)
              .read_noatime = -1 then
            if env.safe_open
                (if wideEntries then
                  ro_segment_wide_index_path base
                    ⟨absSeqNum, lastAbsSeqNum, creationTS, size.toNat⟩
                 else
                  ro_segment_index_path base ⟨absSeqNum, lastAbsSeqNum, creationTS, size.toNat⟩)
                (if env.read_only then .read_plain else .create_rw) = -1 then
              (.system_error, { rebuilds := [], closes := [] })
            else if wideEntries then (.aborted, { rebuilds := [], closes := [] })
            else
              ro_segment_index env ⟨absSeqNum, lastAbsSeqNum, creationTS, size.toNat⟩
                wideEntries
                (env.safe_open
                  (ro_segment_data_path base ⟨absSeqNum, lastAbsSeqNum, creationTS, 0⟩)
                  .read_noatime)
                (env.safe_open
                  (if wideEntries then
                    ro_segment_wide_index_path base
                      ⟨absSeqNum, lastAbsSeqNum, creationTS, size.toNat⟩
                   else
                    ro_segment_index_path base
                      ⟨absSeqNum, lastAbsSeqNum, creationTS, size.toNat⟩)
                  (if env.read_only then .read_plain else .create_rw)) true
                { rebuilds := [(env.safe_open
                    (ro_segment_data_path base ⟨absSeqNum, lastAbsSeqNum, creationTS, 0⟩)
                    .read_noatime,
                  env.safe_open
                    (if wideEntries then
                      ro_segment_wide_index_path base
                        ⟨absSeqNum, lastAbsSeqNum, creationTS, size.toNat⟩
                     else
                      ro_segment_index_path base
                        ⟨absSeqNum, lastAbsSeqNum, creationTS, size.toNat⟩)
                    (if env.read_only then .read_plain else .create_rw))], closes := [] }
          else
            ro_segment_index env ⟨absSeqNum, lastAbsSeqNum, creationTS, size.toNat⟩
              wideEntries
              (env.safe_open
                (ro_segment_data_path base ⟨absSeqNum, lastAbsSeqNum, creationTS, 0⟩)
                .read_noatime)
              (env.safe_open
                (if wideEntries then
                  ro_segment_wide_index_path base
                    ⟨absSeqNum, lastAbsSeqNum, creationTS, size.toNat⟩
                 else
                  ro_segment_index_path base ⟨absSeqNum, lastAbsSeqNum, creationTS, size.toNat⟩)
                .read_noatime) false { rebuilds := [], closes := [] } :=
  rfl

/-- C23, as stated, fails. An index file that exists with length zero is
opened and left as it is: the constructor completes with an empty index and
`rebuild_index` is not called. And when the index file is missing and the
service is read-only, the second open fails and the constructor throws without
calling `rebuild_index`. -/
theorem ro_segment_empty_index_counterexample :
    files_with_empty_index.safe_open "/var/tank/events/0/0.index" .read_noatime = 4 ∧
    files_with_empty_index.lseek64 4 false = 0 ∧
    ro_segment_ctor files_with_empty_index 0 9 "/var/tank/events/0" 0 false =
      (.completed
        { segment := ⟨0, 9, 0, 500⟩, haveWideEntries := false, fd := 3,
          index := { fileSize := 0, data := none, relSeqNum := 0, absPhysical := 0 } },
       { rebuilds := [], closes := [4] }) ∧
    ro_segment_ctor (files_without_index true) 0 9 "/var/tank/events/0" 0 false =
      (.system_error, { rebuilds := [], closes := [] }) := by
  decide

/-- C23, amended. Index rebuild on open: when the constructor opens a segment
with narrow index entries, the data file opens and its size is read,
`Service::rebuild_index` is called (once, on the data and index descriptors)
if and only if the index file cannot be opened for reading and the second
open, which creates the file unless the service is read-only, succeeds. An
index file that can be opened is not rebuilt, also when its length is zero:
the segment is then built with an empty index. -/
theorem ro_segment_index_rebuild (env : segment_env) (absSeqNum lastAbsSeqNum : Nat)
    (base : String) (creationTS : Nat) (size : Int)
    (hseq : absSeqNum ≤ lastAbsSeqNum)
    (hfd : env.safe_open
      (ro_segment_data_path base ⟨absSeqNum, lastAbsSeqNum, creationTS, 0⟩) .read_noatime ≠ -1)
    (hstat : env.fstat64 (env.safe_open
      (ro_segment_data_path base ⟨absSeqNum, lastAbsSeqNum, creationTS, 0⟩) .read_noatime)
        = some size)
    (hsize : size ≠ -1 ∧ size < env.fileSize_max) :
    (ro_segment_ctor env absSeqNum lastAbsSeqNum base creationTS false).2.rebuilds =
      (if env.safe_open (ro_segment_index_path base
            ⟨absSeqNum, lastAbsSeqNum, creationTS, size.toNat⟩) .read_noatime = -1 ∧
          env.safe_open (ro_segment_index_path base
            ⟨absSeqNum, lastAbsSeqNum, creationTS, size.toNat⟩)
            (if env.read_only then .read_plain else .create_rw) ≠ -1
       then
        [(env.safe_open
            (ro_segment_data_path base ⟨absSeqNum, lastAbsSeqNum, creationTS, 0⟩) .read_noatime,
          env.safe_open (ro_segment_index_path base
            ⟨absSeqNum, lastAbsSeqNum, creationTS, size.toNat⟩)
            (if env.read_only then .read_plain else .create_rw))]
       else []) ∧
    (env.safe_open (ro_segment_index_path base
          ⟨absSeqNum, lastAbsSeqNum, creationTS, size.toNat⟩) .read_noatime ≠ -1 →
      env.lseek64 (env.safe_open (ro_segment_index_path base
          ⟨absSeqNum, lastAbsSeqNum, creationTS, size.toNat⟩) .read_noatime) false = 0 →
      0 < env.index_fileSize_max →
      (ro_segment_ctor env absSeqNum lastAbsSeqNum base creationTS false).1 =
        .completed
          { segment := ⟨absSeqNum, lastAbsSeqNum, creationTS, size.toNat⟩,
            haveWideEntries := false,
            fd := env.safe_open
              (ro_segment_data_path base ⟨absSeqNum, lastAbsSeqNum, creationTS, 0⟩)
              .read_noatime,
            index := { fileSize := 0, data := none, relSeqNum := 0, absPhysical := 0 } }) := by
  have hhead : ro_segment_ctor env absSeqNum lastAbsSeqNum base creationTS false =
      (if env.safe_open (ro_segment_index_path base
            ⟨absSeqNum, lastAbsSeqNum, creationTS, size.toNat⟩) .read_noatime = -1 then
        if env.safe_open (ro_segment_index_path base
            ⟨absSeqNum, lastAbsSeqNum, creationTS, size.toNat⟩)
            (if env.read_only then .read_plain else .create_rw) = -1 then
          (.system_error, { rebuilds := [], closes := [] })
        else
          ro_segment_index env ⟨absSeqNum, lastAbsSeqNum, creationTS, size.toNat⟩ false
            (env.safe_open
              (ro_segment_data_path base ⟨absSeqNum, lastAbsSeqNum, creationTS, 0⟩)
              .read_noatime)
            (env.safe_open (ro_segment_index_path base
              ⟨absSeqNum, lastAbsSeqNum, creationTS, size.toNat⟩)
              (if env.read_only then .read_plain else .create_rw)) true
            { rebuilds := [(env.safe_open
                (ro_segment_data_path base ⟨absSeqNum, lastAbsSeqNum, creationTS, 0⟩)
                .read_noatime,
              env.safe_open (ro_segment_index_path base
                ⟨absSeqNum, lastAbsSeqNum, creationTS, size.toNat⟩)
                (if env.read_only then .read_plain else .create_rw))], closes := [] }
      else
        ro_segment_index env ⟨absSeqNum, lastAbsSeqNum, creationTS, size.toNat⟩ false
          (env.safe_open
            (ro_segment_data_path base ⟨absSeqNum, lastAbsSeqNum, creationTS, 0⟩) .read_noatime)
          (env.safe_open (ro_segment_index_path base
            ⟨absSeqNum, lastAbsSeqNum, creationTS, size.toNat⟩) .read_noatime) false
          { rebuilds := [], closes := [] }) := by
    rw [ro_segment_ctor_eq, if_neg (not_not.mpr hseq), if_neg hfd, hstat]
    simp only
    rw [if_neg hsize.1, if_neg (not_not.mpr hsize.2)]
    simp only [Bool.false_eq_true, if_false]
  refine ⟨?_, fun hopen hzero hmax => ?_⟩
  · rw [hhead]
    by_cases h1 : env.safe_open (ro_segment_index_path base
        ⟨absSeqNum, lastAbsSeqNum, creationTS, size.toNat⟩) .read_noatime = -1
    · rw [if_pos h1]
      by_cases h2 : env.safe_open (ro_segment_index_path base
          ⟨absSeqNum, lastAbsSeqNum, creationTS, size.toNat⟩)
          (if env.read_only then .read_plain else .create_rw) = -1
      · rw [if_pos h2, if_neg (fun h => h.2 h2)]
      · rw [if_neg h2, if_pos (And.intro h1 h2), ro_segment_index_rebuilds]
    · rw [if_neg h1, if_neg (fun h => h1 h.1), ro_segment_index_rebuilds]
  · rw [hhead, if_neg hopen, ro_segment_index_eq, hzero]
    rw [if_neg (by decide), if_neg (not_not.mpr hmax), if_neg (by decide), if_neg (by decide)]

/-- Witness of the amended C23: the index file is missing and is created, so
`rebuild_index` is called on the descriptors 3 and 4. -/
theorem ro_segment_index_rebuild_witness :
    (ro_segment_ctor (files_without_index false) 0 9 "/var/tank/events/0" 0 false).2.rebuilds =
      [(3, 4)] :=
  (ro_segment_index_rebuild (files_without_index false) 0 9 "/var/tank/events/0" 0 500
    (by decide) (by decide) (by decide) (by decide)).1

/-- C24. Wide index entries are rejected: for every base and last sequence
number, creation timestamp and file-system state, the constructor called with
`wideEntries = true` builds no object: it throws or stops at a failed check,
before `index.fileSize` is assigned and without a call of `rebuild_index`; so
an object that the constructor built has `haveWideEntries = false`. -/
theorem ro_segment_wide_rejected (env : segment_env) (absSeqNum lastAbsSeqNum : Nat)
    (base : String) (creationTS : Nat) :
    ((ro_segment_ctor env absSeqNum lastAbsSeqNum base creationTS true).1 = .system_error ∨
      (ro_segment_ctor env absSeqNum lastAbsSeqNum base creationTS true).1 = .aborted) ∧
    (ro_segment_ctor env absSeqNum lastAbsSeqNum base creationTS true).2.rebuilds = [] ∧
    ∀ (wideEntries : Bool) (s : opened_segment),
      (ro_segment_ctor env absSeqNum lastAbsSeqNum base creationTS wideEntries).1 =
        .completed s → wideEntries = false ∧ s.haveWideEntries = false := by
  have hflag : ∀ (wideEntries : Bool),
      (((ro_segment_ctor env absSeqNum lastAbsSeqNum base creationTS wideEntries).1 =
          .system_error ∨
        (ro_segment_ctor env absSeqNum lastAbsSeqNum base creationTS wideEntries).1 =
          .aborted) ∧
        (ro_segment_ctor env absSeqNum lastAbsSeqNum base creationTS wideEntries).2.rebuilds
          = []) ∨
      ∃ (seg : ro_segment) (fd indexFd : Int) (rebuilt : Bool) (fx : ctor_effects),
        (wideEntries = true → fx.rebuilds = []) ∧
        ro_segment_ctor env absSeqNum lastAbsSeqNum base creationTS wideEntries =
          ro_segment_index env seg wideEntries fd indexFd rebuilt fx := by
    intro wideEntries
    rw [ro_segment_ctor_eq]
    by_cases h1 : ¬ lastAbsSeqNum ≥ absSeqNum
    · rw [if_pos h1]
      exact Or.inl ⟨Or.inr rfl, rfl⟩
    · rw [if_neg h1]
      by_cases h2 : env.safe_open
          (ro_segment_data_path base ⟨absSeqNum, lastAbsSeqNum, creationTS, 0⟩)
          .read_noatime = -1
      · rw [if_pos h2]
        exact Or.inl ⟨Or.inl rfl, rfl⟩
      · rw [if_neg h2]
        cases hst : env.fstat64 (env.safe_open
            (ro_segment_data_path base ⟨absSeqNum, lastAbsSeqNum, creationTS, 0⟩)
            .read_noatime) with
        | none => exact Or.inl ⟨Or.inl rfl, rfl⟩
        | some size =>
          simp only
          by_cases h3 : size = -1
          · rw [if_pos h3]
            exact Or.inl ⟨Or.inl rfl, rfl⟩
          · rw [if_neg h3]
            by_cases h4 : ¬ size < env.fileSize_max
            · rw [if_pos h4]
              exact Or.inl ⟨Or.inr rfl, rfl⟩
            · rw [if_neg h4]
              by_cases h5 : env.safe_open
                  (if wideEntries then
                    ro_segment_wide_index_path base
                      ⟨absSeqNum, lastAbsSeqNum, creationTS, size.toNat⟩
                   else
                    ro_segment_index_path base
                      ⟨absSeqNum, lastAbsSeqNum, creationTS, size.toNat⟩)
                  .read_noatime = -1
              · rw [if_pos h5]
                by_cases h6 : env.safe_open
                    (if wideEntries then
                      ro_segment_wide_index_path base
                        ⟨absSeqNum, lastAbsSeqNum, creationTS, size.toNat⟩
                     else
                      ro_segment_index_path base
                        ⟨absSeqNum, lastAbsSeqNum, creationTS, size.toNat⟩)
                    (if env.read_only then .read_plain else .create_rw) = -1
                · rw [if_pos h6]
                  exact Or.inl ⟨Or.inl rfl, rfl⟩
                · rw [if_neg h6]
                  by_cases h7 : wideEntries = true
                  · rw [if_pos h7]
                    exact Or.inl ⟨Or.inr rfl, rfl⟩
                  · rw [if_neg h7]
                    exact Or.inr ⟨_, _, _, _, _, fun h => absurd h h7, rfl⟩
              · rw [if_neg h5]
                exact Or.inr ⟨_, _, _, _, _, fun _ => rfl, rfl⟩
  have hwide : (ro_segment_ctor env absSeqNum lastAbsSeqNum base creationTS true).1 =
        .system_error ∨
      (ro_segment_ctor env absSeqNum lastAbsSeqNum base creationTS true).1 = .aborted := by
    rcases hflag true with h | ⟨seg, fd, indexFd, rebuilt, fx, _, h⟩
    · exact h.1
    · rw [h]
      exact ro_segment_index_wide env seg fd indexFd rebuilt fx
  have hnone : (ro_segment_ctor env absSeqNum lastAbsSeqNum base creationTS true).2.rebuilds
      = [] := by
    rcases hflag true with h | ⟨seg, fd, indexFd, rebuilt, fx, hfx, h⟩
    · exact h.2
    · rw [h, ro_segment_index_rebuilds]
      exact hfx rfl
  refine ⟨hwide, hnone, fun wideEntries s hs => ?_⟩
  cases wideEntries with
  | true =>
    rcases hwide with h | h <;> rw [h] at hs <;> cases hs
  | false =>
    refine ⟨rfl, ?_⟩
    rcases hflag false with h | ⟨seg, fd, indexFd, rebuilt, fx, _, h⟩
    · rcases h.1 with h | h <;> rw [h] at hs <;> cases hs
    · rw [h] at hs
      exact ro_segment_index_completed env seg false fd indexFd rebuilt fx s hs


end Tank
